import Mathlib

/-!
Verification of the grid/geometry library and the search routines of the
Advent-of-Code repository (2024 cycle), against its natural-language
specification.  The Rust sources are shallowly embedded: `usize` is modelled
as `ℕ` together with the explicit bound `2 ^ 64`, `isize` as `ℤ` with wrapping
applied exactly where the Rust source performs an `as` cast or a wrapping
negation, fallible operations return `Option`, and panicking operations
return `Except`.
-/

namespace AoC

/-! ## Machine-integer model (64-bit `usize` / `isize`) -/

/-- Number of values of a 64-bit machine word. -/
def wordCount : ℕ := 2 ^ 64

/-- Largest `usize` value (`usize::MAX`). -/
def usizeMax : ℕ := 2 ^ 64 - 1

/-- Largest `isize` value (`isize::MAX`). -/
def isizeMax : ℤ := 2 ^ 63 - 1

/-- Smallest `isize` value (`isize::MIN`). -/
def isizeMin : ℤ := -(2 ^ 63)

/-- Models the Rust cast `n as isize` on a `usize` value: the low 64 bits are
reinterpreted as a two's-complement signed integer. -/
def usizeAsIsize (n : ℕ) : ℤ :=
  if n % wordCount < 2 ^ 63 then ((n % wordCount : ℕ) : ℤ)
  else ((n % wordCount : ℕ) : ℤ) - 2 ^ 64

/-- Models wrapping (release-mode) negation of an `isize` value: the
mathematical negation reduced into the representable range
`[isize::MIN, isize::MAX]`. -/
def isizeNegWrap (z : ℤ) : ℤ :=
  (-z + 2 ^ 63) % 2 ^ 64 - 2 ^ 63

/-- Models `usize::checked_add_signed`: `x + d` if it is representable as a
`usize` (i.e. lies in `[0, usize::MAX]`), `None` otherwise. -/
def checked_add_signed (x : ℕ) (d : ℤ) : Option ℕ :=
  if 0 ≤ (x : ℤ) + d ∧ (x : ℤ) + d ≤ (usizeMax : ℤ) then some ((x : ℤ) + d).toNat
  else none

/-- Models `usize::abs_diff`. -/
def abs_diff (a b : ℕ) : ℕ := if b ≤ a then a - b else b - a

/-! ## Cardinal directions (`geometry.rs`) -/

/-- One of the four cardinal directions. -/
inductive Cardinal where
  | north
  | east
  | south
  | west
deriving DecidableEq

/-- Direction 90 degrees clockwise (`Cardinal::turn_right`). -/
def Cardinal.turn_right : Cardinal → Cardinal
  | .north => .east
  | .east => .south
  | .south => .west
  | .west => .north

/-- Direction 90 degrees counter-clockwise (`Cardinal::turn_left`). -/
def Cardinal.turn_left : Cardinal → Cardinal
  | .north => .west
  | .west => .south
  | .south => .east
  | .east => .north

/-- Opposite direction (`Cardinal::opposite`). -/
def Cardinal.opposite : Cardinal → Cardinal
  | .north => .south
  | .east => .west
  | .south => .north
  | .west => .east

/-- The list `Cardinal::ALL`. -/
def Cardinal.all : List Cardinal := [.north, .east, .south, .west]

/-- A "velocity" in cartesian space (`GridDelta`), a pair of `isize`. -/
structure GridDelta where
  dx : ℤ
  dy : ℤ
deriving DecidableEq

/-- The unit delta of a cardinal direction (`Into<GridDelta> for Cardinal`). -/
def Cardinal.toDelta : Cardinal → GridDelta
  | .north => ⟨0, -1⟩
  | .east => ⟨1, 0⟩
  | .south => ⟨0, 1⟩
  | .west => ⟨-1, 0⟩

/-- An unsigned 2D coordinate into a grid (`GridAddress`), a pair of `usize`. -/
structure GridAddress where
  x : ℕ
  y : ℕ
deriving DecidableEq

/-- Models `GridDelta::vector_between(start, end)` from `geometry.rs`: absolute
differences via `abs_diff`, cast to `isize` with the wrapping `as` conversion,
then negated (wrapping) when the target coordinate is not larger. -/
def GridDelta.vector_between (a b : GridAddress) : GridDelta :=
  ⟨if b.x > a.x then usizeAsIsize (abs_diff b.x a.x)
    else isizeNegWrap (usizeAsIsize (abs_diff b.x a.x)),
   if b.y > a.y then usizeAsIsize (abs_diff b.y a.y)
    else isizeNegWrap (usizeAsIsize (abs_diff b.y a.y))⟩

/-- Models `GridAddress::checked_add`: translate each axis with
`checked_add_signed`, propagating `None`. -/
def GridAddress.checked_add (a : GridAddress) (delta : GridDelta) : Option GridAddress := do
  let x ← checked_add_signed a.x delta.dx
  let y ← checked_add_signed a.y delta.dy
  some ⟨x, y⟩

/-! ## The grid container (`geometry.rs`) -/

/-- Simple cartesian grid where each cell is a `Tile` (`Grid<Tile>`). -/
structure Grid (Tile : Type) where
  rows : List (List Tile)

/-- Models `Grid::get`: look up row `y`, then entry `x` of that row. -/
def Grid.get {T : Type} (g : Grid T) (x y : ℕ) : Option T :=
  (g.rows.get? y).bind fun row => row.get? x

/-- Models `Grid::get_mut` as the tile the returned mutable reference would
point at; the success condition is identical to `Grid::get`. -/
def Grid.get_mut {T : Type} (g : Grid T) (x y : ℕ) : Option T :=
  (g.rows.get? y).bind fun row => row.get? x

/-- Models `Grid::get_at`. -/
def Grid.get_at {T : Type} (g : Grid T) (addr : GridAddress) : Option T :=
  g.get addr.x addr.y

/-- Models `Grid::width`: length of the first row, or 0 for an empty grid. -/
def Grid.width {T : Type} (g : Grid T) : ℕ :=
  match g.rows.head? with
  | some row => row.length
  | none => 0

/-- Models `Grid::height`. -/
def Grid.height {T : Type} (g : Grid T) : ℕ := g.rows.length

/-- Length of row `y`, or 0 when there is no such row; used to phrase the
bounds condition of `Grid::get` exactly. -/
def Grid.rowLen {T : Type} (g : Grid T) (y : ℕ) : ℕ :=
  ((g.rows.get? y).map List.length).getD 0

/-- Models writing through the reference returned by `Grid::get_mut`: replaces
the tile at `(x, y)` when it exists, and leaves the grid unchanged otherwise. -/
def Grid.set {T : Type} (g : Grid T) (x y : ℕ) (v : T) : Grid T :=
  match g.rows.get? y with
  | some row => ⟨g.rows.set y (row.set x v)⟩
  | none => g

/-- Models `Index<GridAddress> for Grid`: the successful lookup, or a fault
(the source panics with "Illegal address") as an `Except.error`. -/
def Grid.indexAt {T : Type} (g : Grid T) (addr : GridAddress) : Except String T :=
  match g.get_at addr with
  | some t => Except.ok t
  | none => Except.error "Illegal address for grid"

/-- Models `IndexMut<GridAddress> for Grid` (which calls
`get_mut(index.0, index.1)`): writing `v` at `addr`, or the fault. -/
def Grid.indexSetAt {T : Type} (g : Grid T) (addr : GridAddress) (v : T) :
    Except String (Grid T) :=
  match g.get_mut addr.x addr.y with
  | some _ => Except.ok (g.set addr.x addr.y v)
  | none => Except.error "Illegal address for grid"

/-! ## Basic lemmas about the machine-integer model -/

theorem usizeMax_int : (usizeMax : ℤ) = 18446744073709551615 := by
  norm_num [usizeMax]

theorem usizeAsIsize_of_small {n : ℕ} (h : n < 2 ^ 63) : usizeAsIsize n = (n : ℤ) := by
  have hlt : n < wordCount := lt_of_lt_of_le h (by norm_num [wordCount])
  unfold usizeAsIsize
  rw [Nat.mod_eq_of_lt hlt, if_pos h]

theorem isizeNegWrap_of_small {z : ℤ} (h0 : 0 ≤ z) (h : z < 2 ^ 63) :
    isizeNegWrap z = -z := by
  unfold isizeNegWrap
  rw [Int.emod_eq_of_lt (by omega) (by omega)]
  omega

theorem checked_add_eq_some_iff {a b : GridAddress} {d : GridDelta} :
    a.checked_add d = some b ↔
      ((b.x : ℤ) = (a.x : ℤ) + d.dx ∧ (b.y : ℤ) = (a.y : ℤ) + d.dy ∧
        b.x ≤ usizeMax ∧ b.y ≤ usizeMax) := by
  have hM := usizeMax_int
  unfold GridAddress.checked_add checked_add_signed
  by_cases hx : 0 ≤ (a.x : ℤ) + d.dx ∧ (a.x : ℤ) + d.dx ≤ (usizeMax : ℤ)
  · rw [if_pos hx]
    by_cases hy : 0 ≤ (a.y : ℤ) + d.dy ∧ (a.y : ℤ) + d.dy ≤ (usizeMax : ℤ)
    · rw [if_pos hy]
      simp only [Option.bind_eq_bind, Option.some_bind, Option.some.injEq]
      cases b with
      | mk bx b_y =>
        simp only [GridAddress.mk.injEq]
        constructor
        · rintro ⟨h1, h2⟩
          refine ⟨?_, ?_, ?_, ?_⟩ <;> omega
        · rintro ⟨h1, h2, h3, h4⟩
          constructor <;> omega
    · rw [if_neg hy]
      simp only [Option.bind_eq_bind, Option.some_bind, Option.none_bind, reduceCtorEq,
        false_iff]
      intro hcon
      exact hy ⟨by omega, by omega⟩
  · rw [if_neg hx]
    simp only [Option.bind_eq_bind, Option.none_bind, reduceCtorEq, false_iff]
    intro hcon
    exact hx ⟨by omega, by omega⟩

theorem checked_add_eq_none_iff {a : GridAddress} {d : GridDelta} :
    a.checked_add d = none ↔
      ((a.x : ℤ) + d.dx < 0 ∨ (usizeMax : ℤ) < (a.x : ℤ) + d.dx ∨
        (a.y : ℤ) + d.dy < 0 ∨ (usizeMax : ℤ) < (a.y : ℤ) + d.dy) := by
  have hM := usizeMax_int
  unfold GridAddress.checked_add checked_add_signed
  by_cases hx : 0 ≤ (a.x : ℤ) + d.dx ∧ (a.x : ℤ) + d.dx ≤ (usizeMax : ℤ)
  · rw [if_pos hx]
    by_cases hy : 0 ≤ (a.y : ℤ) + d.dy ∧ (a.y : ℤ) + d.dy ≤ (usizeMax : ℤ)
    · rw [if_pos hy]
      simp only [Option.bind_eq_bind, Option.some_bind, reduceCtorEq, false_iff]
      omega
    · rw [if_neg hy]
      simp only [Option.bind_eq_bind, Option.some_bind, Option.none_bind, true_iff]
      omega
  · rw [if_neg hx]
    simp only [Option.bind_eq_bind, Option.none_bind, true_iff]
    omega

/-! ## Claim C6 -/

/-- Claim C6 (amended): `GridAddress::checked_add` never faults and knows no
grid bounds: it is `None` exactly when a translated coordinate would leave the
`usize` range (below zero, or above `usize::MAX`), and otherwise `Some` of the
translated address. -/
theorem checked_add_total_characterization (a : GridAddress) (d : GridDelta) :
    (a.checked_add d = none ↔
      ((a.x : ℤ) + d.dx < 0 ∨ (usizeMax : ℤ) < (a.x : ℤ) + d.dx ∨
        (a.y : ℤ) + d.dy < 0 ∨ (usizeMax : ℤ) < (a.y : ℤ) + d.dy)) ∧
    (∀ b : GridAddress, a.checked_add d = some b ↔
      ((b.x : ℤ) = (a.x : ℤ) + d.dx ∧ (b.y : ℤ) = (a.y : ℤ) + d.dy ∧
        b.x ≤ usizeMax ∧ b.y ≤ usizeMax)) :=
  ⟨checked_add_eq_none_iff, fun _ => checked_add_eq_some_iff⟩

/-- Claim C6 counterexample: at `a = (usize::MAX, 0)` and `d = (1, 0)` the
addition returns `None` although neither translated coordinate is below zero,
refuting the claim that `None` occurs exactly on underflow below zero. -/
theorem checked_add_none_without_underflow :
    GridAddress.checked_add ⟨usizeMax, 0⟩ ⟨1, 0⟩ = none ∧
      ¬((usizeMax : ℤ) + 1 < 0 ∨ (0 : ℤ) + 0 < 0) := by
  have hM := usizeMax_int
  constructor
  · rw [checked_add_eq_none_iff]
    simp only
    omega
  · omega

/-! ## Claim C7 -/

/-- Claim C7: for any `usize`-valid address `a` and cardinal `c`, if
`a.checked_add(c.into())` succeeds with address `b`, then adding the opposite
cardinal's delta to `b` returns exactly `Some a`. -/
theorem checked_add_opposite_roundtrip (a b : GridAddress) (c : Cardinal)
    (hax : a.x ≤ usizeMax) (hay : a.y ≤ usizeMax)
    (h : a.checked_add c.toDelta = some b) :
    b.checked_add c.opposite.toDelta = some a := by
  rw [checked_add_eq_some_iff] at h
  rw [checked_add_eq_some_iff]
  cases c <;>
    simp only [Cardinal.toDelta, Cardinal.opposite] at h ⊢ <;>
    · obtain ⟨h1, h2, h3, h4⟩ := h
      refine ⟨by omega, by omega, hax, hay⟩

/-- Witness for claim C7 at the concrete input `a = (3, 4)`, `c = North`. -/
theorem checked_add_opposite_roundtrip_witness :
    GridAddress.checked_add ⟨3, 3⟩ Cardinal.north.opposite.toDelta = some ⟨3, 4⟩ := by
  apply checked_add_opposite_roundtrip ⟨3, 4⟩ ⟨3, 3⟩ Cardinal.north
  · norm_num [usizeMax]
  · norm_num [usizeMax]
  · rw [checked_add_eq_some_iff]
    refine ⟨by norm_num [Cardinal.toDelta], by norm_num [Cardinal.toDelta], ?_, ?_⟩ <;>
      norm_num [usizeMax]

/-! ## Claim C5 -/

theorem vector_between_axis {av bv : ℕ} (h : |(bv : ℤ) - (av : ℤ)| ≤ isizeMax) :
    (if bv > av then usizeAsIsize (abs_diff bv av)
      else isizeNegWrap (usizeAsIsize (abs_diff bv av))) = (bv : ℤ) - (av : ℤ) := by
  unfold isizeMax at h
  rw [abs_le] at h
  obtain ⟨hlo, hhi⟩ := h
  by_cases hgt : bv > av
  · rw [if_pos hgt]
    have hd : abs_diff bv av = bv - av := by
      unfold abs_diff
      rw [if_pos (le_of_lt hgt)]
    rw [hd, usizeAsIsize_of_small (by omega)]
    omega
  · rw [if_neg hgt]
    have hle : bv ≤ av := by omega
    have hd : abs_diff bv av = av - bv := by
      unfold abs_diff
      rcases Nat.lt_or_ge bv av with hlt | hge
      · rw [if_neg (by omega)]
      · have : bv = av := by omega
        subst this
        simp
    rw [hd, usizeAsIsize_of_small (by omega), isizeNegWrap_of_small (by omega) (by omega)]
    omega

/-- Claim C5 (amended): whenever the coordinate differences between `a` and
`b` are representable as `isize` (magnitude at most `isize::MAX`) and `b` is a
valid `usize` address, `vector_between(a, b)` is the exact signed displacement
from `a` to `b`, and `a.checked_add` of it returns exactly `Some b`. -/
theorem vector_between_exact (a b : GridAddress)
    (hbx : b.x ≤ usizeMax) (hby : b.y ≤ usizeMax)
    (hdx : |(b.x : ℤ) - (a.x : ℤ)| ≤ isizeMax) (hdy : |(b.y : ℤ) - (a.y : ℤ)| ≤ isizeMax) :
    GridDelta.vector_between a b = ⟨(b.x : ℤ) - (a.x : ℤ), (b.y : ℤ) - (a.y : ℤ)⟩ ∧
      a.checked_add (GridDelta.vector_between a b) = some b := by
  have hx := vector_between_axis hdx
  have hy := vector_between_axis hdy
  have hvb : GridDelta.vector_between a b = ⟨(b.x : ℤ) - (a.x : ℤ), (b.y : ℤ) - (a.y : ℤ)⟩ := by
    unfold GridDelta.vector_between
    rw [hx, hy]
  clear hx hy
  refine ⟨hvb, ?_⟩
  rw [hvb, checked_add_eq_some_iff]
  refine ⟨by ring, by ring, hbx, hby⟩

/-- Witness for claim C5 at the concrete input `a = (5, 1)`, `b = (2, 9)`. -/
theorem vector_between_exact_witness :
    GridDelta.vector_between ⟨5, 1⟩ ⟨2, 9⟩ = ⟨(2 : ℤ) - 5, (9 : ℤ) - 1⟩ ∧
      GridAddress.checked_add ⟨5, 1⟩ (GridDelta.vector_between ⟨5, 1⟩ ⟨2, 9⟩) =
        some ⟨2, 9⟩ := by
  apply vector_between_exact ⟨5, 1⟩ ⟨2, 9⟩ <;> norm_num [usizeMax, isizeMax]

/-- Claim C5 counterexample: for `a = (0, 0)` and `b = (2^63, 0)` (valid
64-bit `usize` coordinates), the wrapping `as isize` cast makes
`vector_between` return `isize::MIN` instead of the exact displacement
`+2^63`, so `a.checked_add(vector_between(a, b))` is `None`, not `Some b`. -/
theorem vector_between_wraps_on_huge_displacement :
    GridDelta.vector_between ⟨0, 0⟩ ⟨2 ^ 63, 0⟩ = ⟨isizeMin, 0⟩ ∧
      isizeMin ≠ (2 ^ 63 : ℤ) - (0 : ℤ) ∧
      GridAddress.checked_add ⟨0, 0⟩ (GridDelta.vector_between ⟨0, 0⟩ ⟨2 ^ 63, 0⟩) = none := by
  have hcast : usizeAsIsize (2 ^ 63) = isizeMin := by
    unfold usizeAsIsize wordCount
    rw [Nat.mod_eq_of_lt (by norm_num), if_neg (by norm_num)]
    norm_num [isizeMin]
  have habs : abs_diff (2 ^ 63) 0 = 2 ^ 63 := by
    unfold abs_diff
    rw [if_pos (Nat.zero_le _)]
    omega
  have habs0 : abs_diff 0 0 = 0 := rfl
  have hvb : GridDelta.vector_between ⟨0, 0⟩ ⟨2 ^ 63, 0⟩ = ⟨isizeMin, 0⟩ := by
    unfold GridDelta.vector_between
    simp only [habs, habs0, hcast]
    rw [if_pos (by norm_num), if_neg (by norm_num)]
    have h0 : usizeAsIsize 0 = 0 := usizeAsIsize_of_small (by norm_num)
    rw [h0, isizeNegWrap_of_small le_rfl (by norm_num)]
    norm_num
  refine ⟨hvb, by decide, ?_⟩
  rw [hvb, checked_add_eq_none_iff]
  left
  show ((0 : ℕ) : ℤ) + isizeMin < 0
  unfold isizeMin
  omega

/-! ## Claims C8 and C10 -/

/-- Shared bounds characterization of `Grid::get`. -/
theorem grid_get_eq_none_iff {T : Type} (g : Grid T) (x y : ℕ) :
    g.get x y = none ↔ (g.height ≤ y ∨ g.rowLen y ≤ x) := by
  unfold Grid.get Grid.height Grid.rowLen
  rcases hrow : g.rows.get? y with _ | row
  · have hy := List.get?_eq_none.mp hrow
    simp only [Option.none_bind, Option.map_none', Option.getD_none, true_iff]
    exact Or.inl hy
  · have hy : y < g.rows.length := by
      by_contra hcon
      rw [List.get?_eq_none.mpr (by omega)] at hrow
      cases hrow
    simp only [Option.some_bind, Option.map_some', Option.getD_some]
    rw [List.get?_eq_none]
    omega

/-- Claim C8: `get`/`get_mut` are bounds-checked (absence exactly when the row
index or the column index is out of range for the stored structure), and the
`Index`/`IndexMut` operators agree with `get_at`/`get_mut` on success, and
fault exactly when the checked lookup reports absence. -/
theorem grid_two_tier_access (T : Type) (g : Grid T) :
    (∀ x y : ℕ, g.get x y = none ↔ (g.height ≤ y ∨ g.rowLen y ≤ x)) ∧
    (∀ x y : ℕ, g.get_mut x y = g.get x y) ∧
    (∀ (addr : GridAddress) (t : T), g.get_at addr = some t ↔ g.indexAt addr = Except.ok t) ∧
    (∀ addr : GridAddress,
      g.get_at addr = none ↔ g.indexAt addr = Except.error "Illegal address for grid") ∧
    (∀ (addr : GridAddress) (v : T),
      (∃ g', g.indexSetAt addr v = Except.ok g') ↔ (g.get_mut addr.x addr.y).isSome) := by
  refine ⟨grid_get_eq_none_iff g, fun x y => rfl, ?_, ?_, ?_⟩
  · intro addr t
    unfold Grid.indexAt
    rcases hat : g.get_at addr with _ | t'
    · simp
    · simp only [Option.some.injEq, Except.ok.injEq]
  · intro addr
    unfold Grid.indexAt
    rcases hat : g.get_at addr with _ | t'
    · simp
    · simp
  · intro addr v
    unfold Grid.indexSetAt
    rcases hat : g.get_mut addr.x addr.y with _ | t'
    · simp
    · simp

/-! ## Claim C10 -/

/-- Claim C10: on any grid, including jagged ones, `get (x, y)` succeeds iff
`y` is a valid row index and `x` is within that particular row, while
`width` only reports the first row's length; consequently a jagged grid can
yield a tile at `x ≥ width()` and absence at `x < width()`, as the two
concrete grids show. -/
theorem grid_get_jagged_semantics :
    (∀ (T : Type) (g : Grid T) (x y : ℕ),
      (g.get x y).isSome ↔ (y < g.height ∧ x < g.rowLen y)) ∧
    (∀ (T : Type) (g : Grid T), g.width = g.rowLen 0) ∧
    ((Grid.mk [[0], [1, 2]] : Grid ℕ).get 1 1 = some 2 ∧
      (Grid.mk [[0], [1, 2]] : Grid ℕ).width = 1) ∧
    ((Grid.mk [[0, 1], [2]] : Grid ℕ).get 1 1 = none ∧
      (Grid.mk [[0, 1], [2]] : Grid ℕ).width = 2) := by
  refine ⟨?_, ?_, ⟨rfl, rfl⟩, ⟨rfl, rfl⟩⟩
  · intro T g x y
    rw [← Option.ne_none_iff_isSome, ne_eq, grid_get_eq_none_iff g x y]
    omega
  · intro T g
    unfold Grid.width Grid.rowLen
    cases hr : g.rows with
    | nil => simp
    | cons r rest => simp

/-! ## Generic reachability via iterated frontier expansion

Used to reason about the graph searches: `reachClosure` is a computable
over-approximation-free reachable set, `ReachableVia` the corresponding
inductive reachability predicate. -/

/-- One expansion step: a set together with all list-neighbors of its members. -/
def reachStep {α : Type} [DecidableEq α] (nbrs : α → List α) (s : Finset α) : Finset α :=
  s ∪ s.biUnion (fun a => (nbrs a).toFinset)

/-- Iterated expansion starting from `{start}`. -/
def reachClosure {α : Type} [DecidableEq α] (nbrs : α → List α) : ℕ → α → Finset α
  | 0, start => {start}
  | n + 1, start => reachStep nbrs (reachClosure nbrs n start)

/-- Reachability along the neighbor function. -/
inductive ReachableVia {α : Type} (nbrs : α → List α) (start : α) : α → Prop
  | refl : ReachableVia nbrs start start
  | step {a b : α} : ReachableVia nbrs start a → b ∈ nbrs a → ReachableVia nbrs start b

theorem reachClosure_subset_succ {α : Type} [DecidableEq α] (nbrs : α → List α)
    (n : ℕ) (start : α) : reachClosure nbrs n start ⊆ reachClosure nbrs (n + 1) start := by
  intro a ha
  exact Finset.mem_union_left _ ha

theorem reachClosure_mono {α : Type} [DecidableEq α] (nbrs : α → List α)
    {m n : ℕ} (h : m ≤ n) (start : α) :
    reachClosure nbrs m start ⊆ reachClosure nbrs n start := by
  induction n with
  | zero =>
    have hm : m = 0 := by omega
    subst hm
    exact subset_rfl
  | succ k ih =>
    rcases Nat.lt_or_ge m (k + 1) with hlt | hge
    · exact (ih (by omega)).trans (reachClosure_subset_succ nbrs k start)
    · have hm : m = k + 1 := by omega
      subst hm
      exact subset_rfl

theorem start_mem_reachClosure {α : Type} [DecidableEq α] (nbrs : α → List α)
    (n : ℕ) (start : α) : start ∈ reachClosure nbrs n start :=
  reachClosure_mono nbrs (Nat.zero_le n) start (Finset.mem_singleton_self start)

theorem reachClosure_sound {α : Type} [DecidableEq α] (nbrs : α → List α)
    (n : ℕ) (start : α) :
    ∀ a ∈ reachClosure nbrs n start, ReachableVia nbrs start a := by
  induction n with
  | zero =>
    intro a ha
    rw [reachClosure, Finset.mem_singleton] at ha
    subst ha
    exact ReachableVia.refl
  | succ k ih =>
    intro a ha
    rw [reachClosure, reachStep, Finset.mem_union] at ha
    rcases ha with ha | ha
    · exact ih a ha
    · rw [Finset.mem_biUnion] at ha
      obtain ⟨p, hp, hmem⟩ := ha
      rw [List.mem_toFinset] at hmem
      exact ReachableVia.step (ih p hp) hmem

theorem reachClosure_stable_forever {α : Type} [DecidableEq α] {nbrs : α → List α}
    {n : ℕ} {start : α}
    (h : reachClosure nbrs (n + 1) start = reachClosure nbrs n start) :
    ∀ m, n ≤ m → reachClosure nbrs m start = reachClosure nbrs n start := by
  intro m
  induction m with
  | zero =>
    intro hm
    have hn : n = 0 := by omega
    subst hn
    rfl
  | succ k ih =>
    intro hm
    rcases Nat.lt_or_ge n (k + 1) with hlt | hge
    · have hk := ih (by omega)
      calc reachClosure nbrs (k + 1) start
          = reachStep nbrs (reachClosure nbrs k start) := rfl
        _ = reachStep nbrs (reachClosure nbrs n start) := by rw [hk]
        _ = reachClosure nbrs (n + 1) start := rfl
        _ = reachClosure nbrs n start := h
    · have hn : n = k + 1 := by omega
      subst hn
      rfl

theorem reachClosure_growth {α : Type} [DecidableEq α] (nbrs : α → List α)
    (start : α) (n : ℕ)
    (h : ∀ k < n, reachClosure nbrs (k + 1) start ≠ reachClosure nbrs k start) :
    n + 1 ≤ (reachClosure nbrs n start).card := by
  induction n with
  | zero =>
    rw [reachClosure, Finset.card_singleton]
  | succ k ih =>
    have hk := ih (fun j hj => h j (by omega))
    have hne := h k (by omega)
    have hss : reachClosure nbrs k start ⊂ reachClosure nbrs (k + 1) start := by
      rw [Finset.ssubset_iff_subset_ne]
      exact ⟨reachClosure_subset_succ nbrs k start, fun hcon => hne hcon.symm⟩
    have := Finset.card_lt_card hss
    omega

theorem reachClosure_bounded {α : Type} [DecidableEq α] {nbrs : α → List α}
    {u : Finset α} (hbound : ∀ a b, b ∈ nbrs a → b ∈ u) (n : ℕ) (start : α) :
    reachClosure nbrs n start ⊆ insert start u := by
  induction n with
  | zero =>
    intro a ha
    rw [reachClosure, Finset.mem_singleton] at ha
    rw [ha]
    exact Finset.mem_insert_self start u
  | succ k ih =>
    intro a ha
    rw [reachClosure, reachStep, Finset.mem_union] at ha
    rcases ha with ha | ha
    · exact ih ha
    · rw [Finset.mem_biUnion] at ha
      obtain ⟨p, _, hmem⟩ := ha
      rw [List.mem_toFinset] at hmem
      exact Finset.mem_insert_of_mem (hbound p a hmem)

theorem reachClosure_complete {α : Type} [DecidableEq α] {nbrs : α → List α}
    {u : Finset α} (hbound : ∀ a b, b ∈ nbrs a → b ∈ u) (start a : α)
    (h : ReachableVia nbrs start a) :
    a ∈ reachClosure nbrs (u.card + 1) start := by
  by_cases hstab : ∃ k < u.card + 1, reachClosure nbrs (k + 1) start = reachClosure nbrs k start
  · obtain ⟨k, hk, hfix⟩ := hstab
    have hclosed : ∀ p ∈ reachClosure nbrs k start, ∀ b ∈ nbrs p,
        b ∈ reachClosure nbrs k start := by
      intro p hp b hb
      rw [← hfix]
      rw [reachClosure, reachStep, Finset.mem_union]
      right
      rw [Finset.mem_biUnion]
      exact ⟨p, hp, List.mem_toFinset.mpr hb⟩
    have hmem : a ∈ reachClosure nbrs k start := by
      induction h with
      | refl => exact start_mem_reachClosure nbrs k start
      | step hra hb ih => exact hclosed _ ih _ hb
    exact reachClosure_mono nbrs (by omega) start hmem
  · exfalso
    push_neg at hstab
    have hgrow := reachClosure_growth nbrs start (u.card + 1) hstab
    have hsub := reachClosure_bounded hbound (u.card + 1) start
    have hle := Finset.card_le_card hsub
    have hins := Finset.card_insert_le start u
    omega

/-- Completeness and soundness packaged: membership in the closure at fuel
`u.card + 1` coincides with reachability. -/
theorem mem_reachClosure_iff {α : Type} [DecidableEq α] {nbrs : α → List α}
    {u : Finset α} (hbound : ∀ a b, b ∈ nbrs a → b ∈ u) (start a : α) :
    a ∈ reachClosure nbrs (u.card + 1) start ↔ ReachableVia nbrs start a :=
  ⟨reachClosure_sound nbrs (u.card + 1) start a, reachClosure_complete hbound start a⟩

/-! ## Puzzle 16 data model (`puzzle16.rs`) -/

/-- Glorified boolean, representing a tile in the maze (`MazeTile`). -/
inductive MazeTile where
  | wall
  | openTile
deriving DecidableEq

/-- Helper struct remembering the start and end addresses (`MazeMetadata`). -/
structure MazeMetadata where
  start_address : GridAddress
  end_address : GridAddress
deriving DecidableEq

/-- A maze-graph node: an address plus the heading the runner is facing
(`MazePosition`). -/
structure MazePosition where
  address : GridAddress
  heading : Cardinal
deriving DecidableEq

/-- Result record of the modified Dijkstra: best cost plus every parent
achieving it (`PathData`). -/
structure PathData where
  cost : ℕ
  parents : List MazePosition
deriving DecidableEq

/-- Largest `u32` value (`u32::MAX`), the sentinel `solution_cost` falls back
to. -/
def u32Max : ℕ := 2 ^ 32 - 1

/-- Minimum of a list of costs, `none` on the empty list; models the
`min_by_key(...).map(cost)` combination in `solution_cost`, which only ever
uses the minimal cost itself. -/
def minCost : List ℕ → Option ℕ
  | [] => none
  | c :: rest =>
    match minCost rest with
    | none => some c
    | some m => some (min c m)

/-- Models `solution_cost` from `puzzle16.rs`: look up the end address under
all four headings in the path data, take the minimal recorded cost, and fall
back to `u32::MAX` when none of the four nodes was recorded. -/
def solution_cost (path_data : MazePosition → Option PathData)
    (maze_meta : MazeMetadata) : ℕ :=
  (minCost (Cardinal.all.filterMap
    (fun heading => (path_data ⟨maze_meta.end_address, heading⟩).map PathData.cost))).getD
    u32Max

/-! ## Puzzle 18 (`puzzle18.rs`) -/

/-- The neighbor enumeration `find_path` passes to the path search: each
cardinal step from `here` that stays inside the square grid of side
`grid_size` and avoids the obstacle set. -/
def neighborsOf (obstacles : Finset GridAddress) (grid_size : ℕ)
    (here : GridAddress) : List GridAddress :=
  (Cardinal.all.filterMap (fun c => here.checked_add c.toDelta)).filter
    (fun n => n.x < grid_size ∧ n.y < grid_size ∧ n ∉ obstacles)

/-- Modelled from the spec: `find_path` delegates the actual search to the
external `pathfinding` crate's `astar`, whose sources are not part of this
repository; the spec fixes only its failure semantics ("if the goal is
unreachable, the routine reports 'no path' (absence), not a fault").  The
model returns `some` exactly when the goal is reachable from the start
through the neighbor function `find_path` passes to `astar` (computed by
iterating the frontier to its fixed point), and `none` otherwise; the path
and cost data carried on success do not matter to any claim and are not
modelled. -/
def find_path (start goal : GridAddress) (obstacles : Finset GridAddress)
    (grid_size : ℕ) : Option Unit :=
  if goal ∈ reachClosure (neighborsOf obstacles grid_size)
      (grid_size * grid_size + 1) start
  then some () else none

/-- The cells of the square grid of side `grid_size`. -/
def gridCells (grid_size : ℕ) : Finset GridAddress :=
  (Finset.range grid_size ×ˢ Finset.range grid_size).image (fun p => ⟨p.1, p.2⟩)

theorem card_gridCells (grid_size : ℕ) : (gridCells grid_size).card = grid_size * grid_size := by
  unfold gridCells
  have hinj : Function.Injective (fun p : ℕ × ℕ => (⟨p.1, p.2⟩ : GridAddress)) := by
    rintro ⟨a, b⟩ ⟨c, d⟩ h
    simpa [GridAddress.mk.injEq, Prod.ext_iff] using h
  rw [Finset.card_image_of_injective _ hinj, Finset.card_product, Finset.card_range]

theorem neighborsOf_bounded (obstacles : Finset GridAddress) (grid_size : ℕ) :
    ∀ a b, b ∈ neighborsOf obstacles grid_size a → b ∈ gridCells grid_size := by
  intro a b hb
  unfold neighborsOf at hb
  rw [List.mem_filter] at hb
  obtain ⟨-, hcond⟩ := hb
  have hcond' : b.x < grid_size ∧ b.y < grid_size ∧ b ∉ obstacles := by
    simpa using hcond
  unfold gridCells
  rw [Finset.mem_image]
  refine ⟨(b.x, b.y), ?_, rfl⟩
  rw [Finset.mem_product]
  exact ⟨Finset.mem_range.mpr hcond'.1, Finset.mem_range.mpr hcond'.2.1⟩

/-! ## Claim C2 -/

/-- Claim C2 (amended): when the goal is unreachable, puzzle18's `find_path`
reports absence (`None`, an Option-style result) and conversely succeeds when
it is reachable; puzzle16's `solution_cost`, in contrast, returns the
*sentinel* `u32::MAX` when no search node at the end address was recorded. -/
theorem no_path_failure_semantics :
    (∀ (path_data : MazePosition → Option PathData) (meta : MazeMetadata),
      (∀ c : Cardinal, path_data ⟨meta.end_address, c⟩ = none) →
        solution_cost path_data meta = u32Max) ∧
    (∀ (start goal : GridAddress) (obstacles : Finset GridAddress) (grid_size : ℕ),
      ¬ ReachableVia (neighborsOf obstacles grid_size) start goal →
        find_path start goal obstacles grid_size = none) ∧
    (∀ (start goal : GridAddress) (obstacles : Finset GridAddress) (grid_size : ℕ),
      ReachableVia (neighborsOf obstacles grid_size) start goal →
        (find_path start goal obstacles grid_size).isSome) := by
  refine ⟨?_, ?_, ?_⟩
  · intro path_data meta h
    unfold solution_cost
    have hempty : Cardinal.all.filterMap
        (fun heading => (path_data ⟨meta.end_address, heading⟩).map PathData.cost) = [] := by
      simp [Cardinal.all, h]
    rw [hempty]
    rfl
  · intro start goal obstacles grid_size h
    unfold find_path
    rw [if_neg]
    intro hmem
    exact h (reachClosure_sound _ _ _ _ hmem)
  · intro start goal obstacles grid_size h
    unfold find_path
    rw [if_pos]
    · rfl
    · have hmem := reachClosure_complete (neighborsOf_bounded obstacles grid_size) start goal h
      rw [card_gridCells] at hmem
      exact hmem

/-- Witness for claim C2: an unrecorded end address makes `solution_cost`
return the sentinel, and a fully walled-off goal makes `find_path` return
`None`. -/
theorem no_path_failure_semantics_witness :
    solution_cost (fun _ => none) ⟨⟨0, 0⟩, ⟨2, 0⟩⟩ = u32Max ∧
      find_path ⟨0, 0⟩ ⟨1, 1⟩ {⟨1, 0⟩, ⟨0, 1⟩} 2 = none := by
  constructor
  · exact no_path_failure_semantics.1 (fun _ => none) ⟨⟨0, 0⟩, ⟨2, 0⟩⟩ (fun _ => rfl)
  · apply no_path_failure_semantics.2.1
    intro hreach
    have hmem := reachClosure_complete
      (neighborsOf_bounded ({⟨1, 0⟩, ⟨0, 1⟩} : Finset GridAddress) 2) ⟨0, 0⟩ ⟨1, 1⟩ hreach
    revert hmem
    decide

/-- Claim C2 counterexample: `solution_cost` does not report absence
Option-style; on path data in which no node at the end address was reached it
returns the definite sentinel value `u32::MAX = 4294967295`. -/
theorem solution_cost_returns_sentinel :
    solution_cost (fun _ => none) ⟨⟨0, 0⟩, ⟨2, 0⟩⟩ = 4294967295 := by
  decide

/-! ## Puzzle 10 (`puzzle10.rs`): trail search -/

/-- A tile of the annotated trail grid (`TrailTile`). -/
structure TrailTile where
  height : ℕ
  is_on_trail : Bool
  score : ℕ
deriving DecidableEq

/-- The list `GridDelta::CARDINALS` (up, right, down, left). -/
def cardinalDeltas : List GridDelta := [⟨0, -1⟩, ⟨1, 0⟩, ⟨0, 1⟩, ⟨-1, 0⟩]

/-- The mutable state threaded through `find_trail`: the annotated grid, the
visited set and the score accumulator. -/
structure TrailSearchState where
  map : Grid TrailTile
  visited : Finset GridAddress
  score : ℕ

/-- Models the statement `map[current_addr].is_on_trail = true`; the address
is always in bounds at every call site (the source would fault otherwise). -/
def markOnTrail (g : Grid TrailTile) (addr : GridAddress) : Grid TrailTile :=
  match g.get_at addr with
  | some t => g.set addr.x addr.y ⟨t.height, true, t.score⟩
  | none => g

/-- Models the statement `grid[addr].score = n` in `score`. -/
def writeScore (g : Grid TrailTile) (addr : GridAddress) (n : ℕ) : Grid TrailTile :=
  match g.get_at addr with
  | some t => g.set addr.x addr.y ⟨t.height, t.is_on_trail, n⟩
  | none => g

/-- The height stored at an address. -/
def heightAt (g : Grid TrailTile) (addr : GridAddress) : Option ℕ :=
  (g.get_at addr).map TrailTile.height

/-- The per-tile data of a trail grid that `find_trail` never changes. -/
def tileData (g : Grid TrailTile) (addr : GridAddress) : Option (ℕ × ℕ) :=
  (g.get_at addr).map (fun t => (t.height, t.score))

mutual

/-- Models `find_trail` from `puzzle10.rs`, with a structural fuel argument
(`none` = fuel exhausted; the Rust recursion needs no fuel because heights
strictly increase along the recursion).  Steps, in source order: mark the
tile as on-trail; with merging disabled, return if the address was already
visited, otherwise record it; on a height-9 tile bump the score and return;
otherwise recurse into each cardinal neighbor whose height is exactly
`current_height + 1`. -/
def find_trail (fuel current_height : ℕ) (current_addr : GridAddress)
    (allow_merge : Bool) (st : TrailSearchState) : Option TrailSearchState :=
  match fuel with
  | 0 => none
  | fuel + 1 =>
    let st1 : TrailSearchState := ⟨markOnTrail st.map current_addr, st.visited, st.score⟩
    if allow_merge = false ∧ current_addr ∈ st1.visited then some st1
    else
      let st2 : TrailSearchState :=
        if allow_merge then st1 else ⟨st1.map, insert current_addr st1.visited, st1.score⟩
      if heightAt st2.map current_addr = some 9 then
        some ⟨st2.map, st2.visited, st2.score + 1⟩
      else
        find_trail_list fuel current_height cardinalDeltas current_addr allow_merge st2
termination_by (fuel, 0)

/-- The neighbor loop of `find_trail`: try each delta in order, threading the
state. -/
def find_trail_list (fuel current_height : ℕ) (deltas : List GridDelta)
    (current_addr : GridAddress) (allow_merge : Bool) (st : TrailSearchState) :
    Option TrailSearchState :=
  match deltas with
  | [] => some st
  | d :: rest =>
    let next : Option TrailSearchState :=
      match current_addr.checked_add d with
      | none => some st
      | some neighbor =>
        match st.map.get_at neighbor with
        | none => some st
        | some tile =>
          if tile.height = current_height + 1 then
            find_trail fuel tile.height neighbor allow_merge st
          else some st
    match next with
    | none => none
    | some st' => find_trail_list fuel current_height rest current_addr allow_merge st'
termination_by (fuel, deltas.length + 1)

end

/-- The raster scan of `score`: visit each address in row-major order; at
height-0 tiles run `find_trail` with a fresh visited set and score, record
the score on the trailhead tile, and accumulate the total. -/
def scoreLoop (part2 : Bool) (addrs : List GridAddress) (acc : ℕ × Grid TrailTile) :
    Option (ℕ × Grid TrailTile) :=
  match addrs with
  | [] => some acc
  | addr :: rest =>
    if heightAt acc.2 addr = some 0 then
      match find_trail 10 0 addr part2 ⟨acc.2, ∅, 0⟩ with
      | none => none
      | some st' =>
        scoreLoop part2 rest (acc.1 + st'.score, writeScore st'.map addr st'.score)
    else scoreLoop part2 rest acc

/-- The row-major address list `0..height × 0..width` that `score` iterates. -/
def rasterAddrs {T : Type} (g : Grid T) : List GridAddress :=
  (List.range g.height).flatMap (fun y => (List.range g.width).map (fun x => ⟨x, y⟩))

/-- Models `score` from `puzzle10.rs`: initialize a `TrailTile` grid from the
height grid, then run the raster scan; returns the total score and the
annotated grid (`none` only on fuel exhaustion, which cannot happen for
digit-height grids). -/
def score (grid : Grid ℕ) (part2 : Bool) : Option (ℕ × Grid TrailTile) :=
  let tiles : Grid TrailTile :=
    ⟨grid.rows.map (fun row => row.map (fun n => ⟨n, false, 0⟩))⟩
  scoreLoop part2 (rasterAddrs grid) (0, tiles)

/-! Specification-side notions for the trail search. -/

/-- One candidate step of the trail search: the neighbor in direction `d`
when it exists and its height under `H` is exactly `h + 1`. -/
def trailStepFn (H : GridAddress → Option ℕ) (h : ℕ) (a : GridAddress)
    (d : GridDelta) : Option GridAddress :=
  match a.checked_add d with
  | none => none
  | some n =>
    match H n with
    | none => none
    | some hn => if hn = h + 1 then some n else none

/-- The cardinal neighbors of `a` whose height under `H` is exactly `h + 1`;
this is precisely the set of addresses `find_trail` recurses into from a tile
of height `h`. -/
def trailNeighbors (H : GridAddress → Option ℕ) (h : ℕ) (a : GridAddress) :
    List GridAddress :=
  cardinalDeltas.filterMap (trailStepFn H h a)

/-- The edges actually explored by the depth-first search: none out of a
height-9 tile (the search returns there), otherwise the height-incrementing
neighbors. -/
def stepAdj (H : GridAddress → Option ℕ) (a : GridAddress) : List GridAddress :=
  match H a with
  | none => []
  | some h => if h = 9 then [] else trailNeighbors H h a

/-- Height-incrementing adjacency with no 9-cutoff: the claim's "cardinal
steps that each increase height by exactly 1". -/
def incrAdj (H : GridAddress → Option ℕ) (a : GridAddress) : List GridAddress :=
  match H a with
  | none => []
  | some h => trailNeighbors H h a

/-- All height-incrementing trails from `a` (at height `h`) to a height-9
tile, as explicit address lists; `fuel` bounds the length. -/
def trailsFromF (H : GridAddress → Option ℕ) : ℕ → ℕ → GridAddress → List (List GridAddress)
  | 0, _, _ => []
  | fuel + 1, h, a =>
    if h = 9 then [[a]]
    else (trailNeighbors H h a).flatMap (fun n => (trailsFromF H fuel (h + 1) n).map (a :: ·))

/-- A height-incrementing trail from `a` ending at a height-9 tile. -/
inductive IsTrailFrom (H : GridAddress → Option ℕ) : GridAddress → List GridAddress → Prop
  | nine {a : GridAddress} (h9 : H a = some 9) : IsTrailFrom H a [a]
  | cons {a b : GridAddress} {l : List GridAddress} {h : ℕ}
      (ha : H a = some h) (hne : h ≠ 9) (hb : b ∈ trailNeighbors H h a)
      (ht : IsTrailFrom H b l) : IsTrailFrom H a (a :: l)

/-! Grid update lemmas. -/

theorem GridAddress.ext_xy {a b : GridAddress} (hx : a.x = b.x) (hy : a.y = b.y) : a = b := by
  cases a
  cases b
  simp only [GridAddress.mk.injEq]
  exact ⟨hx, hy⟩

theorem Grid.get_set {T : Type} (g : Grid T) (x y : ℕ) (v : T) (x' y' : ℕ) :
    (g.set x y v).get x' y' =
      if x = x' ∧ y = y' ∧ (g.get x y).isSome then some v
      else g.get x' y' := by
  rcases hrow : g.rows.get? y with _ | row
  · have hset : g.set x y v = g := by
      unfold Grid.set
      rw [hrow]
    have hg : g.get x y = none := by
      unfold Grid.get
      rw [hrow]
      rfl
    rw [hset, hg, if_neg]
    rintro ⟨-, -, hs⟩
    cases hs
  · have hylen : y < g.rows.length := by
      by_contra hcon
      rw [List.get?_eq_none.mpr (by omega)] at hrow
      cases hrow
    have hset : g.set x y v = ⟨g.rows.set y (row.set x v)⟩ := by
      unfold Grid.set
      rw [hrow]
    have hg : g.get x y = row.get? x := by
      unfold Grid.get
      rw [hrow]
      rfl
    rw [hset, hg]
    by_cases hy : y = y'
    · subst hy
      unfold Grid.get
      dsimp only
      rw [List.get?_set_eq_of_lt _ hylen]
      simp only [Option.some_bind]
      by_cases hx : x = x'
      · subst hx
        by_cases hxs : x < row.length
        · have hcell : (row.get? x).isSome = true := by
            rw [List.get?_eq_getElem?, List.getElem?_eq_getElem hxs]
            rfl
          split
          · rw [List.get?_set_eq_of_lt _ hxs]
          · rename_i hcond
            exact absurd ⟨by trivial, by trivial, hcell⟩ hcond
        · have hcell : row.get? x = none := List.get?_eq_none.mpr (by omega)
          split
          · rename_i hcond
            rw [hcell] at hcond
            cases hcond.2.2
          · rw [List.get?_eq_none.mpr
              (show (row.set x v).length ≤ x by rw [List.length_set]; omega)]
            rw [hrow]
            simp only [Option.some_bind]
            rw [hcell]
      · rw [List.get?_set_ne _ _ hx]
        rw [if_neg (by rintro ⟨hcx, -, -⟩; exact hx hcx)]
        rw [hrow]
        simp only [Option.some_bind]
    · unfold Grid.get
      dsimp only
      rw [List.get?_set_ne _ _ hy]
      rw [if_neg (by rintro ⟨-, hcy, -⟩; exact hy hcy)]

theorem heightAt_eq_tileData {g : Grid TrailTile} {b : GridAddress} :
    heightAt g b = (tileData g b).map Prod.fst := by
  unfold heightAt tileData
  rcases g.get_at b with _ | t <;> rfl

theorem tileData_markOnTrail (g : Grid TrailTile) (a b : GridAddress) :
    tileData (markOnTrail g a) b = tileData g b := by
  unfold markOnTrail
  rcases hat : g.get_at a with _ | t
  · rfl
  · unfold tileData Grid.get_at
    rw [Grid.get_set]
    split
    · rename_i hcond
      obtain ⟨hx, hy, -⟩ := hcond
      have hba : b = a := GridAddress.ext_xy hx.symm hy.symm
      subst hba
      unfold Grid.get_at at hat
      rw [hat]
      rfl
    · rfl

theorem tileData_writeScore_ne (g : Grid TrailTile) (a : GridAddress) (n : ℕ)
    (b : GridAddress) (hne : b ≠ a) :
    tileData (writeScore g a n) b = tileData g b := by
  unfold writeScore
  rcases hat : g.get_at a with _ | t
  · rfl
  · unfold tileData Grid.get_at
    rw [Grid.get_set]
    split
    · rename_i hcond
      obtain ⟨hx, hy, -⟩ := hcond
      exact absurd (GridAddress.ext_xy hx.symm hy.symm) hne
    · rfl

theorem heightAt_writeScore (g : Grid TrailTile) (a : GridAddress) (n : ℕ)
    (b : GridAddress) : heightAt (writeScore g a n) b = heightAt g b := by
  unfold writeScore
  rcases hat : g.get_at a with _ | t
  · rfl
  · unfold heightAt Grid.get_at
    rw [Grid.get_set]
    split
    · rename_i hcond
      obtain ⟨hx, hy, -⟩ := hcond
      have hba : b = a := GridAddress.ext_xy hx.symm hy.symm
      subst hba
      unfold Grid.get_at at hat
      rw [hat]
      rfl
    · rfl

theorem get_at_writeScore_self {g : Grid TrailTile} {a : GridAddress} {t : TrailTile}
    (hat : g.get_at a = some t) (n : ℕ) :
    (writeScore g a n).get_at a = some ⟨t.height, t.is_on_trail, n⟩ := by
  unfold writeScore
  rw [hat]
  unfold Grid.get_at
  rw [Grid.get_set, if_pos]
  refine ⟨rfl, rfl, ?_⟩
  unfold Grid.get_at at hat
  rw [hat]
  rfl

theorem heightAt_markOnTrail (g : Grid TrailTile) (a b : GridAddress) :
    heightAt (markOnTrail g a) b = heightAt g b := by
  rw [heightAt_eq_tileData, heightAt_eq_tileData, tileData_markOnTrail]

theorem find_trail_zero {h : ℕ} {a : GridAddress} {m : Bool} {st st' : TrailSearchState}
    (heq : find_trail 0 h a m st = some st') : False := by
  unfold find_trail at heq
  cases heq

theorem find_trail_list_nil {fuel h : ℕ} {a : GridAddress} {m : Bool}
    {st st' : TrailSearchState}
    (heq : find_trail_list fuel h [] a m st = some st') : st' = st := by
  unfold find_trail_list at heq
  injection heq with hh
  rw [hh]

/-- Unfolding equation for `find_trail_list` on a cons cell, with the step
isolated as an `Option.bind`. -/
theorem find_trail_list_cons (fuel h : ℕ) (d : GridDelta) (rest : List GridDelta)
    (a : GridAddress) (m : Bool) (st : TrailSearchState) :
    find_trail_list fuel h (d :: rest) a m st =
      (match a.checked_add d with
        | none => some st
        | some neighbor =>
          match st.map.get_at neighbor with
          | none => some st
          | some tile =>
            if tile.height = h + 1 then find_trail fuel tile.height neighbor m st
            else some st).bind
        (fun st1 => find_trail_list fuel h rest a m st1) := by
  conv_lhs => unfold find_trail_list
  rcases GridAddress.checked_add a d with _ | nb
  · rfl
  · dsimp only
    rcases st.map.get_at nb with _ | tile
    · rfl
    · dsimp only
      by_cases hh : tile.height = h + 1
      · rw [if_pos hh]
        rcases find_trail fuel tile.height nb m st with _ | st1 <;> rfl
      · rw [if_neg hh]
        rfl

/-- Unfolding equation for `find_trail` at positive fuel. -/
theorem find_trail_succ (fuel h : ℕ) (a : GridAddress) (m : Bool) (st : TrailSearchState) :
    find_trail (fuel + 1) h a m st =
      (if m = false ∧ a ∈ st.visited then some ⟨markOnTrail st.map a, st.visited, st.score⟩
       else
        let vis2 : Finset GridAddress := if m then st.visited else insert a st.visited
        if heightAt (markOnTrail st.map a) a = some 9 then
          some ⟨markOnTrail st.map a, vis2, st.score + 1⟩
        else
          find_trail_list fuel h cardinalDeltas a m
            ⟨markOnTrail st.map a, vis2, st.score⟩) := by
  conv_lhs => unfold find_trail
  cases m <;> rfl

/-- Preservation, list level: if every completed `find_trail` call at this
fuel preserves tile data, so does the neighbor loop. -/
theorem find_trail_list_tileData_aux (fuel : ℕ)
    (htrail : ∀ h a m st st', find_trail fuel h a m st = some st' →
      ∀ b, tileData st'.map b = tileData st.map b) :
    ∀ h ds a m st st', find_trail_list fuel h ds a m st = some st' →
      ∀ b, tileData st'.map b = tileData st.map b := by
  intro h ds
  induction ds with
  | nil =>
    intro a m st st' heq b
    rw [find_trail_list_nil heq]
  | cons d rest ihds =>
    intro a m st st' heq b
    rw [find_trail_list_cons] at heq
    rcases hca : GridAddress.checked_add a d with _ | nb <;> rw [hca] at heq
    · simp only [Option.some_bind] at heq
      exact ihds a m st st' heq b
    · dsimp only at heq
      rcases hget : st.map.get_at nb with _ | tile <;> rw [hget] at heq <;>
        dsimp only at heq
      · simp only [Option.some_bind] at heq
        exact ihds a m st st' heq b
      · by_cases hh : tile.height = h + 1
        · rw [if_pos hh] at heq
          rcases hmid : find_trail fuel tile.height nb m st with _ | stmid <;>
            rw [hmid] at heq
          · cases heq
          · simp only [Option.some_bind] at heq
            rw [ihds a m stmid st' heq b, htrail _ _ _ _ _ hmid b]
        · rw [if_neg hh] at heq
          simp only [Option.some_bind] at heq
          exact ihds a m st st' heq b

theorem heightAt_some_of_get_at {g : Grid TrailTile} {b : GridAddress} {t : TrailTile}
    (h : g.get_at b = some t) : heightAt g b = some t.height := by
  unfold heightAt
  rw [h]
  rfl

/-- Preservation: `find_trail` never changes any tile's height or score. -/
theorem find_trail_tileData (fuel : ℕ) :
    (∀ h a m st st', find_trail fuel h a m st = some st' →
      ∀ b, tileData st'.map b = tileData st.map b) ∧
    (∀ h ds a m st st', find_trail_list fuel h ds a m st = some st' →
      ∀ b, tileData st'.map b = tileData st.map b) := by
  induction fuel with
  | zero =>
    have htrail : ∀ h a m st st', find_trail 0 h a m st = some st' →
        ∀ b, tileData st'.map b = tileData st.map b :=
      fun h a m st st' heq => absurd heq (fun hc => find_trail_zero hc)
    exact ⟨htrail, find_trail_list_tileData_aux 0 htrail⟩
  | succ f ihf =>
    have htrail : ∀ h a m st st', find_trail (f + 1) h a m st = some st' →
        ∀ b, tileData st'.map b = tileData st.map b := by
      intro h a m st st' heq b
      rw [find_trail_succ] at heq
      by_cases hvis : m = false ∧ a ∈ st.visited
      · rw [if_pos hvis] at heq
        injection heq with hh
        rw [← hh]
        exact tileData_markOnTrail st.map a b
      · rw [if_neg hvis] at heq
        simp only at heq
        by_cases h9 : heightAt (markOnTrail st.map a) a = some 9
        · rw [if_pos h9] at heq
          injection heq with hh
          rw [← hh]
          exact tileData_markOnTrail st.map a b
        · rw [if_neg h9] at heq
          have := find_trail_list_tileData_aux f ihf.1 h cardinalDeltas a m _ st' heq b
          rw [this]
          exact tileData_markOnTrail st.map a b
    exact ⟨htrail, find_trail_list_tileData_aux (f + 1) htrail⟩

theorem heightAt_eq_of_tileData {g g' : Grid TrailTile}
    (h : ∀ b, tileData g' b = tileData g b) (b : GridAddress) :
    heightAt g' b = heightAt g b := by
  rw [heightAt_eq_tileData, heightAt_eq_tileData, h b]

/-- Sufficiency, list level. -/
theorem find_trail_list_isSome_aux (fuel : ℕ)
    (htrail : ∀ h a m st,
      (∀ b hb, heightAt st.map b = some hb → hb ≤ 9) → h ≤ 9 → 10 ≤ h + fuel →
      (find_trail fuel h a m st).isSome = true) :
    ∀ h ds a m st, (∀ b hb, heightAt st.map b = some hb → hb ≤ 9) → 9 ≤ h + fuel →
      (find_trail_list fuel h ds a m st).isSome = true := by
  intro h ds
  induction ds with
  | nil =>
    intro a m st hbound hfuel
    unfold find_trail_list
    rfl
  | cons d rest ihds =>
    intro a m st hbound hfuel
    rw [find_trail_list_cons]
    rcases hca : GridAddress.checked_add a d with _ | nb
    · simp only [Option.some_bind]
      exact ihds a m st hbound hfuel
    · dsimp only
      rcases hget : st.map.get_at nb with _ | tile
      · simp only [Option.some_bind]
        exact ihds a m st hbound hfuel
      · dsimp only
        by_cases hh : tile.height = h + 1
        · rw [if_pos hh]
          have hnb9 : tile.height ≤ 9 := hbound nb tile.height (heightAt_some_of_get_at hget)
          have hsome := htrail tile.height nb m st hbound (by omega) (by omega)
          rcases hmid : find_trail fuel tile.height nb m st with _ | stmid
          · rw [hmid] at hsome
            cases hsome
          · simp only [Option.some_bind]
            apply ihds a m stmid _ hfuel
            intro b hb hhb
            apply hbound b hb
            rw [← hhb]
            exact (heightAt_eq_of_tileData ((find_trail_tileData fuel).1 _ _ _ _ _ hmid) b).symm
        · rw [if_neg hh]
          simp only [Option.some_bind]
          exact ihds a m st hbound hfuel

/-- Sufficiency: on grids whose heights are all at most 9, fuel `10 - h`
suffices for `find_trail` to complete. -/
theorem find_trail_isSome (fuel : ℕ) :
    (∀ h a m st, (∀ b hb, heightAt st.map b = some hb → hb ≤ 9) → h ≤ 9 → 10 ≤ h + fuel →
      (find_trail fuel h a m st).isSome = true) ∧
    (∀ h ds a m st, (∀ b hb, heightAt st.map b = some hb → hb ≤ 9) → 9 ≤ h + fuel →
      (find_trail_list fuel h ds a m st).isSome = true) := by
  induction fuel with
  | zero =>
    have htrail : ∀ h a m st,
        (∀ b hb, heightAt st.map b = some hb → hb ≤ 9) → h ≤ 9 → 10 ≤ h + 0 →
        (find_trail 0 h a m st).isSome = true := by
      intro h a m st hbound h9 hfuel
      omega
    exact ⟨htrail, find_trail_list_isSome_aux 0 htrail⟩
  | succ f ihf =>
    have htrail : ∀ h a m st,
        (∀ b hb, heightAt st.map b = some hb → hb ≤ 9) → h ≤ 9 → 10 ≤ h + (f + 1) →
        (find_trail (f + 1) h a m st).isSome = true := by
      intro h a m st hbound h9 hfuel
      rw [find_trail_succ]
      by_cases hvis : m = false ∧ a ∈ st.visited
      · rw [if_pos hvis]
        rfl
      · rw [if_neg hvis]
        simp only
        by_cases h9c : heightAt (markOnTrail st.map a) a = some 9
        · rw [if_pos h9c]
          rfl
        · rw [if_neg h9c]
          apply find_trail_list_isSome_aux f ihf.1 h cardinalDeltas a m
          · intro b hb hhb
            apply hbound b hb
            rw [← hhb, heightAt_markOnTrail]
          · omega
    exact ⟨htrail, find_trail_list_isSome_aux (f + 1) htrail⟩

/-- The conclusion of the merge-enabled (`part2`) specification of
`find_trail`: heights are untouched, the visited set is untouched, and the
score grows by the number of fuel-bounded trails. -/
def TrailTrueSpec (H : GridAddress → Option ℕ) (fuel h : ℕ) (a : GridAddress)
    (st st' : TrailSearchState) : Prop :=
  (∀ b, heightAt st'.map b = H b) ∧ st'.visited = st.visited ∧
    st'.score = st.score + (trailsFromF H fuel h a).length

/-- Unfolding of `find_trail` at positive fuel with merging enabled. -/
theorem find_trail_succ_true (fuel h : ℕ) (a : GridAddress) (st : TrailSearchState) :
    find_trail (fuel + 1) h a true st =
      (if heightAt (markOnTrail st.map a) a = some 9 then
        some ⟨markOnTrail st.map a, st.visited, st.score + 1⟩
      else find_trail_list fuel h cardinalDeltas a true
        ⟨markOnTrail st.map a, st.visited, st.score⟩) := by
  rw [find_trail_succ]
  rw [if_neg (by rintro ⟨hc, -⟩; cases hc)]
  rfl

/-- Unfolding of `find_trail` at positive fuel with merging disabled. -/
theorem find_trail_succ_false (fuel h : ℕ) (a : GridAddress) (st : TrailSearchState) :
    find_trail (fuel + 1) h a false st =
      (if a ∈ st.visited then some ⟨markOnTrail st.map a, st.visited, st.score⟩
       else if heightAt (markOnTrail st.map a) a = some 9 then
        some ⟨markOnTrail st.map a, insert a st.visited, st.score + 1⟩
      else find_trail_list fuel h cardinalDeltas a false
        ⟨markOnTrail st.map a, insert a st.visited, st.score⟩) := by
  rw [find_trail_succ]
  by_cases hvis : a ∈ st.visited
  · rw [if_pos ⟨rfl, hvis⟩, if_pos hvis]
  · rw [if_neg (by rintro ⟨-, hc⟩; exact hvis hc), if_neg hvis]
    rfl

/-- Unfolding equation for `trailsFromF` at positive fuel. -/
theorem trailsFromF_succ (H : GridAddress → Option ℕ) (fuel h : ℕ) (a : GridAddress) :
    trailsFromF H (fuel + 1) h a =
      if h = 9 then [[a]]
      else (trailNeighbors H h a).flatMap
        (fun n => (trailsFromF H fuel (h + 1) n).map (a :: ·)) := by
  conv_lhs => unfold trailsFromF

theorem length_flatMap_eq {α β : Type} (l : List α) (f : α → List β) :
    (l.flatMap f).length = (l.map (fun x => (f x).length)).sum := by
  induction l with
  | nil => rfl
  | cons x xs ih => simp [List.flatMap_cons, ih]

theorem trailStepFn_none_of_no_addr {H : GridAddress → Option ℕ} {h : ℕ}
    {a : GridAddress} {d : GridDelta} (hca : a.checked_add d = none) :
    trailStepFn H h a d = none := by
  unfold trailStepFn
  rw [hca]

theorem trailStepFn_none_of_no_height {H : GridAddress → Option ℕ} {h : ℕ}
    {a nb : GridAddress} {d : GridDelta} (hca : a.checked_add d = some nb)
    (hH : H nb = none) : trailStepFn H h a d = none := by
  unfold trailStepFn
  rw [hca]
  dsimp only
  rw [hH]

theorem trailStepFn_of_height {H : GridAddress → Option ℕ} {h : ℕ}
    {a nb : GridAddress} {d : GridDelta} {hn : ℕ} (hca : a.checked_add d = some nb)
    (hH : H nb = some hn) :
    trailStepFn H h a d = if hn = h + 1 then some nb else none := by
  unfold trailStepFn
  rw [hca]
  dsimp only
  rw [hH]

/-- Part 2, list level. -/
theorem find_trail_true_list_aux (fuel : ℕ)
    (htrail : ∀ h a st st' (H : GridAddress → Option ℕ),
      (∀ b, heightAt st.map b = H b) → H a = some h →
      find_trail fuel h a true st = some st' → TrailTrueSpec H fuel h a st st') :
    ∀ h ds a st st' (H : GridAddress → Option ℕ),
      (∀ b, heightAt st.map b = H b) →
      find_trail_list fuel h ds a true st = some st' →
      (∀ b, heightAt st'.map b = H b) ∧ st'.visited = st.visited ∧
        st'.score = st.score +
          ((ds.filterMap (trailStepFn H h a)).map
            (fun n => (trailsFromF H fuel (h + 1) n).length)).sum := by
  intro h ds
  induction ds with
  | nil =>
    intro a st st' H hH heq
    rw [find_trail_list_nil heq]
    exact ⟨hH, rfl, by simp⟩
  | cons d rest ihds =>
    intro a st st' H hH heq
    rw [find_trail_list_cons] at heq
    rcases hca : GridAddress.checked_add a d with _ | nb <;> rw [hca] at heq
    · simp only [Option.some_bind] at heq
      obtain ⟨h1, h2, h3⟩ := ihds a st st' H hH heq
      refine ⟨h1, h2, ?_⟩
      rw [h3, List.filterMap_cons, trailStepFn_none_of_no_addr hca]
    · dsimp only at heq
      rcases hget : st.map.get_at nb with _ | tile <;> rw [hget] at heq <;>
        dsimp only at heq
      · simp only [Option.some_bind] at heq
        obtain ⟨h1, h2, h3⟩ := ihds a st st' H hH heq
        have hHnb : H nb = none := by
          rw [← hH nb]
          unfold heightAt
          rw [hget]
          rfl
        refine ⟨h1, h2, ?_⟩
        rw [h3, List.filterMap_cons, trailStepFn_none_of_no_height hca hHnb]
      · have hHnb : H nb = some tile.height := by
          rw [← hH nb]
          exact heightAt_some_of_get_at hget
        by_cases hh : tile.height = h + 1
        · rw [if_pos hh] at heq
          rcases hmid : find_trail fuel tile.height nb true st with _ | stmid <;>
            rw [hmid] at heq
          · cases heq
          · simp only [Option.some_bind] at heq
            obtain ⟨m1, m2, m3⟩ := htrail tile.height nb st stmid H hH hHnb hmid
            obtain ⟨h1, h2, h3⟩ := ihds a stmid st' H m1 heq
            refine ⟨h1, h2.trans m2, ?_⟩
            rw [h3, m3, List.filterMap_cons, trailStepFn_of_height hca hHnb, if_pos hh,
              List.map_cons, List.sum_cons, hh]
            ring
        · rw [if_neg hh] at heq
          simp only [Option.some_bind] at heq
          obtain ⟨h1, h2, h3⟩ := ihds a st st' H hH heq
          refine ⟨h1, h2, ?_⟩
          rw [h3, List.filterMap_cons, trailStepFn_of_height hca hHnb, if_neg hh]

/-- Part 2 (merging enabled): a completed `find_trail` call leaves the
visited set alone and adds exactly the number of distinct height-incrementing
trails to the score. -/
theorem find_trail_true_spec (fuel : ℕ) :
    ∀ h a st st' (H : GridAddress → Option ℕ),
      (∀ b, heightAt st.map b = H b) → H a = some h →
      find_trail fuel h a true st = some st' → TrailTrueSpec H fuel h a st st' := by
  induction fuel with
  | zero =>
    intro h a st st' H hH hha heq
    exact absurd heq (fun hc => find_trail_zero hc)
  | succ f ihf =>
    intro h a st st' H hH hha heq
    rw [find_trail_succ_true] at heq
    have hmark : ∀ b, heightAt (markOnTrail st.map a) b = H b := fun b => by
      rw [heightAt_markOnTrail]
      exact hH b
    by_cases h9 : h = 9
    · rw [if_pos (by rw [hmark a, hha, h9])] at heq
      injection heq with hh'
      rw [← hh']
      refine ⟨hmark, rfl, ?_⟩
      rw [trailsFromF_succ, if_pos h9]
      rfl
    · rw [if_neg (by rw [hmark a, hha]; exact fun hc => h9 (by injection hc))] at heq
      obtain ⟨h1, h2, h3⟩ := find_trail_true_list_aux f ihf h cardinalDeltas a _ st' H hmark heq
      refine ⟨h1, h2, ?_⟩
      rw [h3]
      rw [trailsFromF_succ, if_neg h9, length_flatMap_eq]
      unfold trailNeighbors
      simp only [List.length_map]

/-! Reachability avoiding a visited set, the key notion for the
merge-disabled depth-first search. -/

/-- Reachability from `a` along `stepAdj` edges through nodes that all avoid
`vis`. -/
inductive ReachAvoidTrail (H : GridAddress → Option ℕ) (vis : Finset GridAddress)
    (a : GridAddress) : GridAddress → Prop
  | refl (ha : a ∉ vis) : ReachAvoidTrail H vis a a
  | step {b c : GridAddress} (hb : ReachAvoidTrail H vis a b) (hc : c ∈ stepAdj H b)
      (hnc : c ∉ vis) : ReachAvoidTrail H vis a c

theorem ReachAvoidTrail.mono {H : GridAddress → Option ℕ}
    {vis vis' : Finset GridAddress} {a x : GridAddress} (hsub : vis ⊆ vis')
    (h : ReachAvoidTrail H vis' a x) : ReachAvoidTrail H vis a x := by
  induction h with
  | refl ha => exact ReachAvoidTrail.refl (fun hc => ha (hsub hc))
  | step hb hc hnc ih => exact ReachAvoidTrail.step ih hc (fun hcc => hnc (hsub hcc))

theorem ReachAvoidTrail.not_mem {H : GridAddress → Option ℕ}
    {vis : Finset GridAddress} {a x : GridAddress}
    (h : ReachAvoidTrail H vis a x) : x ∉ vis := by
  induction h with
  | refl ha => exact ha
  | step hb hc hnc ih => exact hnc

theorem ReachAvoidTrail.prepend {H : GridAddress → Option ℕ}
    {vis : Finset GridAddress} {a b x : GridAddress} (hna : a ∉ vis)
    (hab : b ∈ stepAdj H a) (h : ReachAvoidTrail H vis b x) :
    ReachAvoidTrail H vis a x := by
  induction h with
  | refl hb => exact ReachAvoidTrail.step (ReachAvoidTrail.refl hna) hab hb
  | step hb hc hnc ih => exact ReachAvoidTrail.step ih hc hnc

/-- Absorption: a set containing `a`, containing `vis`, and closed under
`stepAdj` outside `vis`, contains everything `vis`-avoidingly reachable from
`a`. -/
theorem ReachAvoidTrail.mem_of_closed {H : GridAddress → Option ℕ}
    {vis V : Finset GridAddress} {a x : GridAddress}
    (haV : a ∈ V)
    (hclosed : ∀ p, p ∈ V → p ∉ vis → ∀ q ∈ stepAdj H p, q ∈ V)
    (h : ReachAvoidTrail H vis a x) : x ∈ V := by
  induction h with
  | refl ha => exact haV
  | step hb hc hnc ih => exact hclosed _ ih hb.not_mem _ hc

theorem mem_trailNeighbors_iff {H : GridAddress → Option ℕ} {h : ℕ}
    {a n : GridAddress} :
    n ∈ trailNeighbors H h a ↔
      (∃ d ∈ cardinalDeltas, a.checked_add d = some n) ∧ H n = some (h + 1) := by
  unfold trailNeighbors
  rw [List.mem_filterMap]
  constructor
  · rintro ⟨d, hd, hstep⟩
    unfold trailStepFn at hstep
    rcases hca : GridAddress.checked_add a d with _ | nb <;> rw [hca] at hstep
    · cases hstep
    · dsimp only at hstep
      rcases hHn : H nb with _ | hn <;> rw [hHn] at hstep
      · cases hstep
      · dsimp only at hstep
        by_cases hh : hn = h + 1
        · rw [if_pos hh] at hstep
          injection hstep with hst
          subst hst
          exact ⟨⟨d, hd, hca⟩, by rw [hHn, hh]⟩
        · rw [if_neg hh] at hstep
          cases hstep
  · rintro ⟨⟨d, hd, hca⟩, hHn⟩
    refine ⟨d, hd, ?_⟩
    rw [trailStepFn_of_height hca hHn, if_pos rfl]

theorem mem_stepAdj_iff {H : GridAddress → Option ℕ} {p q : GridAddress} :
    q ∈ stepAdj H p ↔
      ∃ hp, H p = some hp ∧ hp ≠ 9 ∧ q ∈ trailNeighbors H hp p := by
  unfold stepAdj
  rcases hHp : H p with _ | hp
  · simp
  · dsimp only
    by_cases h9 : hp = 9
    · rw [if_pos h9]
      simp only [List.not_mem_nil, false_iff]
      rintro ⟨hp', hsome, hne, -⟩
      injection hsome with hh
      subst hh
      exact hne h9
    · rw [if_neg h9]
      constructor
      · intro hq
        exact ⟨hp, rfl, h9, hq⟩
      · rintro ⟨hp', hsome, -, hq⟩
        injection hsome with hh
        subst hh
        exact hq

theorem card_filter_sdiff_partition {α : Type} [DecidableEq α]
    (P : α → Prop) [DecidablePred P] {A B C : Finset α} (hAB : A ⊆ B) (hBC : B ⊆ C) :
    ((C \ A).filter P).card = ((B \ A).filter P).card + ((C \ B).filter P).card := by
  rw [← Finset.card_union_of_disjoint]
  · congr 1
    ext x
    simp only [Finset.mem_union, Finset.mem_filter, Finset.mem_sdiff]
    constructor
    · rintro ⟨⟨hxC, hxA⟩, hPx⟩
      by_cases hxB : x ∈ B
      · exact Or.inl ⟨⟨hxB, hxA⟩, hPx⟩
      · exact Or.inr ⟨⟨hxC, hxB⟩, hPx⟩
    · rintro (⟨⟨hxB, hxA⟩, hPx⟩ | ⟨⟨hxC, hxB⟩, hPx⟩)
      · exact ⟨⟨hBC hxB, hxA⟩, hPx⟩
      · exact ⟨⟨hxC, fun hxA => hxB (hAB hxA)⟩, hPx⟩
  · rw [Finset.disjoint_left]
    rintro x hx hx'
    rw [Finset.mem_filter, Finset.mem_sdiff] at hx hx'
    exact hx'.1.2 hx.1.1

theorem card_filter_sdiff_erase_head {α : Type} [DecidableEq α]
    (P : α → Prop) [DecidablePred P] {vis V : Finset α} {a : α}
    (hna : ¬ P a) :
    ((V \ insert a vis).filter P).card = ((V \ vis).filter P).card := by
  congr 1
  ext x
  simp only [Finset.mem_filter, Finset.mem_sdiff, Finset.mem_insert]
  constructor
  · rintro ⟨⟨hxV, hxin⟩, hPx⟩
    exact ⟨⟨hxV, fun hxv => hxin (Or.inr hxv)⟩, hPx⟩
  · rintro ⟨⟨hxV, hxv⟩, hPx⟩
    refine ⟨⟨hxV, ?_⟩, hPx⟩
    rintro (rfl | hxvis)
    · exact hna hPx
    · exact hxv hxvis

/-- The conclusion of the merge-disabled (`part1`) specification of a
completed `find_trail` call: heights untouched; the visited set grows
monotonically, contains `a`, its new members are exactly the nodes reachable
from `a` avoiding the old visited set, it is closed under exploration
outside the old visited set; and the score grows by the number of new
height-9 members. -/
def TrailFalseSpec (H : GridAddress → Option ℕ) (a : GridAddress)
    (st st' : TrailSearchState) : Prop :=
  (∀ b, heightAt st'.map b = H b) ∧
  st.visited ⊆ st'.visited ∧
  a ∈ st'.visited ∧
  (∀ x, x ∈ st'.visited → x ∉ st.visited → ReachAvoidTrail H st.visited a x) ∧
  (∀ p, p ∈ st'.visited → p ∉ st.visited → ∀ q ∈ stepAdj H p, q ∈ st'.visited) ∧
  st'.score = st.score +
    ((st'.visited \ st.visited).filter (fun x => H x = some 9)).card

/-- The corresponding conclusion for the neighbor loop. -/
def TrailListFalseSpec (H : GridAddress → Option ℕ) (h : ℕ) (ds : List GridDelta)
    (a : GridAddress) (st st' : TrailSearchState) : Prop :=
  (∀ b, heightAt st'.map b = H b) ∧
  st.visited ⊆ st'.visited ∧
  (∀ nb ∈ ds.filterMap (trailStepFn H h a), nb ∈ st'.visited) ∧
  (∀ x, x ∈ st'.visited → x ∉ st.visited →
    ∃ nb ∈ ds.filterMap (trailStepFn H h a), ReachAvoidTrail H st.visited nb x) ∧
  (∀ p, p ∈ st'.visited → p ∉ st.visited → ∀ q ∈ stepAdj H p, q ∈ st'.visited) ∧
  st'.score = st.score +
    ((st'.visited \ st.visited).filter (fun x => H x = some 9)).card

theorem trailListFalseSpec_skip {H : GridAddress → Option ℕ} {h : ℕ}
    {d : GridDelta} {rest : List GridDelta} {a : GridAddress}
    {st st' : TrailSearchState} (hfd : trailStepFn H h a d = none)
    (hrest : TrailListFalseSpec H h rest a st st') :
    TrailListFalseSpec H h (d :: rest) a st st' := by
  obtain ⟨l1, l2, l3, l4, l5, l6⟩ := hrest
  refine ⟨l1, l2, ?_, ?_, l5, l6⟩
  · rw [List.filterMap_cons, hfd]
    exact l3
  · rw [List.filterMap_cons, hfd]
    exact l4

/-- Part 1, list level. -/
theorem find_trail_false_list_aux (fuel : ℕ)
    (htrail : ∀ h a st st' (H : GridAddress → Option ℕ),
      (∀ b, heightAt st.map b = H b) → H a = some h →
      find_trail fuel h a false st = some st' → TrailFalseSpec H a st st') :
    ∀ h ds a st st' (H : GridAddress → Option ℕ),
      (∀ b, heightAt st.map b = H b) →
      find_trail_list fuel h ds a false st = some st' →
      TrailListFalseSpec H h ds a st st' := by
  intro h ds
  induction ds with
  | nil =>
    intro a st st' H hH heq
    rw [find_trail_list_nil heq]
    refine ⟨hH, subset_rfl, ?_, ?_, ?_, ?_⟩
    · intro nb hnb
      cases hnb
    · intro x hx hnx
      exact absurd hx hnx
    · intro p hp hnp
      exact absurd hp hnp
    · rw [Finset.sdiff_self, Finset.filter_empty, Finset.card_empty]
      omega
  | cons d rest ihds =>
    intro a st st' H hH heq
    rw [find_trail_list_cons] at heq
    rcases hca : GridAddress.checked_add a d with _ | nb <;> rw [hca] at heq
    · simp only [Option.some_bind] at heq
      exact trailListFalseSpec_skip (trailStepFn_none_of_no_addr hca)
        (ihds a st st' H hH heq)
    · dsimp only at heq
      rcases hget : st.map.get_at nb with _ | tile <;> rw [hget] at heq <;>
        dsimp only at heq
      · simp only [Option.some_bind] at heq
        have hHnb : H nb = none := by
          rw [← hH nb]
          unfold heightAt
          rw [hget]
          rfl
        exact trailListFalseSpec_skip (trailStepFn_none_of_no_height hca hHnb)
          (ihds a st st' H hH heq)
      · have hHnb : H nb = some tile.height := by
          rw [← hH nb]
          exact heightAt_some_of_get_at hget
        by_cases hh : tile.height = h + 1
        · rw [if_pos hh] at heq
          rcases hmid : find_trail fuel tile.height nb false st with _ | stmid <;>
            rw [hmid] at heq
          · cases heq
          · simp only [Option.some_bind] at heq
            obtain ⟨m1, m2, m3, m4, m5, m6⟩ := htrail tile.height nb st stmid H hH hHnb hmid
            obtain ⟨l1, l2, l3, l4, l5, l6⟩ := ihds a stmid st' H m1 heq
            have hfm : (d :: rest).filterMap (trailStepFn H h a) =
                nb :: rest.filterMap (trailStepFn H h a) := by
              rw [List.filterMap_cons, trailStepFn_of_height hca hHnb, if_pos hh]
            refine ⟨l1, m2.trans l2, ?_, ?_, ?_, ?_⟩
            · rw [hfm]
              intro nb' hnb'
              rcases List.mem_cons.mp hnb' with rfl | hnb'
              · exact l2 m3
              · exact l3 nb' hnb'
            · rw [hfm]
              intro x hx hnx
              by_cases hxmid : x ∈ stmid.visited
              · exact ⟨nb, List.mem_cons_self nb _, m4 x hxmid hnx⟩
              · obtain ⟨nb', hnb', hreach⟩ := l4 x hx hxmid
                exact ⟨nb', List.mem_cons_of_mem nb hnb', hreach.mono m2⟩
            · intro p hp hnp q hq
              by_cases hpmid : p ∈ stmid.visited
              · exact l2 (m5 p hpmid hnp q hq)
              · exact l5 p hp hpmid q hq
            · rw [l6, m6,
                card_filter_sdiff_partition (fun x => H x = some 9) m2 l2]
              ring
        · rw [if_neg hh] at heq
          simp only [Option.some_bind] at heq
          have hfd : trailStepFn H h a d = none := by
            rw [trailStepFn_of_height hca hHnb, if_neg hh]
          exact trailListFalseSpec_skip hfd (ihds a st st' H hH heq)

/-- Part 1 (merging disabled): specification of a completed `find_trail`
call. -/
theorem find_trail_false_spec (fuel : ℕ) :
    ∀ h a st st' (H : GridAddress → Option ℕ),
      (∀ b, heightAt st.map b = H b) → H a = some h →
      find_trail fuel h a false st = some st' → TrailFalseSpec H a st st' := by
  induction fuel with
  | zero =>
    intro h a st st' H hH hha heq
    exact absurd heq (fun hc => find_trail_zero hc)
  | succ f ihf =>
    intro h a st st' H hH hha heq
    rw [find_trail_succ_false] at heq
    have hmark : ∀ b, heightAt (markOnTrail st.map a) b = H b := fun b => by
      rw [heightAt_markOnTrail]
      exact hH b
    by_cases hvis : a ∈ st.visited
    · rw [if_pos hvis] at heq
      injection heq with hh'
      rw [← hh']
      refine ⟨hmark, subset_rfl, hvis, ?_, ?_, ?_⟩
      · intro x hx hnx
        exact absurd hx hnx
      · intro p hp hnp
        exact absurd hp hnp
      · rw [Finset.sdiff_self, Finset.filter_empty, Finset.card_empty]
        dsimp only
        omega
    · rw [if_neg hvis] at heq
      by_cases h9 : h = 9
      · rw [if_pos (by rw [hmark a, hha, h9])] at heq
        injection heq with hh'
        rw [← hh']
        have hsd : insert a st.visited \ st.visited = {a} := by
          ext x
          simp only [Finset.mem_sdiff, Finset.mem_insert, Finset.mem_singleton]
          constructor
          · rintro ⟨rfl | hxv, hnx⟩
            · rfl
            · exact absurd hxv hnx
          · rintro rfl
            exact ⟨Or.inl rfl, hvis⟩
        refine ⟨hmark, Finset.subset_insert a st.visited, Finset.mem_insert_self a _,
          ?_, ?_, ?_⟩
        · intro x hx hnx
          rcases Finset.mem_insert.mp hx with rfl | hxv
          · exact ReachAvoidTrail.refl hvis
          · exact absurd hxv hnx
        · intro p hp hnp q hq
          rcases Finset.mem_insert.mp hp with rfl | hpv
          · rw [mem_stepAdj_iff] at hq
            obtain ⟨hp', hsome, hne, -⟩ := hq
            rw [hha] at hsome
            injection hsome with hcon
            exact absurd (by rw [← hcon, h9]) hne
          · exact absurd hpv hnp
        · rw [hsd, Finset.filter_singleton,
            if_pos (show H a = some 9 by rw [hha, h9]), Finset.card_singleton]
      · rw [if_neg (by rw [hmark a, hha]; exact fun hc => h9 (by injection hc))] at heq
        have hsa : stepAdj H a = trailNeighbors H h a := by
          unfold stepAdj
          rw [hha]
          dsimp only
          rw [if_neg h9]
        obtain ⟨l1, l2, l3, l4, l5, l6⟩ :=
          find_trail_false_list_aux f ihf h cardinalDeltas a _ st' H hmark heq
        have hsub1 : st.visited ⊆ insert a st.visited := Finset.subset_insert a _
        have haV : a ∈ st'.visited := l2 (Finset.mem_insert_self a _)
        refine ⟨l1, hsub1.trans l2, haV, ?_, ?_, ?_⟩
        · intro x hx hnx
          by_cases hxa : x = a
          · rw [hxa]
            exact ReachAvoidTrail.refl hvis
          · have hxin : x ∉ insert a st.visited := by
              rw [Finset.mem_insert]
              rintro (rfl | hxv)
              · exact hxa rfl
              · exact hnx hxv
            obtain ⟨nb, hnb, hreach⟩ := l4 x hx hxin
            refine ReachAvoidTrail.prepend hvis ?_ (hreach.mono hsub1)
            rw [hsa]
            exact hnb
        · intro p hp hnp q hq
          by_cases hpa : p = a
          · rw [hpa, hsa] at hq
            exact l3 q hq
          · have hpin : p ∉ insert a st.visited := by
              rw [Finset.mem_insert]
              rintro (rfl | hpv)
              · exact hpa rfl
              · exact hnp hpv
            exact l5 p hp hpin q hq
        · rw [l6, card_filter_sdiff_erase_head (fun x => H x = some 9)
            (show ¬ H a = some 9 by rw [hha]; exact fun hc => h9 (by injection hc))]

/-! Properties of `trailsFromF`: every listed trail is a genuine trail, every
genuine trail is listed exactly once. -/

theorem trailStepFn_eq_some_iff {H : GridAddress → Option ℕ} {h : ℕ}
    {a n : GridAddress} {d : GridDelta} :
    trailStepFn H h a d = some n ↔ a.checked_add d = some n ∧ H n = some (h + 1) := by
  constructor
  · intro hstep
    unfold trailStepFn at hstep
    rcases hca : GridAddress.checked_add a d with _ | nb <;> rw [hca] at hstep
    · cases hstep
    · dsimp only at hstep
      rcases hHn : H nb with _ | hn <;> rw [hHn] at hstep
      · cases hstep
      · dsimp only at hstep
        by_cases hh : hn = h + 1
        · rw [if_pos hh] at hstep
          injection hstep with hst
          subst hst
          exact ⟨rfl, by rw [hHn, hh]⟩
        · rw [if_neg hh] at hstep
          cases hstep
  · rintro ⟨hca, hHn⟩
    rw [trailStepFn_of_height hca hHn, if_pos rfl]

theorem trailNeighbors_nodup (H : GridAddress → Option ℕ) (h : ℕ) (a : GridAddress) :
    (trailNeighbors H h a).Nodup := by
  unfold trailNeighbors
  apply List.Nodup.filterMap
  · intro d d' n hd hd'
    rw [Option.mem_def, trailStepFn_eq_some_iff] at hd hd'
    obtain ⟨hca, -⟩ := hd
    obtain ⟨hca', -⟩ := hd'
    rw [checked_add_eq_some_iff] at hca hca'
    cases d
    cases d'
    dsimp only at hca hca'
    simp only [GridDelta.mk.injEq]
    constructor <;> omega
  · decide

theorem trailsFromF_head {H : GridAddress → Option ℕ} {fuel h : ℕ}
    {a : GridAddress} {l : List GridAddress} (hl : l ∈ trailsFromF H fuel h a) :
    l.head? = some a := by
  cases fuel with
  | zero => cases hl
  | succ f =>
    rw [trailsFromF_succ] at hl
    by_cases h9 : h = 9
    · rw [if_pos h9] at hl
      rw [List.mem_singleton.mp hl]
      rfl
    · rw [if_neg h9] at hl
      rw [List.mem_flatMap] at hl
      obtain ⟨n, -, hm⟩ := hl
      rw [List.mem_map] at hm
      obtain ⟨l', -, rfl⟩ := hm
      rfl

theorem nodup_flatMap_keyed {α β : Type} (l : List α) (f : α → List β)
    (k : β → Option α)
    (hk : ∀ a ∈ l, ∀ b ∈ f a, k b = some a)
    (hn : ∀ a ∈ l, (f a).Nodup) (hl : l.Nodup) : (l.flatMap f).Nodup := by
  induction l with
  | nil => exact List.nodup_nil
  | cons x xs ih =>
    rw [List.flatMap_cons]
    apply List.Nodup.append
    · exact hn x (List.mem_cons_self x xs)
    · exact ih (fun a ha => hk a (List.mem_cons_of_mem x ha))
        (fun a ha => hn a (List.mem_cons_of_mem x ha)) (List.Nodup.of_cons hl)
    · intro b hbx hbxs
      rw [List.mem_flatMap] at hbxs
      obtain ⟨a, hax, hba⟩ := hbxs
      have h1 := hk x (List.mem_cons_self x xs) b hbx
      have h2 := hk a (List.mem_cons_of_mem x hax) b hba
      rw [h1] at h2
      injection h2 with h2
      rw [← h2] at hax
      rw [List.nodup_cons] at hl
      exact hl.1 hax

theorem trailsFromF_nodup (H : GridAddress → Option ℕ) :
    ∀ (fuel h : ℕ) (a : GridAddress), (trailsFromF H fuel h a).Nodup := by
  intro fuel
  induction fuel with
  | zero =>
    intro h a
    exact List.nodup_nil
  | succ f ihf =>
    intro h a
    rw [trailsFromF_succ]
    by_cases h9 : h = 9
    · rw [if_pos h9]
      exact List.nodup_singleton [a]
    · rw [if_neg h9]
      apply nodup_flatMap_keyed _ _ (fun l => l.tail.head?)
      · intro n _ b hb
        rw [List.mem_map] at hb
        obtain ⟨l', hl', rfl⟩ := hb
        exact trailsFromF_head hl'
      · intro n _
        apply List.Nodup.map _ (ihf (h + 1) n)
        intro l1 l2 hcons
        injection hcons
      · exact trailNeighbors_nodup H h a

theorem mem_trailsFromF_isTrail {H : GridAddress → Option ℕ} :
    ∀ (fuel h : ℕ) (a : GridAddress) (l : List GridAddress), H a = some h →
      l ∈ trailsFromF H fuel h a → IsTrailFrom H a l := by
  intro fuel
  induction fuel with
  | zero =>
    intro h a l hha hl
    cases hl
  | succ f ihf =>
    intro h a l hha hl
    rw [trailsFromF_succ] at hl
    by_cases h9 : h = 9
    · rw [if_pos h9] at hl
      rw [List.mem_singleton.mp hl]
      exact IsTrailFrom.nine (by rw [hha, h9])
    · rw [if_neg h9] at hl
      rw [List.mem_flatMap] at hl
      obtain ⟨n, hn, hm⟩ := hl
      rw [List.mem_map] at hm
      obtain ⟨l', hl', rfl⟩ := hm
      have hHn : H n = some (h + 1) := (mem_trailNeighbors_iff.mp hn).2
      exact IsTrailFrom.cons hha h9 hn (ihf (h + 1) n l' hHn hl')

theorem IsTrailFrom.mem_trailsFromF {H : GridAddress → Option ℕ}
    (hbound : ∀ b hb, H b = some hb → hb ≤ 9) {a : GridAddress}
    {l : List GridAddress} (ht : IsTrailFrom H a l) :
    ∀ fuel h, H a = some h → 10 ≤ h + fuel → l ∈ trailsFromF H fuel h a := by
  induction ht with
  | nine h9 =>
    rename_i a'
    intro fuel h hha hfl
    rw [h9] at hha
    injection hha with hha
    have h9' : h = 9 := hha.symm
    cases fuel with
    | zero =>
      have := hbound a' 9 h9
      omega
    | succ f =>
      rw [trailsFromF_succ, if_pos h9']
      exact List.mem_singleton.mpr rfl
  | cons ha hne hb ht ih =>
    rename_i a' b' l' h'
    intro fuel h hha hfl
    rw [ha] at hha
    injection hha with hha
    subst hha
    have hb9 : h' ≤ 9 := hbound a' h' ha
    cases fuel with
    | zero => omega
    | succ f =>
      rw [trailsFromF_succ, if_neg hne]
      rw [List.mem_flatMap]
      refine ⟨b', hb, ?_⟩
      rw [List.mem_map]
      have hHb : H b' = some (h' + 1) := (mem_trailNeighbors_iff.mp hb).2
      exact ⟨l', ih f (h' + 1) hHb (by omega), rfl⟩

/-! Equivalences between the search's visited set, closure-based
reachability, and the claim's height-incrementing reachability. -/

theorem reachAvoidTrail_empty_iff {H : GridAddress → Option ℕ} {a x : GridAddress} :
    ReachAvoidTrail H ∅ a x ↔ ReachableVia (stepAdj H) a x := by
  constructor
  · intro h
    induction h with
    | refl ha => exact ReachableVia.refl
    | step hb hc hnc ih => exact ReachableVia.step ih hc
  · intro h
    induction h with
    | refl => exact ReachAvoidTrail.refl (Finset.not_mem_empty a)
    | step hr hc ih => exact ReachAvoidTrail.step ih hc (Finset.not_mem_empty _)

theorem mem_incrAdj_iff {H : GridAddress → Option ℕ} {p q : GridAddress} :
    q ∈ incrAdj H p ↔ ∃ hp, H p = some hp ∧ q ∈ trailNeighbors H hp p := by
  unfold incrAdj
  rcases hHp : H p with _ | hp
  · simp
  · dsimp only
    constructor
    · intro hq
      exact ⟨hp, rfl, hq⟩
    · rintro ⟨hp', hsome, hq⟩
      injection hsome with hh
      subst hh
      exact hq

theorem reachable_stepAdj_iff_incrAdj {H : GridAddress → Option ℕ}
    (hbound : ∀ b hb, H b = some hb → hb ≤ 9) (a x : GridAddress) :
    ReachableVia (stepAdj H) a x ↔ ReachableVia (incrAdj H) a x := by
  constructor
  · intro h
    induction h with
    | refl => exact ReachableVia.refl
    | step hr hc ih =>
      rw [mem_stepAdj_iff] at hc
      obtain ⟨hp, hsome, -, hq⟩ := hc
      exact ReachableVia.step ih (mem_incrAdj_iff.mpr ⟨hp, hsome, hq⟩)
  · intro h
    induction h with
    | refl => exact ReachableVia.refl
    | step hr hc ih =>
      rw [mem_incrAdj_iff] at hc
      obtain ⟨hp, hsome, hq⟩ := hc
      have hq9 : H _ = some (hp + 1) := (mem_trailNeighbors_iff.mp hq).2
      have := hbound _ _ hq9
      exact ReachableVia.step ih
        (mem_stepAdj_iff.mpr ⟨hp, hsome, by omega, hq⟩)

/-! Remaining plumbing for the `score` driver. -/

/-- The heights of the input grid, as the height function the search state
maintains. -/
def trailH (g : Grid ℕ) : GridAddress → Option ℕ := fun b => g.get_at b

/-- The in-bounds addresses of a grid, as a finite set. -/
def gridAddrFinset {T : Type} (g : Grid T) : Finset GridAddress :=
  (Finset.range g.height).biUnion
    (fun y => (Finset.range (g.rowLen y)).image (fun x => ⟨x, y⟩))

theorem isSome_get_at_iff {T : Type} {g : Grid T} {b : GridAddress} :
    (g.get_at b).isSome = true ↔ (b.y < g.height ∧ b.x < g.rowLen b.y) := by
  unfold Grid.get_at
  rw [← Option.ne_none_iff_isSome, ne_eq, grid_get_eq_none_iff g b.x b.y]
  omega

theorem mem_gridAddrFinset {T : Type} {g : Grid T} {b : GridAddress} :
    b ∈ gridAddrFinset g ↔ (g.get_at b).isSome = true := by
  unfold gridAddrFinset
  rw [Finset.mem_biUnion, isSome_get_at_iff]
  constructor
  · rintro ⟨y, hy, hmem⟩
    rw [Finset.mem_image] at hmem
    obtain ⟨x, hx, rfl⟩ := hmem
    rw [Finset.mem_range] at hy hx
    exact ⟨hy, hx⟩
  · rintro ⟨hy, hx⟩
    refine ⟨b.y, Finset.mem_range.mpr hy, Finset.mem_image.mpr
      ⟨b.x, Finset.mem_range.mpr hx, ?_⟩⟩
    cases b
    rfl

theorem stepAdj_bounded (g : Grid ℕ) :
    ∀ p q, q ∈ stepAdj (trailH g) p → q ∈ gridAddrFinset g := by
  intro p q hq
  rw [mem_stepAdj_iff] at hq
  obtain ⟨hp, -, -, hq⟩ := hq
  have hHq := (mem_trailNeighbors_iff.mp hq).2
  rw [mem_gridAddrFinset]
  unfold trailH at hHq
  rw [hHq]
  rfl

theorem heightAt_initTrailGrid (g : Grid ℕ) (b : GridAddress) :
    heightAt ⟨g.rows.map (fun row => row.map (fun n => ⟨n, false, 0⟩))⟩ b =
      g.get_at b := by
  unfold heightAt Grid.get_at Grid.get
  dsimp only
  rw [List.get?_map]
  rcases hrow : g.rows.get? b.y with _ | row
  · rfl
  · simp only [Option.map_some', Option.some_bind, List.get?_map]
    rcases row.get? b.x with _ | n <;> rfl

theorem heights_le_of_rows {g : Grid ℕ} (h : ∀ r ∈ g.rows, ∀ n ∈ r, n ≤ 9) :
    ∀ b hb, g.get_at b = some hb → hb ≤ 9 := by
  intro b hb hget
  unfold Grid.get_at Grid.get at hget
  rcases hrow : g.rows.get? b.y with _ | row <;> rw [hrow] at hget
  · cases hget
  · simp only [Option.some_bind] at hget
    exact h row (List.get?_mem hrow) hb (List.get?_mem hget)

theorem heightAt_some_exists {g : Grid TrailTile} {b : GridAddress} {n : ℕ}
    (h : heightAt g b = some n) : ∃ t, g.get_at b = some t ∧ t.height = n := by
  unfold heightAt at h
  rcases hg : g.get_at b with _ | t <;> rw [hg] at h
  · cases h
  · injection h with h
    exact ⟨t, rfl, h⟩

theorem tileData_get_at_some {g : Grid TrailTile} {b : GridAddress} {t : TrailTile}
    (h : g.get_at b = some t) : tileData g b = some (t.height, t.score) := by
  unfold tileData
  rw [h]
  rfl

theorem tileData_some_decomp {g : Grid TrailTile} {b : GridAddress} {hh ss : ℕ}
    (h : tileData g b = some (hh, ss)) :
    ∃ t, g.get_at b = some t ∧ t.height = hh ∧ t.score = ss := by
  unfold tileData at h
  rcases hg : g.get_at b with _ | t <;> rw [hg] at h
  · cases h
  · injection h with h
    exact ⟨t, rfl, congrArg Prod.fst h, congrArg Prod.snd h⟩

theorem mem_rasterAddrs {T : Type} {g : Grid T} {b : GridAddress} :
    b ∈ rasterAddrs g ↔ (b.y < g.height ∧ b.x < g.width) := by
  unfold rasterAddrs
  rw [List.mem_flatMap]
  constructor
  · rintro ⟨y, hy, hmem⟩
    rw [List.mem_map] at hmem
    obtain ⟨x, hx, rfl⟩ := hmem
    rw [List.mem_range] at hy hx
    exact ⟨hy, hx⟩
  · rintro ⟨hy, hx⟩
    refine ⟨b.y, List.mem_range.mpr hy, List.mem_map.mpr
      ⟨b.x, List.mem_range.mpr hx, ?_⟩⟩
    cases b
    rfl

theorem rowLen_eq_width_of_rect {T : Type} {g : Grid T}
    (hrect : ∀ r ∈ g.rows, r.length = g.width) {y : ℕ} (hy : y < g.height) :
    g.rowLen y = g.width := by
  unfold Grid.rowLen
  rcases hrow : g.rows.get? y with _ | row
  · rw [List.get?_eq_none] at hrow
    unfold Grid.height at hy
    omega
  · simp only [Option.map_some', Option.getD_some]
    exact hrect row (List.get?_mem hrow)

/-- Structural specification of the raster scan: every listed height-0 tile
ends up carrying the score produced by its `find_trail` run, and unlisted
tiles are untouched. -/
theorem scoreLoop_spec (p2 : Bool) (H : GridAddress → Option ℕ)
    (sought : GridAddress → ℕ)
    (hrun : ∀ (mp : Grid TrailTile) a, (∀ b, heightAt mp b = H b) → H a = some 0 →
      ∃ st', find_trail 10 0 a p2 ⟨mp, ∅, 0⟩ = some st' ∧ st'.score = sought a ∧
        (∀ b, heightAt st'.map b = H b) ∧ (∀ b, tileData st'.map b = tileData mp b)) :
    ∀ (addrs : List GridAddress) (acc : ℕ × Grid TrailTile),
      (∀ b, heightAt acc.2 b = H b) →
      ∃ res, scoreLoop p2 addrs acc = some res ∧
        (∀ b, heightAt res.2 b = H b) ∧
        (∀ addr ∈ addrs, H addr = some 0 →
          ∃ t, res.2.get_at addr = some t ∧ t.height = 0 ∧ t.score = sought addr) ∧
        (∀ b, b ∉ addrs → tileData res.2 b = tileData acc.2 b) := by
  intro addrs
  induction addrs with
  | nil =>
    intro acc hacc
    refine ⟨acc, rfl, hacc, ?_, fun b _ => rfl⟩
    intro addr haddr
    cases haddr
  | cons a rest ih =>
    intro acc hacc
    by_cases hH0 : H a = some 0
    · have hcond : heightAt acc.2 a = some 0 := by
        rw [hacc a]
        exact hH0
      obtain ⟨st', hft, hscore, hsH, hstd⟩ := hrun acc.2 a hacc hH0
      have hstep : scoreLoop p2 (a :: rest) acc =
          scoreLoop p2 rest (acc.1 + st'.score, writeScore st'.map a st'.score) := by
        conv_lhs => unfold scoreLoop
        rw [if_pos hcond, hft]
      have haccH : ∀ b,
          heightAt (acc.1 + st'.score, writeScore st'.map a st'.score).2 b = H b := by
        intro b
        dsimp only
        rw [heightAt_writeScore]
        exact hsH b
      obtain ⟨res, hres, k2, k3a, k3b⟩ :=
        ih (acc.1 + st'.score, writeScore st'.map a st'.score) haccH
      refine ⟨res, by rw [hstep]; exact hres, k2, ?_, ?_⟩
      · intro addr haddr h0
        rcases List.mem_cons.mp haddr with rfl | hrest
        · by_cases hmem : addr ∈ rest
          · exact k3a addr hmem h0
          · have htd := k3b addr hmem
            obtain ⟨t0, hget0, hh0⟩ := heightAt_some_exists
              (show heightAt st'.map addr = some 0 by rw [hsH addr]; exact h0)
            have hw := get_at_writeScore_self hget0 st'.score
            have htacc : tileData
                (acc.1 + st'.score, writeScore st'.map addr st'.score).2 addr =
                some (t0.height, st'.score) := tileData_get_at_some hw
            rw [htacc] at htd
            obtain ⟨t, hgt, hth, hts⟩ := tileData_some_decomp htd
            exact ⟨t, hgt, by rw [hth, hh0], by rw [hts, hscore]⟩
        · exact k3a addr hrest h0
      · intro b hb
        have hbr : b ∉ rest := fun hc => hb (List.mem_cons_of_mem _ hc)
        have hba : b ≠ a := fun hc => hb (hc ▸ List.mem_cons_self _ _)
        rw [k3b b hbr]
        dsimp only
        rw [tileData_writeScore_ne _ _ _ _ hba]
        exact hstd b
    · have hcond : ¬ heightAt acc.2 a = some 0 := by
        rw [hacc a]
        exact hH0
      have hstep : scoreLoop p2 (a :: rest) acc = scoreLoop p2 rest acc := by
        conv_lhs => unfold scoreLoop
        rw [if_neg hcond]
      obtain ⟨res, hres, k2, k3a, k3b⟩ := ih acc hacc
      refine ⟨res, by rw [hstep]; exact hres, k2, ?_,
        fun b hb => k3b b (fun hc => hb (List.mem_cons_of_mem _ hc))⟩
      intro addr haddr h0
      rcases List.mem_cons.mp haddr with rfl | hrest
      · exact absurd h0 hH0
      · exact k3a addr hrest h0

/-- The score the claim assigns to a trailhead: with merging enabled, the
number of distinct height-incrementing trails to a 9; with merging disabled,
the number of distinct height-9 addresses reachable by height-incrementing
steps. -/
def trailClaimScore (g : Grid ℕ) (part2 : Bool) (addr : GridAddress) : ℕ :=
  if part2 then (trailsFromF (trailH g) 10 0 addr).length
  else ((reachClosure (stepAdj (trailH g)) ((gridAddrFinset g).card + 1) addr).filter
    (fun b => trailH g b = some 9)).card

/-- The full content of the trail-search scoring claim for one grid and one
choice of the `part2` parameter: `score` completes; every height-0 trailhead
tile carries the score `trailClaimScore` (distinct reachable nines without
merging, distinct trails with merging); the closure used to count reachable
nines is exactly height-incrementing reachability; and the trail list used to
count trails is duplicate-free and lists exactly the height-incrementing
trails. -/
def TrailScoringResult (g : Grid ℕ) (part2 : Bool) : Prop :=
  ∃ total tg, score g part2 = some (total, tg) ∧
    (∀ addr, g.get_at addr = some 0 →
      ∃ t, tg.get_at addr = some t ∧ t.height = 0 ∧
        t.score = trailClaimScore g part2 addr) ∧
    (∀ addr x,
      x ∈ reachClosure (stepAdj (trailH g)) ((gridAddrFinset g).card + 1) addr ↔
        ReachableVia (incrAdj (trailH g)) addr x) ∧
    (∀ addr, (trailsFromF (trailH g) 10 0 addr).Nodup) ∧
    (∀ addr l, g.get_at addr = some 0 →
      (l ∈ trailsFromF (trailH g) 10 0 addr ↔ IsTrailFrom (trailH g) addr l))

/-- Claim C9: on digit grids (all heights at most 9, rectangular rows), the
trail search scores each trailhead with the number of distinct reachable
height-9 addresses when merging is disabled (`part2 = false`) and with the
number of distinct height-incrementing trails when merging is enabled
(`part2 = true`); the two semantics are selected by the same `part2`
parameter of `score`. -/
theorem trail_score_selected_by_parameter (g : Grid ℕ)
    (h9 : ∀ r ∈ g.rows, ∀ n ∈ r, n ≤ 9)
    (hrect : ∀ r ∈ g.rows, r.length = g.width) (part2 : Bool) :
    TrailScoringResult g part2 := by
  have hb : ∀ b hb', trailH g b = some hb' → hb' ≤ 9 := heights_le_of_rows h9
  have hrun : ∀ (mp : Grid TrailTile) a, (∀ b, heightAt mp b = trailH g b) →
      trailH g a = some 0 →
      ∃ st', find_trail 10 0 a part2 ⟨mp, ∅, 0⟩ = some st' ∧
        st'.score = trailClaimScore g part2 a ∧
        (∀ b, heightAt st'.map b = trailH g b) ∧
        (∀ b, tileData st'.map b = tileData mp b) := by
    intro mp a hmp ha0
    have hbmp : ∀ b hb', heightAt mp b = some hb' → hb' ≤ 9 := by
      intro b hb' hhb
      rw [hmp b] at hhb
      exact hb b hb' hhb
    have hsome := (find_trail_isSome 10).1 0 a part2 ⟨mp, ∅, 0⟩ hbmp (by omega) (by omega)
    rw [Option.isSome_iff_exists] at hsome
    obtain ⟨st', hft⟩ := hsome
    have htd := (find_trail_tileData 10).1 0 a part2 ⟨mp, ∅, 0⟩ st' hft
    cases part2 with
    | true =>
      obtain ⟨s1, s2, s3⟩ :=
        find_trail_true_spec 10 0 a ⟨mp, ∅, 0⟩ st' (trailH g) hmp ha0 hft
      refine ⟨st', hft, ?_, s1, htd⟩
      rw [s3]
      unfold trailClaimScore
      rw [if_pos rfl]
      dsimp only
      omega
    | false =>
      obtain ⟨s1, s2, s3, s4, s5, s6⟩ :=
        find_trail_false_spec 10 0 a ⟨mp, ∅, 0⟩ st' (trailH g) hmp ha0 hft
      have hvisEq : st'.visited =
          reachClosure (stepAdj (trailH g)) ((gridAddrFinset g).card + 1) a := by
        ext x
        rw [mem_reachClosure_iff (stepAdj_bounded g) a x]
        constructor
        · intro hx
          exact reachAvoidTrail_empty_iff.mp (s4 x hx (Finset.not_mem_empty x))
        · intro hr
          exact ReachAvoidTrail.mem_of_closed s3
            (fun p hp hnp q hq => s5 p hp hnp q hq)
            (reachAvoidTrail_empty_iff.mpr hr)
      refine ⟨st', hft, ?_, s1, htd⟩
      rw [s6]
      unfold trailClaimScore
      rw [if_neg (by intro hc; cases hc)]
      dsimp only
      rw [Finset.sdiff_empty, hvisEq]
      omega
  obtain ⟨res, hres, k2, k3a, k3b⟩ := scoreLoop_spec part2 (trailH g)
    (trailClaimScore g part2) hrun (rasterAddrs g)
    (0, ⟨g.rows.map (fun row => row.map (fun n => ⟨n, false, 0⟩))⟩)
    (fun b => heightAt_initTrailGrid g b)
  refine ⟨res.1, res.2, ?_, ?_, ?_, fun addr => trailsFromF_nodup (trailH g) 10 0 addr, ?_⟩
  · show scoreLoop part2 (rasterAddrs g)
      (0, ⟨g.rows.map (fun row => row.map (fun n => ⟨n, false, 0⟩))⟩) = some (res.1, res.2)
    rw [hres]
  · intro addr h0
    have hmem : addr ∈ rasterAddrs g := by
      rw [mem_rasterAddrs]
      have hs : (g.get_at addr).isSome = true := by
        rw [h0]
        rfl
      rw [isSome_get_at_iff] at hs
      refine ⟨hs.1, ?_⟩
      rw [← rowLen_eq_width_of_rect hrect hs.1]
      exact hs.2
    exact k3a addr hmem h0
  · intro addr x
    rw [mem_reachClosure_iff (stepAdj_bounded g) addr x]
    exact reachable_stepAdj_iff_incrAdj hb addr x
  · intro addr l h0
    constructor
    · exact mem_trailsFromF_isTrail 10 0 addr l h0
    · intro ht
      exact ht.mem_trailsFromF hb 10 0 h0 (by omega)

/-- Witness for claim C9 on the single-row grid `0123456789`: both semantics
complete with the claimed per-trailhead scores. -/
theorem trail_score_selected_by_parameter_witness :
    TrailScoringResult ⟨[[0, 1, 2, 3, 4, 5, 6, 7, 8, 9]]⟩ false ∧
      TrailScoringResult ⟨[[0, 1, 2, 3, 4, 5, 6, 7, 8, 9]]⟩ true :=
  ⟨trail_score_selected_by_parameter _ (by decide) (by decide) false,
    trail_score_selected_by_parameter _ (by decide) (by decide) true⟩

/-! ## Garden groups (`puzzle12.rs`)

The flood fill that assigns an `area_id` to every tile, records fences, and
collects each area's addresses; and `count_edges`, which counts maximal fence
runs.  The recursion of `flood_from` is modelled with explicit fuel (`none` =
fuel exhausted, which is shown not to happen when the fuel exceeds the number
of unassigned tiles); `HashMap<AreaId, Area>` keyed by the consecutive ids
`0, 1, ...` is modelled as a `List Area` indexed by id, and each `Area`'s
`HashSet<GridAddress>` as its list of addresses in insertion order. -/

/-- Models `CardinalSet` (`geometry.rs`): one flag per direction. -/
structure CardinalSet where
  north : Bool
  east : Bool
  south : Bool
  west : Bool
deriving DecidableEq

/-- Models `CardinalSet::default()`: the empty set. -/
def CardinalSet.default : CardinalSet := ⟨false, false, false, false⟩

/-- Models `CardinalSet::contains`. -/
def CardinalSet.contains (s : CardinalSet) : Cardinal → Bool
  | .north => s.north
  | .east => s.east
  | .south => s.south
  | .west => s.west

/-- Models `CardinalSet::len`: the number of directions present. -/
def CardinalSet.len (s : CardinalSet) : ℕ :=
  (cond s.north 1 0) + (cond s.east 1 0) + (cond s.south 1 0) + (cond s.west 1 0)

/-- Models `AddAssign<Cardinal> for CardinalSet` (`self += cardinal`). -/
def CardinalSet.insert (s : CardinalSet) : Cardinal → CardinalSet
  | .north => ⟨true, s.east, s.south, s.west⟩
  | .east => ⟨s.north, true, s.south, s.west⟩
  | .south => ⟨s.north, s.east, true, s.west⟩
  | .west => ⟨s.north, s.east, s.south, true⟩

/-- Models `puzzle12::Tile`. -/
structure Tile where
  letter : Char
  area_id : Option ℕ
  fences : CardinalSet
deriving DecidableEq

/-- Models `puzzle12::Area`; the `HashSet` of addresses is kept as the list of
addresses in insertion order (each address is inserted at most once). -/
structure Area where
  letter : Char
  addresses : List GridAddress

/-- The mutable state threaded through `flood`/`flood_from`: the tile grid and
the areas map (a list indexed by `AreaId`, which is assigned consecutively). -/
structure FloodState where
  grid : Grid Tile
  areas : List Area

/-- Models `grid[addr].area_id = Some(area_id)`; the address is always in
bounds at every call site. -/
def setAreaId (g : Grid Tile) (addr : GridAddress) (id : ℕ) : Grid Tile :=
  match g.get_at addr with
  | some t => g.set addr.x addr.y ⟨t.letter, some id, t.fences⟩
  | none => g

/-- Models `grid[addr].fences += cardinal`. -/
def addFence (g : Grid Tile) (addr : GridAddress) (c : Cardinal) : Grid Tile :=
  match g.get_at addr with
  | some t => g.set addr.x addr.y ⟨t.letter, t.area_id, t.fences.insert c⟩
  | none => g

/-- Models `areas.insert(AreaId(next_id), Area { letter, addresses: {} })`
where `next_id` is the list length. -/
def pushArea (areas : List Area) (l : Char) : List Area := areas ++ [⟨l, []⟩]

/-- Models `areas.entry(area_id).and_modify(|area| area.addresses.insert(addr))`. -/
def addAddr (areas : List Area) (id : ℕ) (addr : GridAddress) : List Area :=
  match areas.get? id with
  | some ar => areas.set id ⟨ar.letter, ar.addresses ++ [addr]⟩
  | none => areas

/-- Total number of tiles stored in the grid (used to size the fuel). -/
def totalTiles {T : Type} (g : Grid T) : ℕ := (g.rows.map List.length).sum

mutual

/-- Models `flood_from` (`puzzle12.rs`): assign `area_id` to the tile at
`addr`, record the address in the area, then walk the four cardinal
neighbors, recursing into unassigned same-letter neighbors and adding fences
toward off-grid or different-letter neighbors. -/
def flood_from (fuel : ℕ) (addr : GridAddress) (area_id : ℕ) (st : FloodState) :
    Option FloodState :=
  match fuel with
  | 0 => none
  | fuel + 1 =>
    flood_from_list fuel addr area_id Cardinal.all
      ⟨setAreaId st.grid addr area_id, addAddr st.areas area_id addr⟩
termination_by (fuel, 0)

/-- One iteration of the `for cardinal in Cardinal::ALL` loop of
`flood_from`: inspect the neighbor toward `c` and either recurse, add a
fence, or do nothing. -/
def flood_from_card (fuel : ℕ) (addr : GridAddress) (area_id : ℕ)
    (c : Cardinal) (st : FloodState) : Option FloodState :=
  match addr.checked_add c.toDelta with
  | none => some ⟨addFence st.grid addr c, st.areas⟩
  | some nb =>
    match st.grid.get_at nb with
    | none => some ⟨addFence st.grid addr c, st.areas⟩
    | some neighbor =>
      match neighbor.area_id with
      | none =>
        if some neighbor.letter = (st.grid.get_at addr).map Tile.letter then
          flood_from fuel nb area_id st
        else some ⟨addFence st.grid addr c, st.areas⟩
      | some na =>
        if na = area_id then some st
        else some ⟨addFence st.grid addr c, st.areas⟩
termination_by (fuel, 1)

/-- The `for cardinal in Cardinal::ALL` loop of `flood_from`. -/
def flood_from_list (fuel : ℕ) (addr : GridAddress) (area_id : ℕ)
    (cs : List Cardinal) (st : FloodState) : Option FloodState :=
  match cs with
  | [] => some st
  | c :: rest =>
    (flood_from_card fuel addr area_id c st).bind (flood_from_list fuel addr area_id rest)
termination_by (fuel, cs.length + 2)

end

/-- The raster loop of `flood`: `for y in 0..height, for x in 0..width`,
starting a new area at each not-yet-assigned tile.  The `none` branch of
`get_at` is unreachable on the raster addresses of a rectangular grid. -/
def floodLoop (fuel : ℕ) (addrs : List GridAddress) (st : FloodState) :
    Option FloodState :=
  match addrs with
  | [] => some st
  | addr :: rest =>
    match st.grid.get_at addr with
    | none => floodLoop fuel rest st
    | some t =>
      match t.area_id with
      | some _ => floodLoop fuel rest st
      | none =>
        (flood_from fuel addr st.areas.length ⟨st.grid, pushArea st.areas t.letter⟩).bind
          (floodLoop fuel rest)

/-- Models `flood` (`puzzle12.rs`): raster-scan the grid, flood-filling a new
area from every unassigned tile; `none` only on fuel exhaustion, which is
shown impossible. -/
def flood (grid : Grid Tile) : Option FloodState :=
  floodLoop (totalTiles grid + 1) (rasterAddrs grid) ⟨grid, []⟩

/-- The `Tile` grid that `run` builds from the parsed character grid before
calling `flood`. -/
def initTiles (g : Grid Char) : Grid Tile :=
  ⟨g.rows.map (fun row => row.map (fun c => ⟨c, none, CardinalSet.default⟩))⟩

/-- The `'edge_scan` walk of `count_edges`: starting at `pos`, repeatedly step
by `delta` while the neighbor is in the same area and has a fence on side `c`,
inserting each such `(position, c)` pair into `seen`.  The walk moves along one
straight line, so any fuel larger than the grid extent suffices. -/
def edgeScan (g : Grid Tile) (aid : Option ℕ) (c : Cardinal) (delta : GridDelta) :
    ℕ → GridAddress → Finset (GridAddress × Cardinal) → Finset (GridAddress × Cardinal)
  | 0, _, seen => seen
  | fuel + 1, pos, seen =>
    match pos.checked_add delta with
    | none => seen
    | some nbAddr =>
      match g.get_at nbAddr with
      | none => seen
      | some neighbor =>
        if neighbor.area_id = aid then
          if neighbor.fences.contains c then
            edgeScan g aid c delta fuel nbAddr (insert (nbAddr, c) seen)
          else seen
        else seen

/-- The `for cardinal in Cardinal::ALL` loop of `count_edges`: for each unseen
fence of the tile at `addr`, count one edge and mark the whole run by walking
both perpendicular directions. -/
def countEdgesCards (g : Grid Tile) (walkFuel : ℕ) (addr : GridAddress) (tile : Tile) :
    List Cardinal → Finset (GridAddress × Cardinal) → ℕ →
      Finset (GridAddress × Cardinal) × ℕ
  | [], seen, cnt => (seen, cnt)
  | c :: rest, seen, cnt =>
    if tile.fences.contains c ∧ (addr, c) ∉ seen then
      let seen1 := insert (addr, c) seen
      let seen2 := edgeScan g tile.area_id c c.turn_right.toDelta walkFuel addr seen1
      let seen3 := edgeScan g tile.area_id c c.turn_left.toDelta walkFuel addr seen2
      countEdgesCards g walkFuel addr tile rest seen3 (cnt + 1)
    else
      countEdgesCards g walkFuel addr tile rest seen cnt

/-- The outer `for addr in &area.addresses` loop of `count_edges`. -/
def countEdgesAddrs (g : Grid Tile) (walkFuel : ℕ) :
    List GridAddress → Finset (GridAddress × Cardinal) → ℕ →
      Finset (GridAddress × Cardinal) × ℕ
  | [], seen, cnt => (seen, cnt)
  | addr :: rest, seen, cnt =>
    match g.get_at addr with
    | none => countEdgesAddrs g walkFuel rest seen cnt
    | some tile =>
      let p := countEdgesCards g walkFuel addr tile Cardinal.all seen cnt
      countEdgesAddrs g walkFuel rest p.1 p.2

/-- Models `count_edges` (`puzzle12.rs`): the number of maximal unbroken runs
of same-side fences found over the area's addresses. -/
def count_edges (g : Grid Tile) (area : Area) : ℕ :=
  (countEdgesAddrs g (totalTiles g + 1) area.addresses ∅ 0).2

/-! ### Observers on flood states -/

/-- The letter stored at an address. -/
def letterAt (g : Grid Tile) (b : GridAddress) : Option Char :=
  (g.get_at b).map Tile.letter

/-- The assigned area id at an address (`none` for out-of-bounds or
not-yet-assigned tiles). -/
def areaIdAt (g : Grid Tile) (b : GridAddress) : Option ℕ :=
  (g.get_at b).bind Tile.area_id

/-- Whether the tile at `b` has a fence on side `c`. -/
def fenceB (g : Grid Tile) (b : GridAddress) (c : Cardinal) : Bool :=
  ((g.get_at b).map (fun t => t.fences.contains c)).getD false

theorem isSome_letterAt {g : Grid Tile} {b : GridAddress} :
    (letterAt g b).isSome = (g.get_at b).isSome := by
  unfold letterAt
  rcases g.get_at b with _ | t <;> rfl

theorem areaIdAt_ne_none_of_some {g : Grid Tile} {b : GridAddress} {t : Tile}
    (h : g.get_at b = some t) (j : ℕ) (hj : t.area_id = some j) :
    areaIdAt g b = some j := by
  unfold areaIdAt
  rw [h, Option.some_bind, hj]

theorem get_at_of_areaIdAt_some {g : Grid Tile} {b : GridAddress} {j : ℕ}
    (h : areaIdAt g b = some j) : ∃ t, g.get_at b = some t ∧ t.area_id = some j := by
  unfold areaIdAt at h
  rcases hgb : g.get_at b with _ | t
  · rw [hgb] at h
    cases h
  · rw [hgb, Option.some_bind] at h
    exact ⟨t, rfl, h⟩

/-! ### How `setAreaId` and `addFence` act on the observers -/

theorem get_at_setAreaId_self {g : Grid Tile} {a : GridAddress} {t : Tile}
    (hat : g.get_at a = some t) (id : ℕ) :
    (setAreaId g a id).get_at a = some ⟨t.letter, some id, t.fences⟩ := by
  unfold setAreaId
  rw [hat]
  unfold Grid.get_at
  rw [Grid.get_set, if_pos]
  refine ⟨rfl, rfl, ?_⟩
  unfold Grid.get_at at hat
  rw [hat]
  rfl

theorem get_at_setAreaId_ne {g : Grid Tile} {a b : GridAddress} (hne : b ≠ a) (id : ℕ) :
    (setAreaId g a id).get_at b = g.get_at b := by
  unfold setAreaId
  rcases hat : g.get_at a with _ | t
  · rfl
  · unfold Grid.get_at
    rw [Grid.get_set]
    split
    · rename_i hcond
      obtain ⟨hx, hy, -⟩ := hcond
      exact absurd (GridAddress.ext_xy hx.symm hy.symm) hne
    · rfl

theorem get_at_addFence_self {g : Grid Tile} {a : GridAddress} {t : Tile}
    (hat : g.get_at a = some t) (c : Cardinal) :
    (addFence g a c).get_at a = some ⟨t.letter, t.area_id, t.fences.insert c⟩ := by
  unfold addFence
  rw [hat]
  unfold Grid.get_at
  rw [Grid.get_set, if_pos]
  refine ⟨rfl, rfl, ?_⟩
  unfold Grid.get_at at hat
  rw [hat]
  rfl

theorem get_at_addFence_ne {g : Grid Tile} {a b : GridAddress} (hne : b ≠ a) (c : Cardinal) :
    (addFence g a c).get_at b = g.get_at b := by
  unfold addFence
  rcases hat : g.get_at a with _ | t
  · rfl
  · unfold Grid.get_at
    rw [Grid.get_set]
    split
    · rename_i hcond
      obtain ⟨hx, hy, -⟩ := hcond
      exact absurd (GridAddress.ext_xy hx.symm hy.symm) hne
    · rfl

theorem letterAt_setAreaId (g : Grid Tile) (a : GridAddress) (id : ℕ) (b : GridAddress) :
    letterAt (setAreaId g a id) b = letterAt g b := by
  by_cases hb : b = a
  · subst hb
    rcases hat : g.get_at b with _ | t
    · unfold setAreaId
      rw [hat]
    · unfold letterAt
      rw [get_at_setAreaId_self hat, hat]
      rfl
  · unfold letterAt
    rw [get_at_setAreaId_ne hb]

theorem letterAt_addFence (g : Grid Tile) (a : GridAddress) (c : Cardinal)
    (b : GridAddress) : letterAt (addFence g a c) b = letterAt g b := by
  by_cases hb : b = a
  · subst hb
    rcases hat : g.get_at b with _ | t
    · unfold addFence
      rw [hat]
    · unfold letterAt
      rw [get_at_addFence_self hat, hat]
      rfl
  · unfold letterAt
    rw [get_at_addFence_ne hb]

theorem areaIdAt_setAreaId_self {g : Grid Tile} {a : GridAddress}
    (hin : (g.get_at a).isSome = true) (id : ℕ) :
    areaIdAt (setAreaId g a id) a = some id := by
  rw [Option.isSome_iff_exists] at hin
  obtain ⟨t, hat⟩ := hin
  unfold areaIdAt
  rw [get_at_setAreaId_self hat, Option.some_bind]

theorem areaIdAt_setAreaId_ne {g : Grid Tile} {a b : GridAddress} (hne : b ≠ a) (id : ℕ) :
    areaIdAt (setAreaId g a id) b = areaIdAt g b := by
  unfold areaIdAt
  rw [get_at_setAreaId_ne hne]

theorem areaIdAt_addFence (g : Grid Tile) (a : GridAddress) (c : Cardinal)
    (b : GridAddress) : areaIdAt (addFence g a c) b = areaIdAt g b := by
  by_cases hb : b = a
  · subst hb
    rcases hat : g.get_at b with _ | t
    · unfold addFence
      rw [hat]
    · unfold areaIdAt
      rw [get_at_addFence_self hat, hat]
      rfl
  · unfold areaIdAt
    rw [get_at_addFence_ne hb]

theorem fenceB_setAreaId (g : Grid Tile) (a : GridAddress) (id : ℕ)
    (b : GridAddress) (c' : Cardinal) :
    fenceB (setAreaId g a id) b c' = fenceB g b c' := by
  by_cases hb : b = a
  · subst hb
    rcases hat : g.get_at b with _ | t
    · unfold setAreaId
      rw [hat]
    · unfold fenceB
      rw [get_at_setAreaId_self hat, hat]
      rfl
  · unfold fenceB
    rw [get_at_setAreaId_ne hb]

/-- Inserting one direction into a `CardinalSet` grows `contains` pointwise. -/
theorem CardinalSet.contains_insert (s : CardinalSet) (c c' : Cardinal) :
    (s.insert c).contains c' = ((c' == c) || s.contains c') := by
  cases c <;> cases c' <;> rfl

theorem fenceB_addFence_self {g : Grid Tile} {a : GridAddress}
    (hin : (g.get_at a).isSome = true) (c c' : Cardinal) :
    fenceB (addFence g a c) a c' = ((c' == c) || fenceB g a c') := by
  rw [Option.isSome_iff_exists] at hin
  obtain ⟨t, hat⟩ := hin
  unfold fenceB
  rw [get_at_addFence_self hat, hat]
  simp only [Option.map_some', Option.getD_some]
  exact CardinalSet.contains_insert t.fences c c'

theorem fenceB_addFence_ne {g : Grid Tile} {a b : GridAddress} (hne : b ≠ a)
    (c c' : Cardinal) : fenceB (addFence g a c) b c' = fenceB g b c' := by
  unfold fenceB
  rw [get_at_addFence_ne hne]

theorem isSome_get_at_setAreaId (g : Grid Tile) (a : GridAddress) (id : ℕ)
    (b : GridAddress) : ((setAreaId g a id).get_at b).isSome = (g.get_at b).isSome := by
  rw [← isSome_letterAt, letterAt_setAreaId, isSome_letterAt]

theorem isSome_get_at_addFence (g : Grid Tile) (a : GridAddress) (c : Cardinal)
    (b : GridAddress) : ((addFence g a c).get_at b).isSome = (g.get_at b).isSome := by
  rw [← isSome_letterAt, letterAt_addFence, isSome_letterAt]

/-! ### How `pushArea` and `addAddr` act on the areas list -/

theorem length_pushArea (areas : List Area) (l : Char) :
    (pushArea areas l).length = areas.length + 1 := by
  unfold pushArea
  rw [List.length_append]
  rfl

theorem pushArea_get?_lt (areas : List Area) (l : Char) {j : ℕ} (hj : j < areas.length) :
    (pushArea areas l).get? j = areas.get? j := by
  unfold pushArea
  rw [List.get?_append hj]

theorem pushArea_get?_self (areas : List Area) (l : Char) :
    (pushArea areas l).get? areas.length = some ⟨l, []⟩ := by
  unfold pushArea
  rw [List.get?_append_right (le_refl _), Nat.sub_self]
  rfl

theorem length_addAddr (areas : List Area) (id : ℕ) (addr : GridAddress) :
    (addAddr areas id addr).length = areas.length := by
  unfold addAddr
  rcases areas.get? id with _ | ar
  · rfl
  · rw [List.length_set]

theorem addAddr_get?_ne (areas : List Area) (id : ℕ) (addr : GridAddress)
    {j : ℕ} (hj : j ≠ id) : (addAddr areas id addr).get? j = areas.get? j := by
  unfold addAddr
  rcases areas.get? id with _ | ar
  · rfl
  · rw [List.get?_set_ne _ _ (fun hc => hj hc.symm)]

theorem addAddr_get?_self {areas : List Area} {id : ℕ} (addr : GridAddress)
    {ar : Area} (har : areas.get? id = some ar) :
    (addAddr areas id addr).get? id = some ⟨ar.letter, ar.addresses ++ [addr]⟩ := by
  unfold addAddr
  rw [har]
  have hid : id < areas.length := by
    by_contra hcon
    rw [List.get?_eq_none.mpr (by omega)] at har
    cases har
  rw [List.get?_set_eq_of_lt _ hid]

theorem addAddr_get?_none {areas : List Area} {id : ℕ}
    (har : areas.get? id = none) (addr : GridAddress) :
    addAddr areas id addr = areas := by
  unfold addAddr
  rw [har]

/-! ### Same-letter adjacency and avoid-set reachability for the flood fill -/

/-- The cardinal neighbors of `a` that carry the same letter as `a` under the
letter map `L` (and exist under `L`). -/
def letterAdj (L : GridAddress → Option Char) (a : GridAddress) : List GridAddress :=
  Cardinal.all.filterMap (fun c =>
    match a.checked_add c.toDelta with
    | none => none
    | some nb => if (L nb).isSome = true ∧ L nb = L a then some nb else none)

/-- The condition under which the flood fill records a fence at `b` toward
`c`: every in-`usize` neighbor in that direction carries a different letter
(out-of-grid neighbors have letter `none`). -/
def FenceCond (L : GridAddress → Option Char) (b : GridAddress) (c : Cardinal) : Prop :=
  match b.checked_add c.toDelta with
  | none => True
  | some nb => L nb ≠ L b

theorem cardinal_mem_all (c : Cardinal) : c ∈ Cardinal.all := by
  cases c <;> decide

theorem mem_letterAdj_iff {L : GridAddress → Option Char} {p q : GridAddress} :
    q ∈ letterAdj L p ↔
      (∃ c : Cardinal, p.checked_add c.toDelta = some q) ∧
        (L q).isSome = true ∧ L q = L p := by
  unfold letterAdj
  rw [List.mem_filterMap]
  constructor
  · rintro ⟨c, -, hc⟩
    rcases hca : p.checked_add c.toDelta with _ | nb <;> rw [hca] at hc
    · cases hc
    · dsimp only at hc
      split at hc
      · rename_i hcond
        cases hc
        exact ⟨⟨c, hca⟩, hcond⟩
      · cases hc
  · rintro ⟨⟨c, hca⟩, hsome, heq⟩
    refine ⟨c, cardinal_mem_all c, ?_⟩
    rw [hca]
    dsimp only
    rw [if_pos ⟨hsome, heq⟩]

theorem letterAdj_symm {L : GridAddress → Option Char} {p q : GridAddress}
    (hpx : p.x ≤ usizeMax) (hpy : p.y ≤ usizeMax)
    (hpin : (L p).isSome = true) (h : q ∈ letterAdj L p) : p ∈ letterAdj L q := by
  rw [mem_letterAdj_iff] at h ⊢
  obtain ⟨⟨c, hc⟩, hqin, hql⟩ := h
  exact ⟨⟨c.opposite, checked_add_opposite_roundtrip p q c hpx hpy hc⟩, hpin, hql.symm⟩

/-- Reachability along `adj` through vertices avoiding the predicate `vis`. -/
inductive ReachAvoidP (adj : GridAddress → List GridAddress)
    (vis : GridAddress → Prop) (a : GridAddress) : GridAddress → Prop
  | refl (ha : ¬ vis a) : ReachAvoidP adj vis a a
  | step {b c : GridAddress} (hb : ReachAvoidP adj vis a b) (hc : c ∈ adj b)
      (hnc : ¬ vis c) : ReachAvoidP adj vis a c

theorem ReachAvoidP.monoVis {adj : GridAddress → List GridAddress}
    {vis vis' : GridAddress → Prop} {a x : GridAddress}
    (hsub : ∀ q, vis q → vis' q)
    (h : ReachAvoidP adj vis' a x) : ReachAvoidP adj vis a x := by
  induction h with
  | refl ha => exact ReachAvoidP.refl (fun hc => ha (hsub _ hc))
  | step hb hc hnc ih => exact ReachAvoidP.step ih hc (fun hcc => hnc (hsub _ hcc))

theorem ReachAvoidP.not_vis {adj : GridAddress → List GridAddress}
    {vis : GridAddress → Prop} {a x : GridAddress}
    (h : ReachAvoidP adj vis a x) : ¬ vis x := by
  induction h with
  | refl ha => exact ha
  | step hb hc hnc ih => exact hnc

theorem ReachAvoidP.prependVis {adj : GridAddress → List GridAddress}
    {vis : GridAddress → Prop} {a b x : GridAddress} (hna : ¬ vis a)
    (hab : b ∈ adj a) (h : ReachAvoidP adj vis b x) : ReachAvoidP adj vis a x := by
  induction h with
  | refl hb => exact ReachAvoidP.step (ReachAvoidP.refl hna) hab hb
  | step hb hc hnc ih => exact ReachAvoidP.step ih hc hnc

/-- Absorption: a predicate holding at `a` and closed under `adj` outside
`vis` holds everywhere `vis`-avoidingly reachable from `a`. -/
theorem ReachAvoidP.mem_of_closedVis {adj : GridAddress → List GridAddress}
    {vis V : GridAddress → Prop} {a x : GridAddress}
    (haV : V a)
    (hclosed : ∀ p, V p → ¬ vis p → ∀ q ∈ adj p, V q)
    (h : ReachAvoidP adj vis a x) : V x := by
  induction h with
  | refl ha => exact haV
  | step hb hc hnc ih => exact hclosed _ ih hb.not_vis _ hc

theorem ReachAvoidP.toReachable {adj : GridAddress → List GridAddress}
    {vis : GridAddress → Prop} {a x : GridAddress}
    (h : ReachAvoidP adj vis a x) : ReachableVia adj a x := by
  induction h with
  | refl ha => exact ReachableVia.refl
  | step hb hc hnc ih => exact ReachableVia.step ih hc

theorem reachableVia_letter {L : GridAddress → Option Char} {a x : GridAddress}
    (h : ReachableVia (letterAdj L) a x) : L x = L a := by
  induction h with
  | refl => rfl
  | step hb hc ih => rw [(mem_letterAdj_iff.mp hc).2.2, ih]

/-! ### Unfolding equations for the fueled flood fill -/

theorem flood_from_zero {addr : GridAddress} {id : ℕ} {st : FloodState} :
    flood_from 0 addr id st = none := by
  unfold flood_from
  rfl

theorem flood_from_succ (fuel : ℕ) (addr : GridAddress) (id : ℕ) (st : FloodState) :
    flood_from (fuel + 1) addr id st =
      flood_from_list fuel addr id Cardinal.all
        ⟨setAreaId st.grid addr id, addAddr st.areas id addr⟩ := by
  conv_lhs => unfold flood_from

theorem flood_from_list_nil {fuel : ℕ} {addr : GridAddress} {id : ℕ} {st : FloodState} :
    flood_from_list fuel addr id [] st = some st := by
  unfold flood_from_list
  rfl

theorem flood_from_list_cons (fuel : ℕ) (addr : GridAddress) (id : ℕ)
    (c : Cardinal) (rest : List Cardinal) (st : FloodState) :
    flood_from_list fuel addr id (c :: rest) st =
      (flood_from_card fuel addr id c st).bind (flood_from_list fuel addr id rest) := by
  conv_lhs => unfold flood_from_list

/-! ### What one flood call preserves -/

/-- Facts preserved by every step of the flood fill: grid shape, letters,
existing id assignments, and the length of the areas list. -/
def Preserve (st st' : FloodState) : Prop :=
  (∀ b, (st'.grid.get_at b).isSome = (st.grid.get_at b).isSome) ∧
  (∀ b, letterAt st'.grid b = letterAt st.grid b) ∧
  (∀ b j, areaIdAt st.grid b = some j → areaIdAt st'.grid b = some j) ∧
  st'.areas.length = st.areas.length

theorem Preserve.refl (st : FloodState) : Preserve st st :=
  ⟨fun _ => rfl, fun _ => rfl, fun _ _ h => h, rfl⟩

theorem Preserve.trans {st st' st'' : FloodState} (h1 : Preserve st st')
    (h2 : Preserve st' st'') : Preserve st st'' := by
  obtain ⟨a1, b1, c1, d1⟩ := h1
  obtain ⟨a2, b2, c2, d2⟩ := h2
  exact ⟨fun b => (a2 b).trans (a1 b), fun b => (b2 b).trans (b1 b),
    fun b j h => c2 b j (c1 b j h), d2.trans d1⟩

/-- The marking step of `flood_from` preserves everything in `Preserve`, as
long as `addr` is not already assigned. -/
theorem preserve_mark {st : FloodState} {addr : GridAddress} {id : ℕ}
    (hun : areaIdAt st.grid addr = none) :
    Preserve st ⟨setAreaId st.grid addr id, addAddr st.areas id addr⟩ := by
  refine ⟨fun b => isSome_get_at_setAreaId _ _ _ _,
    fun b => letterAt_setAreaId _ _ _ _, ?_, length_addAddr _ _ _⟩
  intro b j hj
  by_cases hb : b = addr
  · subst hb
    rw [hun] at hj
    cases hj
  · show areaIdAt (setAreaId st.grid addr id) b = some j
    rw [areaIdAt_setAreaId_ne hb]
    exact hj

/-- The fence-adding step preserves everything in `Preserve`. -/
theorem preserve_fence (st : FloodState) (addr : GridAddress) (c : Cardinal) :
    Preserve st ⟨addFence st.grid addr c, st.areas⟩ :=
  ⟨fun b => isSome_get_at_addFence _ _ _ _, fun b => letterAt_addFence _ _ _ _,
    fun b j hj => by
      show areaIdAt (addFence st.grid addr c) b = some j
      rw [areaIdAt_addFence]
      exact hj, rfl⟩

/-- `flood_from_card` preserves `Preserve`, given that `flood_from` does at
the same fuel. -/
theorem preserve_card {fuel : ℕ}
    (htrail : ∀ addr id st st', areaIdAt st.grid addr = none →
      flood_from fuel addr id st = some st' → Preserve st st') :
    ∀ addr id c st st', flood_from_card fuel addr id c st = some st' →
      Preserve st st' := by
  intro addr id c st st' h
  unfold flood_from_card at h
  rcases hca : addr.checked_add c.toDelta with _ | nb <;> rw [hca] at h
  · cases h
    exact preserve_fence st addr c
  · dsimp only at h
    rcases hnb : st.grid.get_at nb with _ | neighbor <;> rw [hnb] at h
    · cases h
      exact preserve_fence st addr c
    · dsimp only at h
      rcases hna : neighbor.area_id with _ | na <;> rw [hna] at h
      · dsimp only at h
        split at h
        · exact htrail nb id st st'
            (by unfold areaIdAt; rw [hnb, Option.some_bind, hna]) h
        · cases h
          exact preserve_fence st addr c
      · dsimp only at h
        split at h
        · cases h
          exact Preserve.refl st
        · cases h
          exact preserve_fence st addr c

/-- `flood_from_list` preserves `Preserve`, given that `flood_from_card`
does at the same fuel. -/
theorem preserve_list {fuel : ℕ}
    (hcard : ∀ addr id c st st', flood_from_card fuel addr id c st = some st' →
      Preserve st st') :
    ∀ cs addr id st st', flood_from_list fuel addr id cs st = some st' →
      Preserve st st' := by
  intro cs
  induction cs with
  | nil =>
    intro addr id st st' h
    rw [flood_from_list_nil] at h
    cases h
    exact Preserve.refl st
  | cons c rest ih =>
    intro addr id st st' h
    rw [flood_from_list_cons] at h
    rcases hmid : flood_from_card fuel addr id c st with _ | stm <;> rw [hmid] at h
    · cases h
    · rw [Option.some_bind] at h
      exact (hcard addr id c st stm hmid).trans (ih addr id stm st' h)

/-- All three flood functions preserve `Preserve` (for `flood_from`, under
the call-site invariant that the target tile is unassigned). -/
theorem flood_preserves (fuel : ℕ) :
    (∀ addr id st st', areaIdAt st.grid addr = none →
      flood_from fuel addr id st = some st' → Preserve st st') ∧
    (∀ addr id c st st', flood_from_card fuel addr id c st = some st' →
      Preserve st st') ∧
    (∀ cs addr id st st', flood_from_list fuel addr id cs st = some st' →
      Preserve st st') := by
  induction fuel with
  | zero =>
    have htrail : ∀ addr id st st', areaIdAt st.grid addr = none →
        flood_from 0 addr id st = some st' → Preserve st st' := by
      intro addr id st st' hun h
      rw [flood_from_zero] at h
      cases h
    have hcard := preserve_card htrail
    exact ⟨htrail, hcard, preserve_list hcard⟩
  | succ fuel ih =>
    have htrail : ∀ addr id st st', areaIdAt st.grid addr = none →
        flood_from (fuel + 1) addr id st = some st' → Preserve st st' := by
      intro addr id st st' hun h
      rw [flood_from_succ] at h
      exact (preserve_mark hun).trans (ih.2.2 Cardinal.all addr id _ st' h)
    have hcard := preserve_card htrail
    exact ⟨htrail, hcard, preserve_list hcard⟩

/-! ### Fuel sufficiency for the flood fill -/

/-- Number of stored tiles that have no `area_id` yet. -/
def unassignedCount (g : Grid Tile) : ℕ :=
  ((gridAddrFinset g).filter (fun b => areaIdAt g b = none)).card

theorem unassignedCount_le_of_preserve {st st' : FloodState}
    (h : Preserve st st') : unassignedCount st'.grid ≤ unassignedCount st.grid := by
  obtain ⟨hshape, -, hmono, -⟩ := h
  unfold unassignedCount
  apply Finset.card_le_card
  intro b hb
  rw [Finset.mem_filter] at hb ⊢
  obtain ⟨hbmem, hbun⟩ := hb
  rw [mem_gridAddrFinset] at hbmem ⊢
  refine ⟨by rw [← hshape]; exact hbmem, ?_⟩
  rcases hst : areaIdAt st.grid b with _ | j
  · rfl
  · rw [hmono b j hst] at hbun
    cases hbun

/-- Marking an unassigned in-grid tile strictly decreases the unassigned
count. -/
theorem unassignedCount_mark_lt {st : FloodState} {addr : GridAddress} {t : Tile}
    (hat : st.grid.get_at addr = some t) (hun : t.area_id = none) (id : ℕ) :
    unassignedCount (setAreaId st.grid addr id) < unassignedCount st.grid := by
  unfold unassignedCount
  apply Finset.card_lt_card
  rw [Finset.ssubset_def]
  constructor
  · intro b hb
    rw [Finset.mem_filter] at hb ⊢
    obtain ⟨hbmem, hbun⟩ := hb
    rw [mem_gridAddrFinset] at hbmem ⊢
    by_cases hb : b = addr
    · subst hb
      rw [areaIdAt_setAreaId_self (by rw [hat]; rfl) id] at hbun
      cases hbun
    · rw [isSome_get_at_setAreaId] at hbmem
      rw [areaIdAt_setAreaId_ne hb] at hbun
      exact ⟨hbmem, hbun⟩
  · intro hsub
    have haddr : addr ∈ (gridAddrFinset st.grid).filter
        (fun b => areaIdAt st.grid b = none) := by
      rw [Finset.mem_filter, mem_gridAddrFinset]
      refine ⟨by rw [hat]; rfl, ?_⟩
      unfold areaIdAt
      rw [hat, Option.some_bind, hun]
    have := hsub haddr
    rw [Finset.mem_filter] at this
    rw [areaIdAt_setAreaId_self (by rw [hat]; rfl) id] at this
    cases this.2

/-- Fuel larger than the number of unassigned tiles suffices for every level
of the flood fill. -/
theorem flood_isSome_all (fuel : ℕ) :
    (∀ addr id st, (∃ t, st.grid.get_at addr = some t ∧ t.area_id = none) →
      unassignedCount st.grid < fuel → (flood_from fuel addr id st).isSome = true) ∧
    (∀ addr id c st, unassignedCount st.grid < fuel →
      (flood_from_card fuel addr id c st).isSome = true) ∧
    (∀ cs addr id st, unassignedCount st.grid < fuel →
      (flood_from_list fuel addr id cs st).isSome = true) := by
  induction fuel with
  | zero =>
    refine ⟨fun addr id st hex hcount => absurd hcount (by omega), ?_, ?_⟩ <;>
    · intro _ _ _ _
      intro hcount
      exact absurd hcount (by omega)
  | succ fuel ih =>
    have htrail : ∀ addr id st, (∃ t, st.grid.get_at addr = some t ∧ t.area_id = none) →
        unassignedCount st.grid < fuel + 1 →
        (flood_from (fuel + 1) addr id st).isSome = true := by
      intro addr id st hex hcount
      obtain ⟨t, hat, hun⟩ := hex
      rw [flood_from_succ]
      apply ih.2.2
      have hlt := unassignedCount_mark_lt hat hun id
      dsimp only
      omega
    have hcard : ∀ addr id c st, unassignedCount st.grid < fuel + 1 →
        (flood_from_card (fuel + 1) addr id c st).isSome = true := by
      intro addr id c st hcount
      unfold flood_from_card
      rcases hca : addr.checked_add c.toDelta with _ | nb
      · rfl
      · dsimp only
        rcases hnb : st.grid.get_at nb with _ | neighbor
        · rfl
        · dsimp only
          rcases hna : neighbor.area_id with _ | na
          · dsimp only
            split
            · exact htrail nb id st ⟨neighbor, hnb, hna⟩ hcount
            · rfl
          · dsimp only
            split <;> rfl
    have hlist : ∀ cs addr id st, unassignedCount st.grid < fuel + 1 →
        (flood_from_list (fuel + 1) addr id cs st).isSome = true := by
      intro cs
      induction cs with
      | nil =>
        intro addr id st hcount
        rw [flood_from_list_nil]
        rfl
      | cons c rest ihc =>
        intro addr id st hcount
        rw [flood_from_list_cons]
        have hc := hcard addr id c st hcount
        rw [Option.isSome_iff_exists] at hc
        obtain ⟨stm, hstm⟩ := hc
        rw [hstm, Option.some_bind]
        apply ihc
        have hpres := (flood_preserves (fuel + 1)).2.1 addr id c st stm hstm
        have := unassignedCount_le_of_preserve hpres
        omega
    exact ⟨htrail, hcard, hlist⟩

/-! ### Full specification of one `flood_from` call -/

/-- "Already assigned" (or out of grid is impossible here: an assigned tile
exists), used as the avoid-set of the flood's depth-first search. -/
def AssignedP (st : FloodState) (q : GridAddress) : Prop :=
  areaIdAt st.grid q ≠ none

theorem areaIdAt_none_of_pres {st st' : FloodState} (h : Preserve st st')
    {b : GridAddress} (hb : areaIdAt st'.grid b = none) :
    areaIdAt st.grid b = none := by
  rcases hk : areaIdAt st.grid b with _ | j
  · rfl
  · rw [h.2.2.1 b j hk] at hb
    cases hb

theorem assigned_of_pres {st st' : FloodState} (h : Preserve st st')
    {b : GridAddress} (hb : AssignedP st b) : AssignedP st' b := by
  intro hco
  exact hb (areaIdAt_none_of_pres h hco)

/-- What a completed `flood_from addr id` call did to the state. -/
structure FloodSpec (L : GridAddress → Option Char) (id : ℕ)
    (addr : GridAddress) (st st' : FloodState) : Prop where
  pres : Preserve st st'
  self : areaIdAt st'.grid addr = some id
  newR : ∀ b j, areaIdAt st'.grid b = some j → areaIdAt st.grid b = none →
    j = id ∧ ReachAvoidP (letterAdj L) (AssignedP st) addr b
  closed : ∀ p, areaIdAt st'.grid p = some id → areaIdAt st.grid p = none →
    ∀ q ∈ letterAdj L p, areaIdAt st'.grid q ≠ none
  areasOther : ∀ j, j ≠ id → st'.areas.get? j = st.areas.get? j
  areasId : ∀ ar, st.areas.get? id = some ar →
    ∃ ar', st'.areas.get? id = some ar' ∧ ar'.letter = ar.letter ∧
      (∀ b, b ∈ ar'.addresses ↔ (b ∈ ar.addresses ∨
        (areaIdAt st.grid b = none ∧ areaIdAt st'.grid b = some id))) ∧
      (ar.addresses.Nodup → (∀ b ∈ ar.addresses, areaIdAt st.grid b ≠ none) →
        ar'.addresses.Nodup)
  fences : ∀ b c, fenceB st'.grid b c = true ↔
    (fenceB st.grid b c = true ∨
      (areaIdAt st.grid b = none ∧ areaIdAt st'.grid b = some id ∧ FenceCond L b c))

/-- What one loop iteration (`flood_from_card`) did to the state; here `addr`
is already assigned `id`. -/
structure FloodCardSpec (L : GridAddress → Option Char) (id : ℕ)
    (addr : GridAddress) (c : Cardinal) (st st' : FloodState) : Prop where
  pres : Preserve st st'
  nbr : ∀ nb, addr.checked_add c.toDelta = some nb → L nb = L addr →
    areaIdAt st'.grid nb ≠ none
  newR : ∀ b j, areaIdAt st'.grid b = some j → areaIdAt st.grid b = none →
    j = id ∧ ∃ nb, addr.checked_add c.toDelta = some nb ∧ L nb = L addr ∧
      ReachAvoidP (letterAdj L) (AssignedP st) nb b
  closed : ∀ p, areaIdAt st'.grid p = some id → areaIdAt st.grid p = none →
    ∀ q ∈ letterAdj L p, areaIdAt st'.grid q ≠ none
  areasOther : ∀ j, j ≠ id → st'.areas.get? j = st.areas.get? j
  areasId : ∀ ar, st.areas.get? id = some ar →
    ∃ ar', st'.areas.get? id = some ar' ∧ ar'.letter = ar.letter ∧
      (∀ b, b ∈ ar'.addresses ↔ (b ∈ ar.addresses ∨
        (areaIdAt st.grid b = none ∧ areaIdAt st'.grid b = some id))) ∧
      (ar.addresses.Nodup → (∀ b ∈ ar.addresses, areaIdAt st.grid b ≠ none) →
        ar'.addresses.Nodup)
  fences : ∀ b c', fenceB st'.grid b c' = true ↔
    (fenceB st.grid b c' = true ∨
      (b = addr ∧ c' = c ∧ FenceCond L b c') ∨
      (areaIdAt st.grid b = none ∧ areaIdAt st'.grid b = some id ∧ FenceCond L b c'))

/-- What the remaining loop iterations (`flood_from_list` over `cs`) did. -/
structure FloodListSpec (L : GridAddress → Option Char) (id : ℕ)
    (addr : GridAddress) (cs : List Cardinal) (st st' : FloodState) : Prop where
  pres : Preserve st st'
  nbrs : ∀ c ∈ cs, ∀ nb, addr.checked_add c.toDelta = some nb → L nb = L addr →
    areaIdAt st'.grid nb ≠ none
  newR : ∀ b j, areaIdAt st'.grid b = some j → areaIdAt st.grid b = none →
    j = id ∧ ∃ c ∈ cs, ∃ nb, addr.checked_add c.toDelta = some nb ∧ L nb = L addr ∧
      ReachAvoidP (letterAdj L) (AssignedP st) nb b
  closed : ∀ p, areaIdAt st'.grid p = some id → areaIdAt st.grid p = none →
    ∀ q ∈ letterAdj L p, areaIdAt st'.grid q ≠ none
  areasOther : ∀ j, j ≠ id → st'.areas.get? j = st.areas.get? j
  areasId : ∀ ar, st.areas.get? id = some ar →
    ∃ ar', st'.areas.get? id = some ar' ∧ ar'.letter = ar.letter ∧
      (∀ b, b ∈ ar'.addresses ↔ (b ∈ ar.addresses ∨
        (areaIdAt st.grid b = none ∧ areaIdAt st'.grid b = some id))) ∧
      (ar.addresses.Nodup → (∀ b ∈ ar.addresses, areaIdAt st.grid b ≠ none) →
        ar'.addresses.Nodup)
  fences : ∀ b c', fenceB st'.grid b c' = true ↔
    (fenceB st.grid b c' = true ∨
      (b = addr ∧ c' ∈ cs ∧ FenceCond L b c') ∨
      (areaIdAt st.grid b = none ∧ areaIdAt st'.grid b = some id ∧ FenceCond L b c'))

/-- The state invariants carried through the flood: letters are `L`,
already-completed areas (ids other than the current `id`) are closed under
same-letter adjacency with a constant id, and all `id`-tiles carry the
letter `lr`. -/
def FloodHyp (L : GridAddress → Option Char) (lr : Char) (id : ℕ)
    (st : FloodState) : Prop :=
  (∀ b, letterAt st.grid b = L b) ∧
  (∀ p j, areaIdAt st.grid p = some j → j ≠ id → ∀ q ∈ letterAdj L p,
    areaIdAt st.grid q = some j) ∧
  (∀ b, areaIdAt st.grid b = some id → L b = some lr)

/-- A completed loop iteration maintains `FloodHyp`. -/
theorem floodHyp_of_cardSpec {L : GridAddress → Option Char} {lr : Char}
    {id : ℕ} {addr : GridAddress} {c : Cardinal} {st st' : FloodState}
    (hsp : FloodCardSpec L id addr c st st') (hh : FloodHyp L lr id st)
    (hlr : L addr = some lr) : FloodHyp L lr id st' := by
  obtain ⟨hL, hA, hB⟩ := hh
  refine ⟨fun b => (hsp.pres.2.1 b).trans (hL b), ?_, ?_⟩
  · intro p j hp hj q hq
    rcases hold : areaIdAt st.grid p with _ | j0
    · exact absurd ((hsp.newR p j hp hold).1) hj
    · have hj0 : j0 = j := by
        have := hsp.pres.2.2.1 p j0 hold
        rw [this] at hp
        cases hp
        rfl
      subst hj0
      exact hsp.pres.2.2.1 q j0 (hA p j0 hold hj q hq)
  · intro b hb
    rcases hold : areaIdAt st.grid b with _ | j0
    · obtain ⟨-, nb, -, hnbL, hreach⟩ := hsp.newR b id hb hold
      rw [reachableVia_letter hreach.toReachable, hnbL, hlr]
    · have hj0 : j0 = id := by
        have := hsp.pres.2.2.1 b j0 hold
        rw [this] at hb
        cases hb
        rfl
      subst hj0
      exact hB b hold

/-- The loop iterations that add a fence satisfy `FloodCardSpec`. -/
theorem floodCardSpec_fence {L : GridAddress → Option Char} {id : ℕ}
    {addr : GridAddress} {c : Cardinal} {st : FloodState}
    (haddr_in : (st.grid.get_at addr).isSome = true)
    (hnbr : ∀ nb, addr.checked_add c.toDelta = some nb → L nb = L addr →
      areaIdAt st.grid nb ≠ none)
    (hfc : FenceCond L addr c) :
    FloodCardSpec L id addr c st ⟨addFence st.grid addr c, st.areas⟩ := by
  refine ⟨preserve_fence st addr c, ?_, ?_, ?_, fun j hj => rfl, ?_, ?_⟩
  · intro nb hnb hLeq
    dsimp only
    rw [areaIdAt_addFence]
    exact hnbr nb hnb hLeq
  · intro b j hb hn
    dsimp only at hb
    rw [areaIdAt_addFence, hn] at hb
    cases hb
  · intro p hp hn
    dsimp only at hp
    rw [areaIdAt_addFence, hn] at hp
    cases hp
  · intro ar har
    refine ⟨ar, har, rfl, ?_, fun hnd _ => hnd⟩
    intro b
    constructor
    · exact Or.inl
    · rintro (hmem | ⟨hn, hs⟩)
      · exact hmem
      · dsimp only at hs
        rw [areaIdAt_addFence, hn] at hs
        cases hs
  · intro b c'
    dsimp only
    by_cases hb : b = addr
    · subst hb
      rw [fenceB_addFence_self haddr_in]
      rw [Bool.or_eq_true, beq_iff_eq]
      constructor
      · rintro (hcc | hold)
        · subst hcc
          exact Or.inr (Or.inl ⟨rfl, rfl, hfc⟩)
        · exact Or.inl hold
      · rintro (hold | ⟨-, hcc, -⟩ | ⟨hn, hs, -⟩)
        · exact Or.inr hold
        · exact Or.inl hcc
        · rw [areaIdAt_addFence, hn] at hs
          cases hs
    · rw [fenceB_addFence_ne hb]
      constructor
      · exact fun hold => Or.inl hold
      · rintro (hold | ⟨hba, -, -⟩ | ⟨hn, hs, -⟩)
        · exact hold
        · exact absurd hba hb
        · rw [areaIdAt_addFence, hn] at hs
          cases hs

/-- The loop iteration that hits a neighbor already carrying the current id
leaves the state unchanged and satisfies `FloodCardSpec`. -/
theorem floodCardSpec_id {L : GridAddress → Option Char} {id : ℕ}
    {addr : GridAddress} {c : Cardinal} {st : FloodState}
    (hnbr : ∀ nb, addr.checked_add c.toDelta = some nb → L nb = L addr →
      areaIdAt st.grid nb ≠ none)
    (hnfc : ¬ FenceCond L addr c) :
    FloodCardSpec L id addr c st st := by
  refine ⟨Preserve.refl st, fun nb hnb hLeq => hnbr nb hnb hLeq, ?_, ?_,
    fun j hj => rfl, ?_, ?_⟩
  · intro b j hb hn
    rw [hn] at hb
    cases hb
  · intro p hp hn
    rw [hn] at hp
    cases hp
  · intro ar har
    refine ⟨ar, har, rfl, ?_, fun hnd _ => hnd⟩
    intro b
    constructor
    · exact Or.inl
    · rintro (hmem | ⟨hn, hs⟩)
      · exact hmem
      · rw [hn] at hs
        cases hs
  · intro b c'
    constructor
    · exact fun hold => Or.inl hold
    · rintro (hold | ⟨hba, hcc, hFC⟩ | ⟨hn, hs, -⟩)
      · exact hold
      · subst hba
        subst hcc
        exact absurd hFC hnfc
      · rw [hn] at hs
        cases hs

/-- `flood_from_card` satisfies its specification, given that `flood_from`
does at the same fuel. -/
theorem flood_card_spec_of {L : GridAddress → Option Char} {lr : Char} {fuel : ℕ}
    (hbound : ∀ b, (L b).isSome = true → b.x ≤ usizeMax ∧ b.y ≤ usizeMax)
    (htrail : ∀ addr id st st', flood_from fuel addr id st = some st' →
      FloodHyp L lr id st → L addr = some lr → areaIdAt st.grid addr = none →
      FloodSpec L id addr st st') :
    ∀ addr id c st st', flood_from_card fuel addr id c st = some st' →
      FloodHyp L lr id st → L addr = some lr →
      areaIdAt st.grid addr = some id → FloodCardSpec L id addr c st st' := by
  intro addr id c st st' h hh hlr hself
  have haddr_in : (st.grid.get_at addr).isSome = true := by
    obtain ⟨t, hat, -⟩ := get_at_of_areaIdAt_some hself
    rw [hat]
    rfl
  obtain ⟨hL, hA, hB⟩ := hh
  unfold flood_from_card at h
  rcases hca : addr.checked_add c.toDelta with _ | nb <;> rw [hca] at h
  · -- North/West edge: off into negative address space, add a fence
    cases h
    refine floodCardSpec_fence haddr_in ?_ ?_
    · intro nb hnb
      rw [hca] at hnb
      cases hnb
    · unfold FenceCond
      rw [hca]
      trivial
  · dsimp only at h
    rcases hnb : st.grid.get_at nb with _ | neighbor <;> rw [hnb] at h
    · -- South/East edge: off the grid, add a fence
      cases h
      have hLnb : L nb = none := by
        rw [← hL nb]
        unfold letterAt
        rw [hnb]
        rfl
      refine floodCardSpec_fence haddr_in ?_ ?_
      · intro nb' hnb' hLeq
        rw [hca] at hnb'
        cases hnb'
        rw [hLnb, hlr] at hLeq
        cases hLeq
      · unfold FenceCond
        rw [hca]
        show L nb ≠ L addr
        rw [hLnb, hlr]
        intro hcon
        cases hcon
    · dsimp only at h
      have hLnb : L nb = some neighbor.letter := by
        rw [← hL nb]
        unfold letterAt
        rw [hnb]
        rfl
      rcases hna : neighbor.area_id with _ | na <;> rw [hna] at h
      · dsimp only at h
        split at h
        · -- same letter, unassigned: the flood fill recurses
          rename_i hcond
          have hletter : L nb = some lr := by
            rw [hLnb]
            have : (st.grid.get_at addr).map Tile.letter = L addr := hL addr
            rw [this, hlr] at hcond
            exact hcond
          have hnbun : areaIdAt st.grid nb = none := by
            unfold areaIdAt
            rw [hnb, Option.some_bind, hna]
          have hsub := htrail nb id st st' h ⟨hL, hA, hB⟩ hletter hnbun
          refine ⟨hsub.pres, ?_, ?_, hsub.closed, hsub.areasOther, hsub.areasId, ?_⟩
          · intro nb' hnb' hLeq
            rw [hca] at hnb'
            cases hnb'
            rw [hsub.self]
            intro hcon
            cases hcon
          · intro b j hb hn
            obtain ⟨hj, hreach⟩ := hsub.newR b j hb hn
            exact ⟨hj, nb, hca, by rw [hletter, hlr], hreach⟩
          · intro b c'
            rw [hsub.fences b c']
            constructor
            · rintro (hold | hnew)
              · exact Or.inl hold
              · exact Or.inr (Or.inr hnew)
            · rintro (hold | ⟨hba, hcc, hFC⟩ | hnew)
              · exact Or.inl hold
              · subst hba
                subst hcc
                unfold FenceCond at hFC
                rw [hca] at hFC
                dsimp only at hFC
                exact absurd (by rw [hletter, hlr]) hFC
              · exact Or.inr hnew
        · -- different letter, unassigned: add a fence
          rename_i hcond
          cases h
          have hladdr : (st.grid.get_at addr).map Tile.letter = some lr := by
            have := hL addr
            unfold letterAt at this
            rw [this, hlr]
          refine floodCardSpec_fence haddr_in ?_ ?_
          · intro nb' hnb' hLeq
            rw [hca] at hnb'
            cases hnb'
            rw [hLnb, hlr] at hLeq
            rw [hladdr] at hcond
            exact absurd hLeq hcond
          · unfold FenceCond
            rw [hca]
            show L nb ≠ L addr
            intro hcon
            rw [hLnb, hlr] at hcon
            rw [hladdr] at hcond
            exact hcond hcon
      · dsimp only at h
        have hnbassigned : areaIdAt st.grid nb = some na := by
          unfold areaIdAt
          rw [hnb, Option.some_bind, hna]
        split at h
        · -- neighbor already carries this id: nothing happens
          rename_i hcond
          cases h
          refine floodCardSpec_id ?_ ?_
          · intro nb' hnb' hLeq
            rw [hca] at hnb'
            cases hnb'
            rw [hnbassigned]
            intro hcon
            cases hcon
          · unfold FenceCond
            rw [hca]
            show ¬ (L nb ≠ L addr)
            intro hcon
            subst hcond
            exact hcon (by rw [hB nb hnbassigned, hlr])
        · -- neighbor carries another area id: add a fence
          rename_i hcond
          cases h
          refine floodCardSpec_fence haddr_in ?_ ?_
          · intro nb' hnb' hLeq
            rw [hca] at hnb'
            cases hnb'
            rw [hnbassigned]
            intro hcon
            cases hcon
          · unfold FenceCond
            rw [hca]
            show L nb ≠ L addr
            intro hcon
            have hnbin : (L nb).isSome = true := by
              rw [hLnb]
              rfl
            have hmem : nb ∈ letterAdj L addr :=
              mem_letterAdj_iff.mpr ⟨⟨c, hca⟩, hnbin, hcon⟩
            have hin : (L addr).isSome = true := by
              rw [hlr]
              rfl
            have haddrmem : addr ∈ letterAdj L nb :=
              letterAdj_symm (hbound addr hin).1 (hbound addr hin).2 hin hmem
            have := hA nb na hnbassigned hcond addr haddrmem
            rw [hself] at this
            cases this
            exact hcond rfl

/-- `flood_from_list` satisfies its specification, given that
`flood_from_card` does at the same fuel. -/
theorem flood_list_spec_of {L : GridAddress → Option Char} {lr : Char} {fuel : ℕ}
    (hcard : ∀ addr id c st st', flood_from_card fuel addr id c st = some st' →
      FloodHyp L lr id st → L addr = some lr → areaIdAt st.grid addr = some id →
      FloodCardSpec L id addr c st st') :
    ∀ cs addr id st st', flood_from_list fuel addr id cs st = some st' →
      FloodHyp L lr id st → L addr = some lr →
      areaIdAt st.grid addr = some id → FloodListSpec L id addr cs st st' := by
  intro cs
  induction cs with
  | nil =>
    intro addr id st st' h hh hlr hself
    rw [flood_from_list_nil] at h
    cases h
    refine ⟨Preserve.refl st, ?_, ?_, ?_, fun j hj => rfl, ?_, ?_⟩
    · intro c hc
      exact absurd hc (List.not_mem_nil c)
    · intro b j hb hn
      rw [hn] at hb
      cases hb
    · intro p hp hn
      rw [hn] at hp
      cases hp
    · intro ar har
      refine ⟨ar, har, rfl, ?_, fun hnd _ => hnd⟩
      intro b
      constructor
      · exact Or.inl
      · rintro (hmem | ⟨hn, hs⟩)
        · exact hmem
        · rw [hn] at hs
          cases hs
    · intro b c'
      constructor
      · exact fun hold => Or.inl hold
      · rintro (hold | ⟨-, hcc, -⟩ | ⟨hn, hs, -⟩)
        · exact hold
        · exact absurd hcc (List.not_mem_nil c')
        · rw [hn] at hs
          cases hs
  | cons c rest ih =>
    intro addr id st st' h hh hlr hself
    rw [flood_from_list_cons] at h
    rcases hmid : flood_from_card fuel addr id c st with _ | stm <;> rw [hmid] at h
    · cases h
    · rw [Option.some_bind] at h
      have hsp1 := hcard addr id c st stm hmid hh hlr hself
      have hh1 := floodHyp_of_cardSpec hsp1 hh hlr
      have hself1 : areaIdAt stm.grid addr = some id := hsp1.pres.2.2.1 addr id hself
      have hsp2 := ih addr id stm st' h hh1 hlr hself1
      refine ⟨hsp1.pres.trans hsp2.pres, ?_, ?_, ?_, ?_, ?_, ?_⟩
      · intro c'' hc'' nb hnb hLeq
        rcases List.mem_cons.mp hc'' with hcc | hcr
        · subst hcc
          exact fun hcon =>
            (hsp1.nbr nb hnb hLeq) (areaIdAt_none_of_pres hsp2.pres hcon)
        · exact hsp2.nbrs c'' hcr nb hnb hLeq
      · intro b j hb hn
        rcases hbm : areaIdAt stm.grid b with _ | j0
        · obtain ⟨hj, c'', hc'', nb, hnb, hLeq, hreach⟩ := hsp2.newR b j hb hbm
          exact ⟨hj, c'', List.mem_cons_of_mem c hc'', nb, hnb, hLeq,
            hreach.monoVis (fun q hq => assigned_of_pres hsp1.pres hq)⟩
        · have hj0 : j0 = j := by
            have := hsp2.pres.2.2.1 b j0 hbm
            rw [this] at hb
            cases hb
            rfl
          subst hj0
          obtain ⟨hj, nb, hnb, hLeq, hreach⟩ := hsp1.newR b j0 hbm hn
          exact ⟨hj, c, List.mem_cons_self c rest, nb, hnb, hLeq, hreach⟩
      · intro p hp hn q hq
        rcases hbm : areaIdAt stm.grid p with _ | j0
        · exact hsp2.closed p hp hbm q hq
        · have hj0 : j0 = id := by
            have := hsp2.pres.2.2.1 p j0 hbm
            rw [this] at hp
            cases hp
            rfl
          subst hj0
          exact fun hcon =>
            (hsp1.closed p hbm hn q hq) (areaIdAt_none_of_pres hsp2.pres hcon)
      · intro j hj
        exact (hsp2.areasOther j hj).trans (hsp1.areasOther j hj)
      · intro ar har
        obtain ⟨arm, harm, hletter1, hiff1, hnd1⟩ := hsp1.areasId ar har
        obtain ⟨ar', har', hletter2, hiff2, hnd2⟩ := hsp2.areasId arm harm
        refine ⟨ar', har', hletter2.trans hletter1, ?_, ?_⟩
        · intro b
          rw [hiff2 b, hiff1 b]
          constructor
          · rintro ((hmem | ⟨hn, hs⟩) | ⟨hnm, hs'⟩)
            · exact Or.inl hmem
            · exact Or.inr ⟨hn, hsp2.pres.2.2.1 b id hs⟩
            · exact Or.inr ⟨areaIdAt_none_of_pres hsp1.pres hnm, hs'⟩
          · rintro (hmem | ⟨hn, hs'⟩)
            · exact Or.inl (Or.inl hmem)
            · rcases hbm : areaIdAt stm.grid b with _ | j0
              · exact Or.inr ⟨rfl, hs'⟩
              · have hj0 : j0 = id := by
                  have := hsp2.pres.2.2.1 b j0 hbm
                  rw [this] at hs'
                  cases hs'
                  rfl
                subst hj0
                exact Or.inl (Or.inr ⟨hn, rfl⟩)
        · intro hnd hmemas
          apply hnd2 (hnd1 hnd hmemas)
          intro b hbm
          rw [hiff1 b] at hbm
          rcases hbm with hmem | ⟨-, hs⟩
          · exact assigned_of_pres hsp1.pres (hmemas b hmem)
          · rw [hs]
            intro hcon
            cases hcon
      · intro b c'
        rw [hsp2.fences b c', hsp1.fences b c']
        constructor
        · rintro ((hold | ⟨hba, hcc, hFC⟩ | ⟨hn, hs, hFC⟩) | ⟨hba, hcr, hFC⟩ |
            ⟨hnm, hs', hFC⟩)
          · exact Or.inl hold
          · exact Or.inr (Or.inl ⟨hba, by rw [hcc]; exact List.mem_cons_self c rest,
              hFC⟩)
          · exact Or.inr (Or.inr ⟨hn, hsp2.pres.2.2.1 b id hs, hFC⟩)
          · exact Or.inr (Or.inl ⟨hba, List.mem_cons_of_mem c hcr, hFC⟩)
          · exact Or.inr (Or.inr ⟨areaIdAt_none_of_pres hsp1.pres hnm, hs', hFC⟩)
        · rintro (hold | ⟨hba, hcc, hFC⟩ | ⟨hn, hs', hFC⟩)
          · exact Or.inl (Or.inl hold)
          · rcases List.mem_cons.mp hcc with hcc1 | hcr
            · exact Or.inl (Or.inr (Or.inl ⟨hba, hcc1, hFC⟩))
            · exact Or.inr (Or.inl ⟨hba, hcr, hFC⟩)
          · rcases hbm : areaIdAt stm.grid b with _ | j0
            · exact Or.inr (Or.inr ⟨rfl, hs', hFC⟩)
            · have hj0 : j0 = id := by
                have := hsp2.pres.2.2.1 b j0 hbm
                rw [this] at hs'
                cases hs'
                rfl
              subst hj0
              exact Or.inl (Or.inr (Or.inr ⟨hn, rfl, hFC⟩))

/-- `flood_from` satisfies its specification at `fuel + 1`, given that
`flood_from_list` does at `fuel`. -/
theorem flood_trail_spec_of {L : GridAddress → Option Char} {lr : Char} {fuel : ℕ}
    (hlist : ∀ cs addr id st st', flood_from_list fuel addr id cs st = some st' →
      FloodHyp L lr id st → L addr = some lr → areaIdAt st.grid addr = some id →
      FloodListSpec L id addr cs st st') :
    ∀ addr id st st', flood_from (fuel + 1) addr id st = some st' →
      FloodHyp L lr id st → L addr = some lr →
      areaIdAt st.grid addr = none → FloodSpec L id addr st st' := by
  intro addr id st st' h hh hlr hun
  obtain ⟨hL, hA, hB⟩ := hh
  rw [flood_from_succ] at h
  have haddr_in : (st.grid.get_at addr).isSome = true := by
    have hl := hL addr
    rw [hlr] at hl
    rw [← isSome_letterAt, hl]
    rfl
  have hpres1 : Preserve st ⟨setAreaId st.grid addr id, addAddr st.areas id addr⟩ :=
    preserve_mark hun
  have hself1 : areaIdAt (setAreaId st.grid addr id) addr = some id :=
    areaIdAt_setAreaId_self haddr_in id
  have hmid_eq : ∀ b, b ≠ addr →
      areaIdAt (setAreaId st.grid addr id) b = areaIdAt st.grid b :=
    fun b hb => areaIdAt_setAreaId_ne hb id
  have hL1 : ∀ b, letterAt (setAreaId st.grid addr id) b = L b :=
    fun b => (letterAt_setAreaId st.grid addr id b).trans (hL b)
  have hA1 : ∀ p j, areaIdAt (setAreaId st.grid addr id) p = some j → j ≠ id →
      ∀ q ∈ letterAdj L p, areaIdAt (setAreaId st.grid addr id) q = some j := by
    intro p j hp hj q hq
    by_cases hpaddr : p = addr
    · subst hpaddr
      rw [hself1] at hp
      cases hp
      exact absurd rfl hj
    · rw [hmid_eq p hpaddr] at hp
      have hqst := hA p j hp hj q hq
      have hqaddr : q ≠ addr := by
        intro hc
        subst hc
        rw [hun] at hqst
        cases hqst
      rw [hmid_eq q hqaddr]
      exact hqst
  have hB1 : ∀ b, areaIdAt (setAreaId st.grid addr id) b = some id → L b = some lr := by
    intro b hb
    by_cases hbaddr : b = addr
    · subst hbaddr
      exact hlr
    · rw [hmid_eq b hbaddr] at hb
      exact hB b hb
  have hsp := hlist Cardinal.all addr id
    ⟨setAreaId st.grid addr id, addAddr st.areas id addr⟩ st' h ⟨hL1, hA1, hB1⟩
    hlr hself1
  have hnotvis : ¬ AssignedP st addr := fun hc => hc hun
  refine ⟨hpres1.trans hsp.pres, hsp.pres.2.2.1 addr id hself1, ?_, ?_, ?_, ?_, ?_⟩
  · intro b j hb hn
    by_cases hbaddr : b = addr
    · subst hbaddr
      have hbid := hsp.pres.2.2.1 b id hself1
      rw [hbid] at hb
      cases hb
      exact ⟨rfl, ReachAvoidP.refl hnotvis⟩
    · have hn1 : areaIdAt (setAreaId st.grid addr id) b = none := by
        rw [hmid_eq b hbaddr]
        exact hn
      obtain ⟨hj, c, hc, nb, hnb, hLeq, hreach⟩ := hsp.newR b j hb hn1
      have hreach2 : ReachAvoidP (letterAdj L) (AssignedP st) nb b :=
        hreach.monoVis (fun q hq => assigned_of_pres hpres1 hq)
      have hnbmem : nb ∈ letterAdj L addr :=
        mem_letterAdj_iff.mpr ⟨⟨c, hnb⟩, by rw [hLeq, hlr]; rfl, hLeq⟩
      exact ⟨hj, ReachAvoidP.prependVis hnotvis hnbmem hreach2⟩
  · intro p hp hn q hq
    by_cases hpaddr : p = addr
    · subst hpaddr
      obtain ⟨⟨c, hc⟩, hqin, hqL⟩ := mem_letterAdj_iff.mp hq
      exact hsp.nbrs c (cardinal_mem_all c) q hc hqL
    · have hn1 : areaIdAt (setAreaId st.grid addr id) p = none := by
        rw [hmid_eq p hpaddr]
        exact hn
      exact hsp.closed p hp hn1 q hq
  · intro j hj
    rw [hsp.areasOther j hj]
    exact addAddr_get?_ne st.areas id addr hj
  · intro ar har
    have har1 : (addAddr st.areas id addr).get? id =
        some ⟨ar.letter, ar.addresses ++ [addr]⟩ := addAddr_get?_self addr har
    obtain ⟨ar', har', hletter, hiff, hnd⟩ := hsp.areasId _ har1
    refine ⟨ar', har', hletter, ?_, ?_⟩
    · intro b
      rw [hiff b]
      constructor
      · rintro (hmem | ⟨hn1, hs⟩)
        · rcases List.mem_append.mp hmem with hm | hm
          · exact Or.inl hm
          · have hb : b = addr := by
              rw [List.mem_singleton] at hm
              exact hm
            subst hb
            exact Or.inr ⟨hun, hsp.pres.2.2.1 b id hself1⟩
        · have hbaddr : b ≠ addr := by
            intro hc
            subst hc
            rw [hself1] at hn1
            cases hn1
          rw [hmid_eq b hbaddr] at hn1
          exact Or.inr ⟨hn1, hs⟩
      · rintro (hmem | ⟨hn, hs'⟩)
        · exact Or.inl (List.mem_append.mpr (Or.inl hmem))
        · by_cases hbaddr : b = addr
          · subst hbaddr
            exact Or.inl (List.mem_append.mpr (Or.inr (List.mem_singleton.mpr rfl)))
          · refine Or.inr ⟨?_, hs'⟩
            rw [hmid_eq b hbaddr]
            exact hn
    · intro hnd0 hmemas
      apply hnd
      · rw [List.nodup_append]
        refine ⟨hnd0, List.nodup_singleton addr, ?_⟩
        intro b hb hbc
        rw [List.mem_singleton] at hbc
        subst hbc
        exact (hmemas b hb) hun
      · intro b hb
        rcases List.mem_append.mp hb with hm | hm
        · exact assigned_of_pres hpres1 (hmemas b hm)
        · rw [List.mem_singleton] at hm
          subst hm
          rw [hself1]
          intro hcon
          cases hcon
  · intro b c'
    rw [hsp.fences b c']
    have hfence1 : fenceB (setAreaId st.grid addr id) b c' = fenceB st.grid b c' :=
      fenceB_setAreaId st.grid addr id b c'
    rw [hfence1]
    constructor
    · rintro (hold | ⟨hba, -, hFC⟩ | ⟨hn1, hs, hFC⟩)
      · exact Or.inl hold
      · subst hba
        exact Or.inr ⟨hun, hsp.pres.2.2.1 b id hself1, hFC⟩
      · have hbaddr : b ≠ addr := by
          intro hc
          subst hc
          rw [hself1] at hn1
          cases hn1
        rw [hmid_eq b hbaddr] at hn1
        exact Or.inr ⟨hn1, hs, hFC⟩
    · rintro (hold | ⟨hn, hs', hFC⟩)
      · exact Or.inl hold
      · by_cases hbaddr : b = addr
        · subst hbaddr
          exact Or.inr (Or.inl ⟨rfl, cardinal_mem_all c', hFC⟩)
        · refine Or.inr (Or.inr ⟨?_, hs', hFC⟩)
          rw [hmid_eq b hbaddr]
          exact hn

/-- The full specification of `flood_from`, by induction on the fuel. -/
theorem flood_from_spec {L : GridAddress → Option Char} {lr : Char}
    (hbound : ∀ b, (L b).isSome = true → b.x ≤ usizeMax ∧ b.y ≤ usizeMax)
    (fuel : ℕ) :
    ∀ addr id st st', flood_from fuel addr id st = some st' →
      FloodHyp L lr id st → L addr = some lr →
      areaIdAt st.grid addr = none → FloodSpec L id addr st st' := by
  induction fuel with
  | zero =>
    intro addr id st st' h
    rw [flood_from_zero] at h
    cases h
  | succ fuel ih =>
    exact flood_trail_spec_of (flood_list_spec_of (flood_card_spec_of hbound ih))

/-! ### The outer raster loop of `flood` -/

/-- Invariant of the flood state at the boundaries of the raster loop:
letters are `L`; assigned regions are complete (same-letter neighbors of an
assigned tile carry the same id); ids are indices into the areas list; each
area's address list is exactly its id's class, without duplicates, and all
its tiles carry the area's letter; every used id has a root tile reaching
its whole class; and fences sit exactly on assigned tiles whose neighbor in
the fence direction is off-grid or differently lettered. -/
structure LoopInv (L : GridAddress → Option Char) (st : FloodState) : Prop where
  letters : ∀ b, letterAt st.grid b = L b
  uniform : ∀ p j, areaIdAt st.grid p = some j → ∀ q ∈ letterAdj L p,
    areaIdAt st.grid q = some j
  range : ∀ p j, areaIdAt st.grid p = some j → j < st.areas.length
  areas : ∀ j ar, st.areas.get? j = some ar → ar.addresses.Nodup ∧
    (∀ b, b ∈ ar.addresses ↔ areaIdAt st.grid b = some j) ∧
    (∀ b, areaIdAt st.grid b = some j → L b = some ar.letter)
  roots : ∀ j, j < st.areas.length → ∃ rt, areaIdAt st.grid rt = some j ∧
    (L rt).isSome = true ∧
    ∀ b, areaIdAt st.grid b = some j → ReachableVia (letterAdj L) rt b
  fences : ∀ b c, fenceB st.grid b c = true ↔
    (areaIdAt st.grid b ≠ none ∧ FenceCond L b c)

/-- Starting a new area at an unassigned tile and flood-filling from it
preserves the loop invariant. -/
theorem loopInv_step {L : GridAddress → Option Char}
    (hbound : ∀ b, (L b).isSome = true → b.x ≤ usizeMax ∧ b.y ≤ usizeMax)
    {st : FloodState} {addr : GridAddress} {t : Tile}
    (hinv : LoopInv L st) (hat : st.grid.get_at addr = some t)
    (hun : t.area_id = none) {st1 : FloodState}
    (hsp : FloodSpec L st.areas.length addr
      ⟨st.grid, pushArea st.areas t.letter⟩ st1) :
    LoopInv L st1 ∧
      (∀ b j, areaIdAt st.grid b = some j → areaIdAt st1.grid b = some j) ∧
      areaIdAt st1.grid addr = some st.areas.length ∧
      (∀ b, (st1.grid.get_at b).isSome = (st.grid.get_at b).isSome) := by
  have hLaddr : L addr = some t.letter := by
    rw [← hinv.letters addr]
    unfold letterAt
    rw [hat]
    rfl
  have hmono : ∀ b j, areaIdAt st.grid b = some j → areaIdAt st1.grid b = some j :=
    fun b j hj => hsp.pres.2.2.1 b j hj
  have hnoid : ∀ b, areaIdAt st.grid b ≠ some st.areas.length := by
    intro b hb
    exact absurd (hinv.range b _ hb) (by omega)
  have hnew : ∀ b j, areaIdAt st1.grid b = some j → areaIdAt st.grid b = none →
      j = st.areas.length ∧
        ReachAvoidP (letterAdj L) (AssignedP st) addr b := by
    intro b j hb hn
    exact hsp.newR b j hb hn
  have hid_new : ∀ b, areaIdAt st1.grid b = some st.areas.length →
      areaIdAt st.grid b = none := by
    intro b hb
    rcases hold : areaIdAt st.grid b with _ | j0
    · rfl
    · rw [hmono b j0 hold] at hb
      cases hb
      exact absurd hold (hnoid b)
  have hlen1 : st1.areas.length = st.areas.length + 1 := by
    have := hsp.pres.2.2.2
    rw [this]
    exact length_pushArea st.areas t.letter
  have hselfid : areaIdAt st1.grid addr = some st.areas.length := hsp.self
  have hone : ∀ b j, areaIdAt st1.grid b = some j →
      (areaIdAt st.grid b = some j ∨
        (j = st.areas.length ∧ areaIdAt st.grid b = none)) := by
    intro b j hb
    rcases hold : areaIdAt st.grid b with _ | j0
    · exact Or.inr ⟨(hnew b j hb hold).1, rfl⟩
    · rw [hmono b j0 hold] at hb
      cases hb
      exact Or.inl rfl
  have hinset : ∀ b, areaIdAt st1.grid b = some st.areas.length → (L b).isSome = true
      ∧ L b = some t.letter := by
    intro b hb
    have hreach := (hnew b _ hb (hid_new b hb)).2
    have hlb : L b = L addr := reachableVia_letter hreach.toReachable
    rw [hlb, hLaddr]
    exact ⟨rfl, rfl⟩
  refine ⟨⟨fun b => (hsp.pres.2.1 b).trans (hinv.letters b), ?_, ?_, ?_, ?_, ?_⟩,
    hmono, hselfid, fun b => hsp.pres.1 b⟩
  · -- uniform
    intro p j hp q hq
    rcases hone p j hp with hold | ⟨hjid, hnone⟩
    · have hq0 := hinv.uniform p j hold q hq
      exact hmono q j hq0
    · subst hjid
      have hq1 := hsp.closed p hp hnone q hq
      have hpin : (L p).isSome = true := by
        obtain ⟨tp, hgp, -⟩ := get_at_of_areaIdAt_some hp
        have hl1 : letterAt st1.grid p = L p :=
          (hsp.pres.2.1 p).trans (hinv.letters p)
        rw [← hl1, isSome_letterAt, hgp]
        rfl
      rcases hq1m : areaIdAt st1.grid q with _ | j'
      · exact absurd hq1m hq1
      · rcases hone q j' hq1m with hqold | ⟨hj'id, -⟩
        · -- q was assigned before this flood, with an old id; symmetry of the
          -- adjacency forces p to have been assigned before too, contradiction
          have hpmem : p ∈ letterAdj L q :=
            letterAdj_symm (hbound p hpin).1 (hbound p hpin).2 hpin hq
          have hcon := hinv.uniform q j' hqold p hpmem
          rw [hnone] at hcon
          cases hcon
        · rw [hj'id]
  · -- range
    intro p j hp
    rcases hone p j hp with hold | ⟨hjid, -⟩
    · have := hinv.range p j hold
      omega
    · omega
  · -- areas
    intro j ar har
    by_cases hj : j = st.areas.length
    · subst hj
      have har0 : (pushArea st.areas t.letter).get? st.areas.length =
          some ⟨t.letter, []⟩ := pushArea_get?_self st.areas t.letter
      obtain ⟨ar', har', hletter, hiff, hnd⟩ := hsp.areasId _ har0
      rw [har'] at har
      cases har
      refine ⟨hnd List.nodup_nil (by intro b hb; cases hb), ?_, ?_⟩
      · intro b
        rw [hiff b]
        constructor
        · rintro (hmem | ⟨-, hs⟩)
          · cases hmem
          · exact hs
        · intro hs
          exact Or.inr ⟨hid_new b hs, hs⟩
      · intro b hb
        rw [hletter]
        exact ((hinset b hb).2)
    · have harj : st.areas.get? j = some ar := by
        have h1 := hsp.areasOther j hj
        rw [h1] at har
        rcases Nat.lt_or_ge j st.areas.length with hlt | hge
        · rw [pushArea_get?_lt st.areas t.letter hlt] at har
          exact har
        · have : (pushArea st.areas t.letter).get? j = none := by
            rw [List.get?_eq_none]
            rw [length_pushArea]
            omega
          rw [this] at har
          cases har
      obtain ⟨hnd, hmem, hlet⟩ := hinv.areas j ar harj
      refine ⟨hnd, ?_, ?_⟩
      · intro b
        rw [hmem b]
        constructor
        · exact fun hs => hmono b j hs
        · intro hs
          rcases hone b j hs with hold | ⟨hjid, -⟩
          · exact hold
          · exact absurd hjid hj
      · intro b hb
        rcases hone b j hb with hold | ⟨hjid, -⟩
        · exact hlet b hold
        · exact absurd hjid hj
  · -- roots
    intro j hj
    by_cases hjid : j = st.areas.length
    · subst hjid
      refine ⟨addr, hselfid, by rw [hLaddr]; rfl, ?_⟩
      intro b hb
      exact ((hnew b _ hb (hid_new b hb)).2).toReachable
    · have hjlt : j < st.areas.length := by omega
      obtain ⟨rt, hrt, hrtin, hrtreach⟩ := hinv.roots j hjlt
      refine ⟨rt, hmono rt j hrt, hrtin, ?_⟩
      intro b hb
      rcases hone b j hb with hold | ⟨hjid2, -⟩
      · exact hrtreach b hold
      · exact absurd hjid2 hjid
  · -- fences
    intro b c
    rw [hsp.fences b c]
    have hfold := hinv.fences b c
    constructor
    · rintro (hold | ⟨hn, hs, hFC⟩)
      · obtain ⟨hassigned, hFC⟩ := hfold.mp hold
        rcases hrold : areaIdAt st.grid b with _ | j0
        · exact absurd hrold hassigned
        · refine ⟨?_, hFC⟩
          rw [hmono b j0 hrold]
          intro hcon
          cases hcon
      · refine ⟨?_, hFC⟩
        rw [hs]
        intro hcon
        cases hcon
    · rintro ⟨hassigned, hFC⟩
      rcases hs1 : areaIdAt st1.grid b with _ | j1
      · exact absurd hs1 hassigned
      · rcases hone b j1 hs1 with hold | ⟨hjid, hnone⟩
        · refine Or.inl (hfold.mpr ⟨?_, hFC⟩)
          rw [hold]
          intro hcon
          cases hcon
        · subst hjid
          exact Or.inr ⟨hnone, rfl, hFC⟩

/-- The raster loop keeps the invariant and assigns every listed in-grid
address. -/
theorem floodLoop_spec {L : GridAddress → Option Char}
    (hbound : ∀ b, (L b).isSome = true → b.x ≤ usizeMax ∧ b.y ≤ usizeMax) :
    ∀ (addrs : List GridAddress) (fuel : ℕ) (st st' : FloodState),
      floodLoop fuel addrs st = some st' → LoopInv L st →
      LoopInv L st' ∧
        (∀ b j, areaIdAt st.grid b = some j → areaIdAt st'.grid b = some j) ∧
        (∀ b, (st'.grid.get_at b).isSome = (st.grid.get_at b).isSome) ∧
        (∀ a ∈ addrs, areaIdAt st'.grid a ≠ none ∨ st.grid.get_at a = none) ∧
        (∀ b, areaIdAt st'.grid b ≠ none → areaIdAt st.grid b ≠ none ∨
          ∃ a ∈ addrs, ReachableVia (letterAdj L) a b) := by
  intro addrs
  induction addrs with
  | nil =>
    intro fuel st st' h hinv
    unfold floodLoop at h
    cases h
    exact ⟨hinv, fun b j hj => hj, fun b => rfl,
      fun a ha => absurd ha (List.not_mem_nil a), fun b hb => Or.inl hb⟩
  | cons addr rest ih =>
    intro fuel st st' h hinv
    unfold floodLoop at h
    rcases hat : st.grid.get_at addr with _ | t <;> rw [hat] at h
    · obtain ⟨hinv', hmono, hshape, hrest, horig⟩ := ih fuel st st' h hinv
      refine ⟨hinv', hmono, hshape, ?_, ?_⟩
      · intro a ha
        rcases List.mem_cons.mp ha with hcc | hcr
        · subst hcc
          exact Or.inr hat
        · exact hrest a hcr
      · intro b hb
        rcases horig b hb with hold | ⟨a, ha, hr⟩
        · exact Or.inl hold
        · exact Or.inr ⟨a, List.mem_cons_of_mem addr ha, hr⟩
    · dsimp only at h
      rcases hun : t.area_id with _ | j0 <;> rw [hun] at h
      · -- unassigned: start a new area and flood from here
        dsimp only at h
        rcases hff : flood_from fuel addr st.areas.length
            ⟨st.grid, pushArea st.areas t.letter⟩ with _ | st1 <;> rw [hff] at h
        · cases h
        · rw [Option.some_bind] at h
          have hyp : FloodHyp L t.letter st.areas.length
              ⟨st.grid, pushArea st.areas t.letter⟩ := by
            refine ⟨hinv.letters, ?_, ?_⟩
            · intro p j hp hj q hq
              exact hinv.uniform p j hp q hq
            · intro b hb
              exact absurd (hinv.range b _ hb) (by omega)
          have hLaddr : L addr = some t.letter := by
            rw [← hinv.letters addr]
            unfold letterAt
            rw [hat]
            rfl
          have hunaddr : areaIdAt st.grid addr = none := by
            unfold areaIdAt
            rw [hat, Option.some_bind, hun]
          have hsp := flood_from_spec hbound fuel addr st.areas.length
            ⟨st.grid, pushArea st.areas t.letter⟩ st1 hff hyp hLaddr hunaddr
          obtain ⟨hinv1, hmono1, hself1, hshape1⟩ :=
            loopInv_step hbound hinv hat hun hsp
          obtain ⟨hinv', hmono2, hshape2, hrest, horig⟩ := ih fuel st1 st' h hinv1
          refine ⟨hinv', fun b j hj => hmono2 b j (hmono1 b j hj),
            fun b => (hshape2 b).trans (hshape1 b), ?_, ?_⟩
          · intro a ha
            rcases List.mem_cons.mp ha with hcc | hcr
            · subst hcc
              left
              rw [hmono2 a _ hself1]
              intro hcon
              cases hcon
            · rcases hrest a hcr with ha' | hnone
              · exact Or.inl ha'
              · right
                have hsh := hshape1 a
                rw [hnone] at hsh
                rcases hsq : st.grid.get_at a with _ | tq
                · rfl
                · rw [hsq] at hsh
                  simp at hsh
          · intro b hb
            rcases horig b hb with h1 | ⟨a, ha, hr⟩
            · rcases hold : areaIdAt st.grid b with _ | j1
              · rcases hs1 : areaIdAt st1.grid b with _ | j2
                · exact absurd hs1 h1
                · obtain ⟨-, hreach⟩ := hsp.newR b j2 hs1 hold
                  exact Or.inr ⟨addr, List.mem_cons_self addr rest,
                    hreach.toReachable⟩
              · left
                intro hcon
                cases hcon
            · exact Or.inr ⟨a, List.mem_cons_of_mem addr ha, hr⟩
      · -- already assigned: skip
        obtain ⟨hinv', hmono, hshape, hrest, horig⟩ := ih fuel st st' h hinv
        refine ⟨hinv', hmono, hshape, ?_, ?_⟩
        · intro a ha
          rcases List.mem_cons.mp ha with hcc | hcr
          · subst hcc
            left
            rw [hmono a j0 (by unfold areaIdAt; rw [hat, Option.some_bind, hun])]
            intro hcon
            cases hcon
          · exact hrest a hcr
        · intro b hb
          rcases horig b hb with hold | ⟨a, ha, hr⟩
          · exact Or.inl hold
          · exact Or.inr ⟨a, List.mem_cons_of_mem addr ha, hr⟩

/-! ### From the initial state to the full flood result -/

theorem letterAt_initTiles (g : Grid Char) (b : GridAddress) :
    letterAt (initTiles g) b = g.get_at b := by
  unfold letterAt initTiles Grid.get_at Grid.get
  dsimp only
  rw [List.get?_map]
  rcases hrow : g.rows.get? b.y with _ | row
  · rfl
  · simp only [Option.map_some', Option.some_bind, List.get?_map]
    rcases row.get? b.x with _ | ch <;> rfl

theorem areaIdAt_initTiles (g : Grid Char) (b : GridAddress) :
    areaIdAt (initTiles g) b = none := by
  unfold areaIdAt initTiles Grid.get_at Grid.get
  dsimp only
  rw [List.get?_map]
  rcases hrow : g.rows.get? b.y with _ | row
  · rfl
  · simp only [Option.map_some', Option.some_bind, List.get?_map]
    rcases row.get? b.x with _ | ch <;> rfl

theorem fenceB_initTiles (g : Grid Char) (b : GridAddress) (c : Cardinal) :
    fenceB (initTiles g) b c = false := by
  unfold fenceB initTiles Grid.get_at Grid.get
  dsimp only
  rw [List.get?_map]
  rcases hrow : g.rows.get? b.y with _ | row
  · rfl
  · simp only [Option.map_some', Option.some_bind, List.get?_map]
    rcases row.get? b.x with _ | ch
    · rfl
    · cases c <;> rfl

theorem gridAddrFinset_eq_of_shape {T U : Type} {g : Grid T} {g' : Grid U}
    (h : ∀ b, (g'.get_at b).isSome = (g.get_at b).isSome) :
    gridAddrFinset g' = gridAddrFinset g := by
  apply Finset.ext
  intro b
  rw [mem_gridAddrFinset, mem_gridAddrFinset, h b]

theorem sum_rowLen {T : Type} (l : List (List T)) :
    ∑ y in Finset.range l.length, ((l.get? y).map List.length).getD 0 =
      (l.map List.length).sum := by
  induction l with
  | nil => simp
  | cons r rs ih =>
    rw [List.length_cons, Finset.sum_range_succ']
    have hshift : ∑ i in Finset.range rs.length,
        (((r :: rs).get? (i + 1)).map List.length).getD 0 =
        ∑ i in Finset.range rs.length, ((rs.get? i).map List.length).getD 0 :=
      Finset.sum_congr rfl (fun i hi => rfl)
    rw [List.map_cons, List.sum_cons]
    rw [hshift, ih]
    have h0 : (((r :: rs).get? 0).map List.length).getD 0 = r.length := rfl
    rw [h0]
    omega

/-- The address set of a grid has exactly as many elements as the grid has
stored tiles. -/
theorem card_gridAddrFinset {T : Type} (g : Grid T) :
    (gridAddrFinset g).card = totalTiles g := by
  unfold gridAddrFinset
  rw [Finset.card_biUnion]
  · have hcard : ∀ y, ((Finset.range (g.rowLen y)).image
        (fun x => (⟨x, y⟩ : GridAddress))).card = g.rowLen y := by
      intro y
      rw [Finset.card_image_of_injective _
        (fun a b hab => congrArg GridAddress.x hab)]
      rw [Finset.card_range]
    have hsum : ∑ y in Finset.range g.height, ((Finset.range (g.rowLen y)).image
        (fun x => (⟨x, y⟩ : GridAddress))).card =
        ∑ y in Finset.range g.height, g.rowLen y :=
      Finset.sum_congr rfl (fun y hy => hcard y)
    rw [hsum]
    unfold Grid.height Grid.rowLen
    exact sum_rowLen g.rows
  · intro y1 h1 y2 h2 hne
    rw [Finset.disjoint_left]
    intro a ha1 ha2
    rw [Finset.mem_image] at ha1 ha2
    obtain ⟨x1, -, hx1⟩ := ha1
    obtain ⟨x2, -, hx2⟩ := ha2
    rw [← hx2] at hx1
    have hyy := congrArg GridAddress.y hx1
    dsimp only at hyy
    omega

theorem totalTiles_initTiles (g : Grid Char) : totalTiles (initTiles g) = totalTiles g := by
  unfold totalTiles initTiles
  dsimp only
  rw [List.map_map]
  congr 1
  apply List.map_congr_left
  intro r hr
  dsimp only [Function.comp]
  rw [List.length_map]

/-- Fuel sufficiency for the raster loop. -/
theorem floodLoop_isSome :
    ∀ (addrs : List GridAddress) (fuel : ℕ) (st : FloodState),
      (gridAddrFinset st.grid).card < fuel →
      (floodLoop fuel addrs st).isSome = true := by
  intro addrs
  induction addrs with
  | nil =>
    intro fuel st hcard
    unfold floodLoop
    rfl
  | cons addr rest ih =>
    intro fuel st hcard
    unfold floodLoop
    rcases hat : st.grid.get_at addr with _ | t
    · exact ih fuel st hcard
    · dsimp only
      rcases hun : t.area_id with _ | j0
      · dsimp only
        have hcount : unassignedCount st.grid < fuel := by
          have hle : unassignedCount st.grid ≤ (gridAddrFinset st.grid).card :=
            Finset.card_filter_le _ _
          omega
        have hff := (flood_isSome_all fuel).1 addr st.areas.length
          ⟨st.grid, pushArea st.areas t.letter⟩ ⟨t, hat, hun⟩ hcount
        rw [Option.isSome_iff_exists] at hff
        obtain ⟨st1, hst1⟩ := hff
        rw [hst1, Option.some_bind]
        apply ih fuel st1
        have hpres := (flood_preserves fuel).1 addr st.areas.length
          ⟨st.grid, pushArea st.areas t.letter⟩ st1
          (by unfold areaIdAt; rw [hat, Option.some_bind, hun]) hst1
        rw [gridAddrFinset_eq_of_shape hpres.1]
        exact hcard
      · exact ih fuel st hcard

theorem initTiles_shape (g : Grid Char) :
    ∀ b, ((initTiles g).get_at b).isSome = (g.get_at b).isSome := by
  intro b
  rw [← isSome_letterAt, letterAt_initTiles]

/-- The initial flood state (fresh tiles, no areas) satisfies the loop
invariant. -/
theorem loopInv_init (g : Grid Char) :
    LoopInv (fun p => g.get_at p) ⟨initTiles g, []⟩ := by
  refine ⟨fun b => letterAt_initTiles g b, ?_, ?_, ?_, ?_, ?_⟩
  · intro p j hp
    rw [show (⟨initTiles g, []⟩ : FloodState).grid = initTiles g from rfl,
      areaIdAt_initTiles] at hp
    cases hp
  · intro p j hp
    rw [show (⟨initTiles g, []⟩ : FloodState).grid = initTiles g from rfl,
      areaIdAt_initTiles] at hp
    cases hp
  · intro j ar har
    simp at har
  · intro j hj
    simp at hj
  · intro b c
    rw [show (⟨initTiles g, []⟩ : FloodState).grid = initTiles g from rfl,
      fenceB_initTiles]
    constructor
    · intro hcon
      cases hcon
    · rintro ⟨hassigned, -⟩
      exact absurd (areaIdAt_initTiles g b) hassigned

/-- The flood fill always succeeds: the flood fuel exceeds the tile count. -/
theorem flood_run_isSome (g : Grid Char) : (flood (initTiles g)).isSome = true := by
  unfold flood
  apply floodLoop_isSome
  rw [show (⟨initTiles g, []⟩ : FloodState).grid = initTiles g from rfl]
  rw [card_gridAddrFinset]
  omega

/-- The complete flood fill succeeds on a rectangular grid that fits in
`usize` coordinates, and its result satisfies the loop invariant with every
in-grid tile assigned. -/
theorem flood_full (g : Grid Char)
    (hrect : ∀ r ∈ g.rows, r.length = g.width)
    (hfitW : g.width ≤ wordCount) (hfitH : g.height ≤ wordCount) :
    ∃ fs, flood (initTiles g) = some fs ∧
      LoopInv (fun p => g.get_at p) fs ∧
      (∀ b, (g.get_at b).isSome = true → areaIdAt fs.grid b ≠ none) ∧
      (∀ b, (fs.grid.get_at b).isSome = (g.get_at b).isSome) := by
  have hbound : ∀ b, ((fun p => g.get_at p) b).isSome = true →
      b.x ≤ usizeMax ∧ b.y ≤ usizeMax := by
    intro b hb
    rw [isSome_get_at_iff] at hb
    obtain ⟨hy, hx⟩ := hb
    rw [rowLen_eq_width_of_rect hrect hy] at hx
    unfold usizeMax
    unfold wordCount at hfitW hfitH
    unfold Grid.height at hy hfitH
    constructor <;> omega
  have hshape0 : ∀ b, ((initTiles g).get_at b).isSome = (g.get_at b).isSome :=
    initTiles_shape g
  have hinv0 : LoopInv (fun p => g.get_at p) ⟨initTiles g, []⟩ := loopInv_init g
  have hrun : (flood (initTiles g)).isSome = true := flood_run_isSome g
  rw [Option.isSome_iff_exists] at hrun
  obtain ⟨fs, hfs⟩ := hrun
  have hloop := floodLoop_spec hbound (rasterAddrs (initTiles g))
    (totalTiles (initTiles g) + 1) ⟨initTiles g, []⟩ fs hfs hinv0
  obtain ⟨hinv, hmono, hshape, htotal, -⟩ := hloop
  refine ⟨fs, hfs, hinv, ?_, fun b => (hshape b).trans (hshape0 b)⟩
  intro b hb
  have hbmem : b ∈ rasterAddrs (initTiles g) := by
    rw [mem_rasterAddrs]
    rw [isSome_get_at_iff] at hb
    obtain ⟨hy, hx⟩ := hb
    have hweq : (initTiles g).width = g.width := by
      unfold initTiles Grid.width
      dsimp only
      rcases hrows : g.rows with _ | ⟨r, rest⟩
      · rfl
      · simp
    have hheq : (initTiles g).height = g.height := by
      unfold initTiles Grid.height
      dsimp only
      rw [List.length_map]
    rw [hweq, hheq]
    rw [rowLen_eq_width_of_rect hrect hy] at hx
    exact ⟨hy, hx⟩
  rcases htotal b hbmem with ha | hnone
  · exact ha
  · rw [show (⟨initTiles g, []⟩ : FloodState).grid = initTiles g from rfl] at hnone
    have := hshape0 b
    rw [hnone] at this
    rw [isSome_get_at_iff] at hb
    rw [← isSome_get_at_iff] at hb
    rw [hb] at this
    cases this

/-! ### Connectivity and counting consequences of the invariant -/

theorem ReachableVia.transVia {α : Type} {nbrs : α → List α} {a b c : α}
    (h1 : ReachableVia nbrs a b) (h2 : ReachableVia nbrs b c) :
    ReachableVia nbrs a c := by
  induction h2 with
  | refl => exact h1
  | step hb hc ih => exact ReachableVia.step ih hc

theorem reachableVia_letterAdj_symm {L : GridAddress → Option Char}
    (hbound : ∀ b, (L b).isSome = true → b.x ≤ usizeMax ∧ b.y ≤ usizeMax)
    {x y : GridAddress} (hx : (L x).isSome = true)
    (h : ReachableVia (letterAdj L) x y) : ReachableVia (letterAdj L) y x := by
  induction h with
  | refl => exact ReachableVia.refl
  | step hb hc ih =>
    rename_i a b
    have hain : (L a).isSome = true := by
      rw [reachableVia_letter hb]
      exact hx
    have hmem := letterAdj_symm (hbound a hain).1 (hbound a hain).2 hain hc
    exact ReachableVia.transVia (ReachableVia.step ReachableVia.refl hmem) ih

theorem loopInv_reach_id {L : GridAddress → Option Char} {st : FloodState}
    (hinv : LoopInv L st) {j : ℕ} {p q : GridAddress}
    (hp : areaIdAt st.grid p = some j)
    (h : ReachableVia (letterAdj L) p q) : areaIdAt st.grid q = some j := by
  induction h with
  | refl => exact hp
  | step hb hc ih => exact hinv.uniform _ j ih _ hc

theorem loopInv_areas_nodup {L : GridAddress → Option Char} {st : FloodState}
    (hinv : LoopInv L st) : st.areas.Nodup := by
  rw [List.nodup_iff_get?_ne_get?]
  intro i j hij hj heq
  rcases hgi : st.areas.get? i with _ | ari
  · rw [List.get?_eq_none] at hgi
    omega
  · rcases hgj : st.areas.get? j with _ | arj
    · rw [List.get?_eq_none] at hgj
      omega
    · rw [hgi, hgj] at heq
      cases heq
      obtain ⟨rt, hrt, -, -⟩ := hinv.roots i (by omega)
      have hmem_i : rt ∈ ari.addresses := ((hinv.areas i ari hgi).2.1 rt).mpr hrt
      have hmem_j := ((hinv.areas j ari hgj).2.1 rt).mp hmem_i
      rw [hrt] at hmem_j
      cases hmem_j
      omega

/-- The area address lists partition the assigned tiles: their lengths sum
to the number of assigned tiles. -/
theorem flood_areas_assigned {L : GridAddress → Option Char} {fs : FloodState}
    (hinv : LoopInv L fs) :
    (fs.areas.map (fun ar => ar.addresses.length)).sum =
      ((gridAddrFinset fs.grid).filter (fun b => areaIdAt fs.grid b ≠ none)).card := by
  have hlen := length_flatMap_eq fs.areas (fun ar => ar.addresses)
  have hnodup : (fs.areas.flatMap (fun ar => ar.addresses)).Nodup := by
    apply nodup_flatMap_keyed fs.areas (fun ar => ar.addresses)
      (fun b => (areaIdAt fs.grid b).bind (fun j => fs.areas.get? j))
    · intro ar har b hb
      rw [List.mem_iff_get?] at har
      obtain ⟨j, hgj⟩ := har
      have hbj := ((hinv.areas j ar hgj).2.1 b).mp hb
      rw [hbj, Option.some_bind, hgj]
    · intro ar har
      rw [List.mem_iff_get?] at har
      obtain ⟨j, hgj⟩ := har
      exact (hinv.areas j ar hgj).1
    · exact loopInv_areas_nodup hinv
  have hmemiff : ∀ b, b ∈ fs.areas.flatMap (fun ar => ar.addresses) ↔
      areaIdAt fs.grid b ≠ none := by
    intro b
    rw [List.mem_flatMap]
    constructor
    · rintro ⟨ar, har, hb⟩
      rw [List.mem_iff_get?] at har
      obtain ⟨j, hgj⟩ := har
      have hbj := ((hinv.areas j ar hgj).2.1 b).mp hb
      rw [hbj]
      intro hcon
      cases hcon
    · intro hassigned
      rcases hbj : areaIdAt fs.grid b with _ | j
      · exact absurd hbj hassigned
      · have hjlt := hinv.range b j hbj
        rcases hgj : fs.areas.get? j with _ | ar
        · rw [List.get?_eq_none] at hgj
          omega
        · exact ⟨ar, List.get?_mem hgj, ((hinv.areas j ar hgj).2.1 b).mpr hbj⟩
  have hfinset : (fs.areas.flatMap (fun ar => ar.addresses)).toFinset =
      (gridAddrFinset fs.grid).filter (fun b => areaIdAt fs.grid b ≠ none) := by
    apply Finset.ext
    intro b
    rw [List.mem_toFinset, hmemiff b, Finset.mem_filter, mem_gridAddrFinset]
    constructor
    · intro hassigned
      refine ⟨?_, hassigned⟩
      rcases hbj : areaIdAt fs.grid b with _ | j
      · exact absurd hbj hassigned
      · obtain ⟨t, hgt, -⟩ := get_at_of_areaIdAt_some hbj
        rw [hgt]
        rfl
    · exact fun h => h.2
  have hcard := List.toFinset_card_of_nodup hnodup
  rw [hfinset] at hcard
  rw [← hlen, hcard]

/-! ### Claim C3 -/

/-- Claim C3 (amended): for a rectangular grid whose dimensions fit in
`usize` (the capacity invariant Rust's `Vec` guarantees), after `flood`
completes every stored tile carries exactly one area id, which indexes the
areas map; the area sizes sum to the total tile count; and two tiles share
an area id exactly when a path of cardinally adjacent same-letter tiles
connects them.  (On jagged inputs the raster scan misses tiles, see the
counterexample.) -/
theorem flood_partitions (g : Grid Char)
    (hrect : ∀ r ∈ g.rows, r.length = g.width)
    (hfitW : g.width ≤ wordCount) (hfitH : g.height ≤ wordCount) :
    ∃ fs, flood (initTiles g) = some fs ∧
      (∀ b, (g.get_at b).isSome = true →
        ∃ id, areaIdAt fs.grid b = some id ∧ id < fs.areas.length) ∧
      ((fs.areas.map (fun ar => ar.addresses.length)).sum = totalTiles g) ∧
      (∀ a b, (g.get_at a).isSome = true → (g.get_at b).isSome = true →
        (areaIdAt fs.grid a = areaIdAt fs.grid b ↔
          ReachableVia (letterAdj (fun p => g.get_at p)) a b)) := by
  obtain ⟨fs, hfs, hinv, htotal, hshape⟩ := flood_full g hrect hfitW hfitH
  have hbound : ∀ b, ((fun p => g.get_at p) b).isSome = true →
      b.x ≤ usizeMax ∧ b.y ≤ usizeMax := by
    intro b hb
    rw [isSome_get_at_iff] at hb
    obtain ⟨hy, hx⟩ := hb
    rw [rowLen_eq_width_of_rect hrect hy] at hx
    unfold usizeMax
    unfold wordCount at hfitW hfitH
    unfold Grid.height at hy hfitH
    constructor <;> omega
  refine ⟨fs, hfs, ?_, ?_, ?_⟩
  · intro b hb
    have hassigned := htotal b hb
    rcases hbj : areaIdAt fs.grid b with _ | j
    · exact absurd hbj hassigned
    · exact ⟨j, rfl, hinv.range b j hbj⟩
  · have h1 := flood_areas_assigned hinv
    have hfilter : (gridAddrFinset fs.grid).filter
        (fun b => areaIdAt fs.grid b ≠ none) = gridAddrFinset fs.grid := by
      apply Finset.filter_true_of_mem
      intro b hb
      rw [mem_gridAddrFinset] at hb
      exact htotal b (by rw [← hshape b]; exact hb)
    rw [h1, hfilter, gridAddrFinset_eq_of_shape hshape]
    exact card_gridAddrFinset g
  · intro a b ha hb
    have haA := htotal a ha
    have hbA := htotal b hb
    rcases haj : areaIdAt fs.grid a with _ | ja
    · exact absurd haj haA
    · rcases hbj : areaIdAt fs.grid b with _ | jb
      · exact absurd hbj hbA
      · constructor
        · intro heq
          cases heq
          obtain ⟨rt, hrt, hrtin, hreach⟩ := hinv.roots ja (hinv.range a ja haj)
          exact ReachableVia.transVia
            (reachableVia_letterAdj_symm hbound hrtin (hreach a haj))
            (hreach b hbj)
        · intro hreach
          have := loopInv_reach_id hinv haj hreach
          rw [this] at hbj
          cases hbj
          rfl

/-- Witness for claim C3 at the concrete rectangular grid
`[[A, B], [A, A]]`. -/
theorem flood_partitions_witness :
    ∃ fs, flood (initTiles ⟨[['A', 'B'], ['A', 'A']]⟩) = some fs ∧
      (∀ b, ((⟨[['A', 'B'], ['A', 'A']]⟩ : Grid Char).get_at b).isSome = true →
        ∃ id, areaIdAt fs.grid b = some id ∧ id < fs.areas.length) ∧
      ((fs.areas.map (fun ar => ar.addresses.length)).sum =
        totalTiles (⟨[['A', 'B'], ['A', 'A']]⟩ : Grid Char)) ∧
      (∀ a b, ((⟨[['A', 'B'], ['A', 'A']]⟩ : Grid Char).get_at a).isSome = true →
        ((⟨[['A', 'B'], ['A', 'A']]⟩ : Grid Char).get_at b).isSome = true →
        (areaIdAt fs.grid a = areaIdAt fs.grid b ↔
          ReachableVia (letterAdj
            (fun p => (⟨[['A', 'B'], ['A', 'A']]⟩ : Grid Char).get_at p)) a b)) :=
  flood_partitions ⟨[['A', 'B'], ['A', 'A']]⟩ (by decide) (by decide) (by decide)

/-- Counterexample to claim C3 as stated for every grid: on the jagged grid
`[[A], [A, B]]` the raster scan (which only visits `x < width = 1`) never
reaches the stored tile at `(1, 1)`, so that tile ends with no area id and
the area sizes sum to 2 while 3 tiles are stored. -/
theorem flood_misses_jagged_tile :
    ((initTiles ⟨[['A'], ['A', 'B']]⟩).get_at ⟨1, 1⟩).isSome = true ∧
    (flood (initTiles ⟨[['A'], ['A', 'B']]⟩)).map
        (fun fs => (areaIdAt fs.grid ⟨1, 1⟩,
          (fs.areas.map (fun ar => ar.addresses.length)).sum)) =
      some (none, 2) ∧
    totalTiles (initTiles ⟨[['A'], ['A', 'B']]⟩) = 3 := by
  refine ⟨rfl, ?_, rfl⟩
  have hrun := flood_run_isSome ⟨[['A'], ['A', 'B']]⟩
  rw [Option.isSome_iff_exists] at hrun
  obtain ⟨fs, hfs⟩ := hrun
  have hbound : ∀ b,
      ((fun p => (⟨[['A'], ['A', 'B']]⟩ : Grid Char).get_at p) b).isSome = true →
      b.x ≤ usizeMax ∧ b.y ≤ usizeMax := by
    intro b hb
    rw [isSome_get_at_iff] at hb
    obtain ⟨hy, hx⟩ := hb
    have hrl : ∀ y, (⟨[['A'], ['A', 'B']]⟩ : Grid Char).rowLen y ≤ 2 := by
      intro y
      match y with
      | 0 => decide
      | 1 => decide
      | y2 + 2 =>
        show (((⟨[['A'], ['A', 'B']]⟩ : Grid Char).rows.get?
          (y2 + 2)).map List.length).getD 0 ≤ 2
        rw [List.get?_eq_none.mpr (show
          (⟨[['A'], ['A', 'B']]⟩ : Grid Char).rows.length ≤ y2 + 2 from by
            show 2 ≤ y2 + 2
            omega)]
        decide
    have hrly := hrl b.y
    have hh2 : (⟨[['A'], ['A', 'B']]⟩ : Grid Char).height = 2 := rfl
    rw [hh2] at hy
    unfold usizeMax
    omega
  have hloop := floodLoop_spec hbound (rasterAddrs (initTiles ⟨[['A'], ['A', 'B']]⟩))
    (totalTiles (initTiles ⟨[['A'], ['A', 'B']]⟩) + 1)
    ⟨initTiles ⟨[['A'], ['A', 'B']]⟩, []⟩ fs hfs (loopInv_init ⟨[['A'], ['A', 'B']]⟩)
  obtain ⟨hinv, -, hshape, htotal, horig⟩ := hloop
  have h11 : areaIdAt fs.grid ⟨1, 1⟩ = none := by
    by_contra hcon
    rcases horig ⟨1, 1⟩ hcon with h1 | ⟨a, ha, hr⟩
    · exact h1 (areaIdAt_initTiles ⟨[['A'], ['A', 'B']]⟩ ⟨1, 1⟩)
    · have hl := reachableVia_letter hr
      have hLa : some 'B' = (⟨[['A'], ['A', 'B']]⟩ : Grid Char).get_at a := hl
      rw [mem_rasterAddrs] at ha
      obtain ⟨hya, hxa⟩ := ha
      have hw : (initTiles ⟨[['A'], ['A', 'B']]⟩).width = 1 := rfl
      have hh : (initTiles ⟨[['A'], ['A', 'B']]⟩).height = 2 := rfl
      rw [hw] at hxa
      rw [hh] at hya
      have hax : a.x = 0 := by omega
      have hay : a.y = 0 ∨ a.y = 1 := by omega
      rcases hay with hay | hay
      · rw [GridAddress.ext_xy (b := ⟨0, 0⟩) hax hay] at hLa
        exact absurd hLa.symm (by decide)
      · rw [GridAddress.ext_xy (b := ⟨0, 1⟩) hax hay] at hLa
        exact absurd hLa.symm (by decide)
  have hsum : (fs.areas.map (fun ar => ar.addresses.length)).sum = 2 := by
    rw [flood_areas_assigned hinv]
    have hfe : (gridAddrFinset fs.grid).filter (fun b => areaIdAt fs.grid b ≠ none) =
        ({⟨0, 0⟩, ⟨0, 1⟩} : Finset GridAddress) := by
      apply Finset.ext
      intro b
      rw [Finset.mem_filter, mem_gridAddrFinset]
      constructor
      · rintro ⟨hbin, hbass⟩
        rw [hshape b] at hbin
        have hbin1 : ((initTiles ⟨[['A'], ['A', 'B']]⟩).get_at b).isSome = true := hbin
        have hmem := mem_gridAddrFinset.mpr hbin1
        have hset : gridAddrFinset (initTiles ⟨[['A'], ['A', 'B']]⟩) =
            ({⟨0, 0⟩, ⟨0, 1⟩, ⟨1, 1⟩} : Finset GridAddress) := by decide
        rw [hset] at hmem
        rcases Finset.mem_insert.mp hmem with h1 | hmem2
        · rw [h1]
          exact Finset.mem_insert_self _ _
        · rcases Finset.mem_insert.mp hmem2 with h2 | h3
          · rw [h2]
            exact Finset.mem_insert_of_mem (Finset.mem_singleton_self _)
          · rw [Finset.mem_singleton] at h3
            rw [h3] at hbass
            exact absurd h11 hbass
      · intro hbmem
        have hra : ∀ p : GridAddress,
            p ∈ rasterAddrs (initTiles ⟨[['A'], ['A', 'B']]⟩) →
            ((initTiles ⟨[['A'], ['A', 'B']]⟩).get_at p).isSome = true →
            (fs.grid.get_at p).isSome = true ∧ areaIdAt fs.grid p ≠ none := by
          intro p hp hpin
          refine ⟨by rw [hshape p]; exact hpin, ?_⟩
          rcases htotal p hp with hgood | hbad
          · exact hgood
          · have hbad1 : ((initTiles ⟨[['A'], ['A', 'B']]⟩).get_at p).isSome = true →
                False := by
              intro hcon
              have : (⟨initTiles ⟨[['A'], ['A', 'B']]⟩, []⟩ : FloodState).grid.get_at p
                  = none := hbad
              rw [show (⟨initTiles ⟨[['A'], ['A', 'B']]⟩, []⟩ : FloodState).grid
                = initTiles ⟨[['A'], ['A', 'B']]⟩ from rfl] at this
              rw [this] at hcon
              cases hcon
            exact absurd hpin hbad1
        rcases Finset.mem_insert.mp hbmem with h1 | h2
        · subst h1
          exact hra ⟨0, 0⟩ (by decide) (by decide)
        · rw [Finset.mem_singleton] at h2
          subst h2
          exact hra ⟨0, 1⟩ (by decide) (by decide)
    rw [hfe]
    decide
  rw [hfs, Option.map_some', h11, hsum]

/-! ### Claim C4: fence and edge counts -/

/-- In-grid addresses of a rectangular grid that fits in `usize` have
`usize`-valid coordinates. -/
theorem rect_bound (g : Grid Char) (hrect : ∀ r ∈ g.rows, r.length = g.width)
    (hfitW : g.width ≤ wordCount) (hfitH : g.height ≤ wordCount) :
    ∀ b, ((fun p => g.get_at p) b).isSome = true →
      b.x ≤ usizeMax ∧ b.y ≤ usizeMax := by
  intro b hb
  rw [isSome_get_at_iff] at hb
  obtain ⟨hy, hx⟩ := hb
  rw [rowLen_eq_width_of_rect hrect hy] at hx
  unfold usizeMax
  unfold wordCount at hfitW hfitH
  unfold Grid.height at hy hfitH
  constructor <;> omega

theorem checked_add_cardinal_ne {a nb : GridAddress} {c : Cardinal}
    (h : a.checked_add c.toDelta = some nb) : nb ≠ a := by
  intro hcon
  subst hcon
  rw [checked_add_eq_some_iff] at h
  obtain ⟨hx, hy, -, -⟩ := h
  cases c <;> dsimp only [Cardinal.toDelta] at hx hy <;> omega

theorem list_eq_singleton_of_nodup {α : Type} {l : List α} {a : α}
    (hnd : l.Nodup) (hmem : ∀ x, x ∈ l ↔ x = a) : l = [a] := by
  cases l with
  | nil => exact absurd ((hmem a).mpr rfl) (List.not_mem_nil a)
  | cons x rest =>
    have hx : x = a := (hmem x).mp (List.mem_cons_self x rest)
    subst hx
    cases rest with
    | nil => rfl
    | cons y rest2 =>
      have hy : y = x :=
        (hmem y).mp (List.mem_cons_of_mem x (List.mem_cons_self y rest2))
      subst hy
      rw [List.nodup_cons] at hnd
      exact absurd (List.mem_cons_self y rest2) hnd.1

/-- A `CardinalSet` containing all four directions has `len` 4. -/
theorem CardinalSet.len_four {s : CardinalSet}
    (h : ∀ c, s.contains c = true) : s.len = 4 := by
  rcases s with ⟨b1, b2, b3, b4⟩
  have h1 := h .north
  have h2 := h .east
  have h3 := h .south
  have h4 := h .west
  dsimp only [CardinalSet.contains] at h1 h2 h3 h4
  subst h1
  subst h2
  subst h3
  subst h4
  rfl

/-- An edge scan that immediately leaves the area (or the grid) marks
nothing. -/
theorem edgeScan_stuck {g : Grid Tile} {aid : Option ℕ} {c : Cardinal}
    {delta : GridDelta} {pos : GridAddress}
    (hstuck : ∀ nb, pos.checked_add delta = some nb →
      ∀ neighbor, g.get_at nb = some neighbor → ¬ (neighbor.area_id = aid)) :
    ∀ fuel seen, edgeScan g aid c delta fuel pos seen = seen := by
  intro fuel seen
  cases fuel with
  | zero => rfl
  | succ f =>
    rcases hca : pos.checked_add delta with _ | nb
    · unfold edgeScan
      rw [hca]
    · unfold edgeScan
      rw [hca]
      dsimp only
      rcases hnb : g.get_at nb with _ | neighbor
      · rfl
      · dsimp only
        rw [if_neg (hstuck nb hca neighbor hnb)]

/-- The cardinal loop of `count_edges` on a tile whose four fences are all
present and whose every cardinal neighbor lies outside the area counts one
edge per listed direction. -/
theorem countEdgesCards_iso {g : Grid Tile} {wf : ℕ} {a : GridAddress} {t : Tile}
    (hstuck : ∀ c' : Cardinal, ∀ nb, a.checked_add c'.toDelta = some nb →
      ∀ neighbor, g.get_at nb = some neighbor → ¬ (neighbor.area_id = t.area_id))
    (hfc : ∀ c, t.fences.contains c = true) :
    ∀ (cs : List Cardinal) (seen : Finset (GridAddress × Cardinal)) (cnt : ℕ),
      cs.Nodup → (∀ c ∈ cs, (a, c) ∉ seen) →
      (countEdgesCards g wf a t cs seen cnt).2 = cnt + cs.length := by
  intro cs
  induction cs with
  | nil =>
    intro seen cnt hnd hns
    rfl
  | cons c rest ih =>
    intro seen cnt hnd hns
    unfold countEdgesCards
    rw [if_pos ⟨hfc c, hns c (List.mem_cons_self c rest)⟩]
    dsimp only
    rw [edgeScan_stuck (hstuck c.turn_right), edgeScan_stuck (hstuck c.turn_left)]
    rw [List.nodup_cons] at hnd
    have hrec := ih (insert (a, c) seen) (cnt + 1) hnd.2 ?_
    · rw [hrec, List.length_cons]
      omega
    · intro c' hc' hmem
      rcases Finset.mem_insert.mp hmem with heq | hseen
      · have : c' = c := congrArg Prod.snd heq
        subst this
        exact absurd hc' hnd.1
      · exact hns c' (List.mem_cons_of_mem c hc') hseen

/-- `count_edges` on an area holding a single such tile returns 4. -/
theorem count_edges_singleton {g : Grid Tile} {ar : Area} {a : GridAddress}
    {t : Tile} (har : ar.addresses = [a]) (hat : g.get_at a = some t)
    (hstuck : ∀ c' : Cardinal, ∀ nb, a.checked_add c'.toDelta = some nb →
      ∀ neighbor, g.get_at nb = some neighbor → ¬ (neighbor.area_id = t.area_id))
    (hfc : ∀ c, t.fences.contains c = true) :
    count_edges g ar = 4 := by
  unfold count_edges
  rw [har]
  have h1 : countEdgesAddrs g (totalTiles g + 1) [a] ∅ 0 =
      countEdgesAddrs g (totalTiles g + 1) []
        ((countEdgesCards g (totalTiles g + 1) a t Cardinal.all ∅ 0).1)
        ((countEdgesCards g (totalTiles g + 1) a t Cardinal.all ∅ 0).2) := by
    unfold countEdgesAddrs
    rw [hat]
    rfl
  have h2 : ∀ (seen : Finset (GridAddress × Cardinal)) (cnt : ℕ),
      countEdgesAddrs g (totalTiles g + 1) [] seen cnt = (seen, cnt) :=
    fun _ _ => rfl
  rw [h1, h2]
  exact countEdgesCards_iso hstuck hfc Cardinal.all ∅ 0 (by decide)
    (fun c hc => Finset.not_mem_empty _)

/-! ### The uniform W x H rectangle -/

/-- A `W x H` grid filled with one letter. -/
def uniformGrid (ch : Char) (W H : ℕ) : Grid Char :=
  ⟨List.replicate H (List.replicate W ch)⟩

theorem uniformGrid_get_at (ch : Char) (W H : ℕ) (b : GridAddress) :
    (uniformGrid ch W H).get_at b =
      if b.x < W ∧ b.y < H then some ch else none := by
  unfold uniformGrid Grid.get_at Grid.get
  dsimp only
  rw [List.get?_eq_getElem?, List.getElem?_replicate]
  by_cases hy : b.y < H
  · rw [if_pos hy, Option.some_bind, List.get?_eq_getElem?, List.getElem?_replicate]
    by_cases hx : b.x < W
    · rw [if_pos hx, if_pos ⟨hx, hy⟩]
    · rw [if_neg hx, if_neg (by rintro ⟨h1, -⟩; exact hx h1)]
  · rw [if_neg hy, Option.none_bind, if_neg (by rintro ⟨-, h2⟩; exact hy h2)]

theorem uniformGrid_rect (ch : Char) (W H : ℕ) (hH : 1 ≤ H) :
    ∀ r ∈ (uniformGrid ch W H).rows, r.length = (uniformGrid ch W H).width := by
  have hw : (uniformGrid ch W H).width = W := by
    unfold uniformGrid Grid.width
    dsimp only
    rcases H with _ | H0
    · omega
    · rw [List.replicate_succ]
      dsimp only [List.head?]
      rw [List.length_replicate]
  intro r hr
  rw [hw]
  unfold uniformGrid at hr
  dsimp only at hr
  rw [List.eq_of_mem_replicate hr, List.length_replicate]

theorem uniformGrid_dims (ch : Char) (W H : ℕ) (hH : 1 ≤ H) :
    (uniformGrid ch W H).width = W ∧ (uniformGrid ch W H).height = H := by
  constructor
  · unfold uniformGrid Grid.width
    dsimp only
    rcases H with _ | H0
    · omega
    · rw [List.replicate_succ]
      dsimp only [List.head?]
      rw [List.length_replicate]
  · unfold uniformGrid Grid.height
    dsimp only
    rw [List.length_replicate]

/-- Which sides of the rectangle a tile touches. -/
def uBoundary (W H : ℕ) (b : GridAddress) : Cardinal → Prop
  | .north => b.y = 0
  | .east => b.x + 1 = W
  | .south => b.y + 1 = H
  | .west => b.x = 0

/-- The fence pairs forming one whole side of the rectangle. -/
def sidePairs (W H : ℕ) : Cardinal → Finset (GridAddress × Cardinal)
  | .north => (Finset.range W).image (fun x => (⟨x, 0⟩, Cardinal.north))
  | .east => (Finset.range H).image (fun y => (⟨W - 1, y⟩, Cardinal.east))
  | .south => (Finset.range W).image (fun x => (⟨x, H - 1⟩, Cardinal.south))
  | .west => (Finset.range H).image (fun y => (⟨0, y⟩, Cardinal.west))

theorem mem_sidePairs {W H : ℕ} (hW : 1 ≤ W) (hH : 1 ≤ H)
    (p : GridAddress × Cardinal) (c : Cardinal) :
    p ∈ sidePairs W H c ↔
      (p.1.x < W ∧ p.1.y < H ∧ uBoundary W H p.1 c ∧ p.2 = c) := by
  rcases p with ⟨b, c'⟩
  cases c <;>
    simp only [sidePairs, uBoundary, Finset.mem_image, Finset.mem_range] <;>
    constructor
  · rintro ⟨x, hx, heq⟩
    cases heq
    exact ⟨hx, hH, rfl, rfl⟩
  · rintro ⟨h1, h2, h3, h4⟩
    subst h4
    have h3' : b.y = 0 := h3
    refine ⟨b.x, h1, ?_⟩
    have hb : (⟨b.x, 0⟩ : GridAddress) = b := GridAddress.ext_xy rfl h3'.symm
    rw [hb]
  · rintro ⟨y, hy, heq⟩
    cases heq
    refine ⟨?_, hy, ?_, rfl⟩
    · show W - 1 < W
      omega
    · show W - 1 + 1 = W
      omega
  · rintro ⟨h1, h2, h3, h4⟩
    subst h4
    have h3' : b.x + 1 = W := h3
    refine ⟨b.y, h2, ?_⟩
    have hb : (⟨W - 1, b.y⟩ : GridAddress) = b :=
      GridAddress.ext_xy (show W - 1 = b.x by omega) rfl
    rw [hb]
  · rintro ⟨x, hx, heq⟩
    cases heq
    refine ⟨hx, ?_, ?_, rfl⟩
    · show H - 1 < H
      omega
    · show H - 1 + 1 = H
      omega
  · rintro ⟨h1, h2, h3, h4⟩
    subst h4
    have h3' : b.y + 1 = H := h3
    refine ⟨b.x, h1, ?_⟩
    have hb : (⟨b.x, H - 1⟩ : GridAddress) = b :=
      GridAddress.ext_xy rfl (show H - 1 = b.y by omega)
    rw [hb]
  · rintro ⟨y, hy, heq⟩
    cases heq
    exact ⟨hW, hy, rfl, rfl⟩
  · rintro ⟨h1, h2, h3, h4⟩
    subst h4
    have h3' : b.x = 0 := h3
    refine ⟨b.y, h2, ?_⟩
    have hb : (⟨0, b.y⟩ : GridAddress) = b := GridAddress.ext_xy h3'.symm rfl
    rw [hb]

/-- What the flood fill guarantees about the tile grid of a flooded uniform
rectangle: exactly the in-range tiles are stored, all carry area id 0, and
their fences sit exactly on the rectangle's sides. -/
def UniformFlood (W H : ℕ) (g : Grid Tile) : Prop :=
  (∀ b, (g.get_at b).isSome = true ↔ (b.x < W ∧ b.y < H)) ∧
  (∀ b t, g.get_at b = some t → t.area_id = some 0 ∧
    (∀ c, t.fences.contains c = true ↔ uBoundary W H b c))

/-- A fence-following scan along a straight enumerated line `idx 0, ...,
`idx (n-1)` of same-area tiles all carrying the `c` fence: starting at
`idx i` it marks exactly the pairs at indices `i+1, ..., n-1`. -/
theorem edgeScan_run {g : Grid Tile} (aid : Option ℕ) (c : Cardinal)
    (delta : GridDelta) (idx : ℕ → GridAddress) (n : ℕ)
    (hstep : ∀ k, k + 1 < n → (idx k).checked_add delta = some (idx (k + 1)))
    (hlast : ∀ nb, (idx (n - 1)).checked_add delta = some nb →
      ∀ neighbor, g.get_at nb = some neighbor → ¬ (neighbor.area_id = aid))
    (htile : ∀ k, k < n → ∃ tk, g.get_at (idx k) = some tk ∧ tk.area_id = aid ∧
      tk.fences.contains c = true) :
    ∀ fuel i seen, i < n → n ≤ fuel + i + 1 →
      edgeScan g aid c delta fuel (idx i) seen =
        seen ∪ (Finset.Ico (i + 1) n).image (fun k => (idx k, c)) := by
  intro fuel
  induction fuel with
  | zero =>
    intro i seen hi hf
    have hempty : Finset.Ico (i + 1) n = ∅ := by
      apply Finset.Ico_eq_empty
      omega
    rw [hempty, Finset.image_empty, Finset.union_empty]
    rfl
  | succ f ihf =>
    intro i seen hi hf
    by_cases hin : i + 1 < n
    · have hca := hstep i hin
      obtain ⟨tnext, hgt, haid, hfcc⟩ := htile (i + 1) hin
      unfold edgeScan
      rw [hca]
      dsimp only
      rw [hgt]
      dsimp only
      rw [if_pos haid, if_pos hfcc]
      rw [ihf (i + 1) (insert (idx (i + 1), c) seen) hin (by omega)]
      apply Finset.ext
      intro p
      simp only [Finset.mem_union, Finset.mem_insert, Finset.mem_image,
        Finset.mem_Ico]
      constructor
      · rintro ((hp | hp) | ⟨k, ⟨hk1, hk2⟩, hk3⟩)
        · exact Or.inr ⟨i + 1, ⟨by omega, hin⟩, hp.symm⟩
        · exact Or.inl hp
        · exact Or.inr ⟨k, ⟨by omega, hk2⟩, hk3⟩
      · rintro (hp | ⟨k, ⟨hk1, hk2⟩, hk3⟩)
        · exact Or.inl (Or.inr hp)
        · by_cases hk : k = i + 1
          · subst hk
            exact Or.inl (Or.inl hk3.symm)
          · exact Or.inr ⟨k, ⟨by omega, hk2⟩, hk3⟩
    · have hempty : Finset.Ico (i + 1) n = ∅ := by
        apply Finset.Ico_eq_empty
        omega
      rw [hempty, Finset.image_empty, Finset.union_empty]
      have hi_eq : i = n - 1 := by omega
      rcases hca : (idx i).checked_add delta with _ | nb
      · unfold edgeScan
        rw [hca]
      · unfold edgeScan
        rw [hca]
        dsimp only
        rcases hnb : g.get_at nb with _ | neighbor
        · rfl
        · dsimp only
          rw [if_neg (hlast nb (by rw [← hi_eq]; exact hca) neighbor hnb)]

theorem checked_add_east {x y : ℕ} (hx : x + 1 ≤ usizeMax) (hy : y ≤ usizeMax) :
    (⟨x, y⟩ : GridAddress).checked_add Cardinal.east.toDelta = some ⟨x + 1, y⟩ := by
  rw [checked_add_eq_some_iff]
  dsimp only [Cardinal.toDelta]
  refine ⟨?_, ?_, hx, hy⟩ <;> push_cast <;> omega

theorem checked_add_west {x y : ℕ} (hx1 : 1 ≤ x) (hx : x ≤ usizeMax)
    (hy : y ≤ usizeMax) :
    (⟨x, y⟩ : GridAddress).checked_add Cardinal.west.toDelta = some ⟨x - 1, y⟩ := by
  rw [checked_add_eq_some_iff]
  dsimp only [Cardinal.toDelta]
  refine ⟨?_, ?_, by omega, hy⟩ <;> push_cast <;> omega

theorem checked_add_south {x y : ℕ} (hx : x ≤ usizeMax) (hy : y + 1 ≤ usizeMax) :
    (⟨x, y⟩ : GridAddress).checked_add Cardinal.south.toDelta = some ⟨x, y + 1⟩ := by
  rw [checked_add_eq_some_iff]
  dsimp only [Cardinal.toDelta]
  refine ⟨?_, ?_, hx, hy⟩ <;> push_cast <;> omega

theorem checked_add_north {x y : ℕ} (hy1 : 1 ≤ y) (hx : x ≤ usizeMax)
    (hy : y ≤ usizeMax) :
    (⟨x, y⟩ : GridAddress).checked_add Cardinal.north.toDelta = some ⟨x, y - 1⟩ := by
  rw [checked_add_eq_some_iff]
  dsimp only [Cardinal.toDelta]
  refine ⟨?_, ?_, hx, by omega⟩ <;> push_cast <;> omega

theorem checked_add_west_zero {y : ℕ} :
    (⟨0, y⟩ : GridAddress).checked_add Cardinal.west.toDelta = none := by
  rw [checked_add_eq_none_iff]
  left
  dsimp only [Cardinal.toDelta]
  omega

theorem checked_add_north_zero {x : ℕ} :
    (⟨x, 0⟩ : GridAddress).checked_add Cardinal.north.toDelta = none := by
  rw [checked_add_eq_none_iff]
  right
  right
  left
  dsimp only [Cardinal.toDelta]
  omega

theorem le_usizeMax_of_lt {k n : ℕ} (hn : n ≤ wordCount) (hk : k < n) :
    k ≤ usizeMax := by
  unfold usizeMax
  unfold wordCount at hn
  omega

attribute [irreducible] usizeMax

theorem image_range_reverse {β : Type} [DecidableEq β] (n : ℕ) (f : ℕ → β) :
    (Finset.range n).image (fun k => f (n - 1 - k)) = (Finset.range n).image f := by
  apply Finset.ext
  intro p
  simp only [Finset.mem_image, Finset.mem_range]
  constructor
  · rintro ⟨k, hk, hp⟩
    exact ⟨n - 1 - k, by omega, hp⟩
  · rintro ⟨x, hx, hp⟩
    refine ⟨n - 1 - x, by omega, ?_⟩
    rw [show n - 1 - (n - 1 - x) = x from by omega]
    exact hp

/-- Both fence-following walks from a tile on an enumerated line of
same-area tiles all carrying the `c` fence mark exactly the whole line. -/
theorem edgeScan_line {g : Grid Tile} (aid : Option ℕ) (c : Cardinal)
    (dR dL : GridDelta) (idx : ℕ → GridAddress) (n : ℕ)
    (hstepR : ∀ k, k + 1 < n → (idx k).checked_add dR = some (idx (k + 1)))
    (hstepL : ∀ k, k + 1 < n → (idx (k + 1)).checked_add dL = some (idx k))
    (hlastR : ∀ nb, (idx (n - 1)).checked_add dR = some nb →
      ∀ neighbor, g.get_at nb = some neighbor → ¬ (neighbor.area_id = aid))
    (hfirstL : ∀ nb, (idx 0).checked_add dL = some nb →
      ∀ neighbor, g.get_at nb = some neighbor → ¬ (neighbor.area_id = aid))
    (htile : ∀ k, k < n → ∃ tk, g.get_at (idx k) = some tk ∧ tk.area_id = aid ∧
      tk.fences.contains c = true) :
    ∀ wf i seen, i < n → n ≤ wf →
      edgeScan g aid c dL wf (idx i)
        (edgeScan g aid c dR wf (idx i) (insert (idx i, c) seen)) =
        seen ∪ (Finset.range n).image (fun k => (idx k, c)) := by
  intro wf i seen hi hwf
  rw [edgeScan_run aid c dR idx n hstepR hlastR htile wf i _ hi (by omega)]
  have hdesc := edgeScan_run (g := g) aid c dL
    (fun k => idx (i - k)) (i + 1) ?_ ?_ ?_ wf 0
    (insert (idx i, c) seen ∪ (Finset.Ico (i + 1) n).image (fun k => (idx k, c)))
    (by omega) (by omega)
  · dsimp only at hdesc
    rw [Nat.sub_zero] at hdesc
    rw [hdesc]
    apply Finset.ext
    intro p
    simp only [Finset.mem_union, Finset.mem_insert, Finset.mem_image,
      Finset.mem_Ico, Finset.mem_range]
    constructor
    · rintro (((hp | hp) | ⟨k, ⟨-, hk2⟩, hp⟩) | ⟨k, ⟨hk1, hk2⟩, hp⟩)
      · exact Or.inr ⟨i, hi, hp.symm⟩
      · exact Or.inl hp
      · exact Or.inr ⟨k, hk2, hp⟩
      · exact Or.inr ⟨i - k, by omega, hp⟩
    · rintro (hp | ⟨k, hk, hp⟩)
      · exact Or.inl (Or.inl (Or.inr hp))
      · rcases Nat.lt_trichotomy k i with hki | hki | hki
        · refine Or.inr ⟨i - k, ⟨by omega, by omega⟩, ?_⟩
          rw [show i - (i - k) = k from by omega]
          exact hp
        · subst hki
          exact Or.inl (Or.inl (Or.inl hp.symm))
        · exact Or.inl (Or.inr ⟨k, ⟨by omega, hk⟩, hp⟩)
  · intro k hk
    dsimp only
    have h2 : i - k = (i - (k + 1)) + 1 := by omega
    rw [h2]
    exact hstepL (i - (k + 1)) (by omega)
  · intro nb hnb neighbor hneighbor
    dsimp only at hnb
    rw [show i + 1 - 1 = i from by omega, Nat.sub_self] at hnb
    exact hfirstL nb hnb neighbor hneighbor
  · intro k hk
    exact htile (i - k) (by omega)

/-- Processing one fence pair `(b, c)` of the flooded rectangle marks the
whole side `c`. -/
theorem side_mark {W H : ℕ} {g : Grid Tile} (hu : UniformFlood W H g)
    (hW : 1 ≤ W) (hH : 1 ≤ H) (hWc : W ≤ wordCount) (hHc : H ≤ wordCount)
    {wf : ℕ} (hwfW : W ≤ wf) (hwfH : H ≤ wf)
    (c : Cardinal) (b : GridAddress) (hbx : b.x < W) (hby : b.y < H)
    (hbd : uBoundary W H b c) (seen : Finset (GridAddress × Cardinal)) :
    edgeScan g (some 0) c c.turn_left.toDelta wf b
      (edgeScan g (some 0) c c.turn_right.toDelta wf b (insert (b, c) seen)) =
      seen ∪ sidePairs W H c := by
  have hWm : ∀ k, k < W → k ≤ usizeMax := fun k hk => le_usizeMax_of_lt hWc hk
  have hHm : ∀ k, k < H → k ≤ usizeMax := fun k hk => le_usizeMax_of_lt hHc hk
  have htile_gen : ∀ (p : GridAddress) (c' : Cardinal), p.x < W → p.y < H →
      uBoundary W H p c' → ∃ t, g.get_at p = some t ∧ t.area_id = some 0 ∧
        t.fences.contains c' = true := by
    intro p c' hx hy hpd
    have hsome := (hu.1 p).mpr ⟨hx, hy⟩
    rw [Option.isSome_iff_exists] at hsome
    obtain ⟨t, ht⟩ := hsome
    obtain ⟨haid, hfc⟩ := hu.2 p t ht
    exact ⟨t, ht, haid, (hfc c').mpr hpd⟩
  have hout : ∀ nb : GridAddress, (W ≤ nb.x ∨ H ≤ nb.y) →
      ∀ neighbor : Tile, g.get_at nb = some neighbor →
        ¬ (neighbor.area_id = some 0) := by
    intro nb hor neighbor hnb hcon
    have hs : (g.get_at nb).isSome = true := by
      rw [hnb]
      rfl
    rw [hu.1 nb] at hs
    omega
  cases c
  case north =>
    have hbd' : b.y = 0 := hbd
    have hbeq : (⟨b.x, 0⟩ : GridAddress) = b := GridAddress.ext_xy rfl hbd'.symm
    have hrun := edgeScan_line (g := g) (some 0) Cardinal.north
      Cardinal.north.turn_right.toDelta Cardinal.north.turn_left.toDelta
      (fun k => (⟨k, 0⟩ : GridAddress)) W ?_ ?_ ?_ ?_ ?_ wf b.x seen hbx hwfW
    · dsimp only at hrun
      rw [hbeq] at hrun
      rw [hrun]
      rfl
    · intro k hk
      dsimp only
      exact checked_add_east (hWm (k + 1) hk) (Nat.zero_le _)
    · intro k hk
      dsimp only
      exact checked_add_west (Nat.succ_le_succ (Nat.zero_le k)) (hWm (k + 1) hk)
        (Nat.zero_le _)
    · intro nb hnb neighbor hneighbor
      dsimp only at hnb
      rw [checked_add_eq_some_iff] at hnb
      obtain ⟨h1, -, -, -⟩ := hnb
      dsimp only [Cardinal.turn_right, Cardinal.toDelta] at h1
      exact hout nb (Or.inl (by omega)) neighbor hneighbor
    · intro nb hnb neighbor hneighbor
      dsimp only at hnb
      rw [show (Cardinal.north.turn_left) = Cardinal.west from rfl,
        checked_add_west_zero] at hnb
      cases hnb
    · intro k hk
      dsimp only
      exact htile_gen ⟨k, 0⟩ Cardinal.north hk (show (0:ℕ) < H by omega) rfl
  case east =>
    have hbd' : b.x + 1 = W := hbd
    have hbeq : (⟨W - 1, b.y⟩ : GridAddress) = b :=
      GridAddress.ext_xy (show W - 1 = b.x by omega) rfl
    have hrun := edgeScan_line (g := g) (some 0) Cardinal.east
      Cardinal.east.turn_right.toDelta Cardinal.east.turn_left.toDelta
      (fun k => (⟨W - 1, k⟩ : GridAddress)) H ?_ ?_ ?_ ?_ ?_ wf b.y seen hby hwfH
    · dsimp only at hrun
      rw [hbeq] at hrun
      rw [hrun]
      rfl
    · intro k hk
      dsimp only
      exact checked_add_south (hWm (W - 1) (by omega)) (hHm (k + 1) hk)
    · intro k hk
      dsimp only
      exact checked_add_north (Nat.succ_le_succ (Nat.zero_le k))
        (hWm (W - 1) (by omega)) (hHm (k + 1) hk)
    · intro nb hnb neighbor hneighbor
      dsimp only at hnb
      rw [checked_add_eq_some_iff] at hnb
      obtain ⟨-, h2, -, -⟩ := hnb
      dsimp only [Cardinal.turn_right, Cardinal.toDelta] at h2
      exact hout nb (Or.inr (by omega)) neighbor hneighbor
    · intro nb hnb neighbor hneighbor
      dsimp only at hnb
      rw [show (Cardinal.east.turn_left) = Cardinal.north from rfl,
        checked_add_north_zero] at hnb
      cases hnb
    · intro k hk
      dsimp only
      refine htile_gen ⟨W - 1, k⟩ Cardinal.east (show W - 1 < W by omega) hk ?_
      show W - 1 + 1 = W
      omega
  case south =>
    have hbd' : b.y + 1 = H := hbd
    have hbeq : (⟨b.x, H - 1⟩ : GridAddress) = b :=
      GridAddress.ext_xy rfl (show H - 1 = b.y by omega)
    have hidx : W - 1 - (W - 1 - b.x) = b.x := by omega
    have hrun := edgeScan_line (g := g) (some 0) Cardinal.south
      Cardinal.south.turn_right.toDelta Cardinal.south.turn_left.toDelta
      (fun k => (⟨W - 1 - k, H - 1⟩ : GridAddress)) W ?_ ?_ ?_ ?_ ?_ wf
      (W - 1 - b.x) seen (by omega) hwfW
    · dsimp only at hrun
      rw [hidx, hbeq] at hrun
      rw [hrun]
      rw [image_range_reverse W
        (fun x => ((⟨x, H - 1⟩ : GridAddress), Cardinal.south))]
      rfl
    · intro k hk
      dsimp only
      refine checked_add_west ?_ ?_ ?_
      · omega
      · apply hWm
        omega
      · apply hHm
        omega
    · intro k hk
      dsimp only
      rw [show (W - 1 - k : ℕ) = W - 1 - (k + 1) + 1 from by omega]
      refine checked_add_east ?_ ?_
      · apply hWm
        omega
      · apply hHm
        omega
    · intro nb hnb neighbor hneighbor
      dsimp only at hnb
      rw [Nat.sub_self] at hnb
      rw [show (Cardinal.south.turn_right) = Cardinal.west from rfl,
        checked_add_west_zero] at hnb
      cases hnb
    · intro nb hnb neighbor hneighbor
      dsimp only at hnb
      rw [Nat.sub_zero] at hnb
      rw [checked_add_eq_some_iff] at hnb
      obtain ⟨h1, -, -, -⟩ := hnb
      dsimp only [Cardinal.turn_left, Cardinal.toDelta] at h1
      exact hout nb (Or.inl (by omega)) neighbor hneighbor
    · intro k hk
      dsimp only
      refine htile_gen ⟨W - 1 - k, H - 1⟩ Cardinal.south (show W - 1 - k < W by omega) (show H - 1 < H by omega) ?_
      show H - 1 + 1 = H
      omega
  case west =>
    have hbd' : b.x = 0 := hbd
    have hbeq : (⟨0, b.y⟩ : GridAddress) = b :=
      GridAddress.ext_xy hbd'.symm rfl
    have hidx : H - 1 - (H - 1 - b.y) = b.y := by omega
    have hrun := edgeScan_line (g := g) (some 0) Cardinal.west
      Cardinal.west.turn_right.toDelta Cardinal.west.turn_left.toDelta
      (fun k => (⟨0, H - 1 - k⟩ : GridAddress)) H ?_ ?_ ?_ ?_ ?_ wf
      (H - 1 - b.y) seen (by omega) hwfH
    · dsimp only at hrun
      rw [hidx, hbeq] at hrun
      rw [hrun]
      rw [image_range_reverse H
        (fun y => ((⟨0, y⟩ : GridAddress), Cardinal.west))]
      rfl
    · intro k hk
      dsimp only
      refine checked_add_north ?_ (Nat.zero_le _) ?_
      · omega
      · apply hHm
        omega
    · intro k hk
      dsimp only
      rw [show (H - 1 - k : ℕ) = H - 1 - (k + 1) + 1 from by omega]
      refine checked_add_south (Nat.zero_le _) ?_
      apply hHm
      omega
    · intro nb hnb neighbor hneighbor
      dsimp only at hnb
      rw [Nat.sub_self] at hnb
      rw [show (Cardinal.west.turn_right) = Cardinal.north from rfl,
        checked_add_north_zero] at hnb
      cases hnb
    · intro nb hnb neighbor hneighbor
      dsimp only at hnb
      rw [Nat.sub_zero] at hnb
      rw [checked_add_eq_some_iff] at hnb
      obtain ⟨-, h2, -, -⟩ := hnb
      dsimp only [Cardinal.turn_left, Cardinal.toDelta] at h2
      exact hout nb (Or.inr (by omega)) neighbor hneighbor
    · intro k hk
      dsimp only
      exact htile_gen ⟨0, H - 1 - k⟩ Cardinal.west (show (0:ℕ) < W by omega) (show H - 1 - k < H by omega) rfl

/-- The cardinal loop of `count_edges` on the flooded rectangle: starting
from a set of wholly-marked sides, it counts each newly seen side of the
tile once and marks it wholly. -/
theorem uniformCards_spec {W H : ℕ} {g : Grid Tile} (hu : UniformFlood W H g)
    (hW : 1 ≤ W) (hH : 1 ≤ H) (hWc : W ≤ wordCount) (hHc : H ≤ wordCount)
    {wf : ℕ} (hwfW : W ≤ wf) (hwfH : H ≤ wf)
    (addr : GridAddress) (t : Tile) (hat : g.get_at addr = some t)
    (hax : addr.x < W) (hay : addr.y < H) :
    ∀ (cs : List Cardinal) (S : Finset Cardinal) (cnt : ℕ),
      ∃ T : Finset Cardinal,
        countEdgesCards g wf addr t cs (S.biUnion (sidePairs W H)) cnt =
          (T.biUnion (sidePairs W H), cnt + (T.card - S.card)) ∧
        S ⊆ T ∧ (∀ c ∈ cs, uBoundary W H addr c → c ∈ T) := by
  obtain ⟨haid, hfences⟩ := hu.2 addr t hat
  intro cs
  induction cs with
  | nil =>
    intro S cnt
    refine ⟨S, ?_, Finset.Subset.refl S, fun c hc => absurd hc (List.not_mem_nil c)⟩
    unfold countEdgesCards
    rw [Nat.sub_self, Nat.add_zero]
  | cons c rest ih =>
    intro S cnt
    by_cases hcond : t.fences.contains c = true ∧
        (addr, c) ∉ S.biUnion (sidePairs W H)
    · have hbd : uBoundary W H addr c := (hfences c).mp hcond.1
      have hcnotS : c ∉ S := by
        intro hcS
        apply hcond.2
        rw [Finset.mem_biUnion]
        exact ⟨c, hcS, (mem_sidePairs hW hH (addr, c) c).mpr ⟨hax, hay, hbd, rfl⟩⟩
      unfold countEdgesCards
      rw [if_pos hcond]
      dsimp only
      rw [haid]
      rw [side_mark hu hW hH hWc hHc hwfW hwfH c addr hax hay hbd]
      rw [Finset.union_comm, ← Finset.biUnion_insert]
      obtain ⟨T, heq, hsub, hcov⟩ := ih (insert c S) (cnt + 1)
      have hcins : (insert c S).card = S.card + 1 :=
        Finset.card_insert_of_not_mem hcnotS
      have hcle : (insert c S).card ≤ T.card := Finset.card_le_card hsub
      refine ⟨T, ?_, (Finset.subset_insert c S).trans hsub, ?_⟩
      · rw [heq, Prod.mk.injEq]
        exact ⟨rfl, by omega⟩
      · intro c' hc' hbd'
        rcases List.mem_cons.mp hc' with hcc | hcr
        · subst hcc
          exact hsub (Finset.mem_insert_self c' S)
        · exact hcov c' hcr hbd'
    · unfold countEdgesCards
      rw [if_neg hcond]
      obtain ⟨T, heq, hsub, hcov⟩ := ih S cnt
      refine ⟨T, heq, hsub, ?_⟩
      intro c' hc' hbd'
      rcases List.mem_cons.mp hc' with hcc | hcr
      · subst hcc
        have hcontains : t.fences.contains c' = true := (hfences c').mpr hbd'
        have hmem : (addr, c') ∈ S.biUnion (sidePairs W H) := by
          by_contra hnm
          exact hcond ⟨hcontains, hnm⟩
        rw [Finset.mem_biUnion] at hmem
        obtain ⟨c'', hc''S, hmemp⟩ := hmem
        rw [mem_sidePairs hW hH] at hmemp
        have hcc' : c'' = c' := hmemp.2.2.2.symm
        subst hcc'
        exact hsub hc''S
      · exact hcov c' hcr hbd'

/-- The address loop of `count_edges` on the flooded rectangle. -/
theorem uniformAddrs_spec {W H : ℕ} {g : Grid Tile} (hu : UniformFlood W H g)
    (hW : 1 ≤ W) (hH : 1 ≤ H) (hWc : W ≤ wordCount) (hHc : H ≤ wordCount)
    {wf : ℕ} (hwfW : W ≤ wf) (hwfH : H ≤ wf) :
    ∀ (A : List GridAddress) (S : Finset Cardinal) (cnt : ℕ),
      (∀ b ∈ A, b.x < W ∧ b.y < H) →
      ∃ T : Finset Cardinal,
        countEdgesAddrs g wf A (S.biUnion (sidePairs W H)) cnt =
          (T.biUnion (sidePairs W H), cnt + (T.card - S.card)) ∧
        S ⊆ T ∧ (∀ b ∈ A, ∀ c, uBoundary W H b c → c ∈ T) := by
  intro A
  induction A with
  | nil =>
    intro S cnt hbounds
    refine ⟨S, ?_, Finset.Subset.refl S, fun b hb => absurd hb (List.not_mem_nil b)⟩
    unfold countEdgesAddrs
    rw [Nat.sub_self, Nat.add_zero]
  | cons addr rest ih =>
    intro S cnt hbounds
    obtain ⟨hax, hay⟩ := hbounds addr (List.mem_cons_self addr rest)
    have hsome := (hu.1 addr).mpr ⟨hax, hay⟩
    rw [Option.isSome_iff_exists] at hsome
    obtain ⟨t, hat⟩ := hsome
    unfold countEdgesAddrs
    rw [hat]
    dsimp only
    obtain ⟨T1, heq1, hsub1, hcov1⟩ :=
      uniformCards_spec hu hW hH hWc hHc hwfW hwfH addr t hat hax hay
        Cardinal.all S cnt
    rw [heq1]
    dsimp only
    obtain ⟨T, heq2, hsub2, hcov2⟩ := ih T1 (cnt + (T1.card - S.card))
      (fun b hb => hbounds b (List.mem_cons_of_mem addr hb))
    have hc1 : S.card ≤ T1.card := Finset.card_le_card hsub1
    have hc2 : T1.card ≤ T.card := Finset.card_le_card hsub2
    refine ⟨T, ?_, hsub1.trans hsub2, ?_⟩
    · rw [heq2, Prod.mk.injEq]
      exact ⟨rfl, by omega⟩
    · intro b hb c hbd
      rcases List.mem_cons.mp hb with hcc | hcr
      · subst hcc
        exact hsub2 (hcov1 c (cardinal_mem_all c) hbd)
      · exact hcov2 b hcr c hbd

theorem uniformGrid_isSome_iff (ch : Char) (W H : ℕ) (b : GridAddress) :
    ((uniformGrid ch W H).get_at b).isSome = true ↔ (b.x < W ∧ b.y < H) := by
  rw [uniformGrid_get_at]
  by_cases h : b.x < W ∧ b.y < H
  · rw [if_pos h]
    exact ⟨fun _ => h, fun _ => rfl⟩
  · rw [if_neg h]
    exact ⟨fun hcon => absurd hcon (by decide), fun hcon => absurd hcon h⟩

theorem totalTiles_uniform (ch : Char) (W H : ℕ) :
    totalTiles (uniformGrid ch W H) = H * W := by
  unfold totalTiles uniformGrid
  dsimp only
  rw [List.map_replicate, List.length_replicate, List.sum_replicate, smul_eq_mul]

/-- Every in-range tile of the uniform rectangle is reachable from the
origin through same-letter adjacency. -/
theorem uniform_reach (ch : Char) (W H : ℕ) (hWc : W ≤ wordCount)
    (hHc : H ≤ wordCount) :
    ∀ x y, x < W → y < H →
      ReachableVia (letterAdj (fun p => (uniformGrid ch W H).get_at p))
        ⟨0, 0⟩ ⟨x, y⟩ := by
  have hWm : ∀ k, k < W → k ≤ usizeMax := fun k hk => le_usizeMax_of_lt hWc hk
  have hHm : ∀ k, k < H → k ≤ usizeMax := fun k hk => le_usizeMax_of_lt hHc hk
  have hL : ∀ b : GridAddress, b.x < W → b.y < H →
      (uniformGrid ch W H).get_at b = some ch := by
    intro b hx hy
    rw [uniformGrid_get_at, if_pos ⟨hx, hy⟩]
  intro x y hx hy
  induction y with
  | zero =>
    induction x with
    | zero => exact ReachableVia.refl
    | succ x0 ihx =>
      refine ReachableVia.step (ihx (by omega)) ?_
      rw [mem_letterAdj_iff]
      refine ⟨⟨Cardinal.east, checked_add_east (hWm (x0 + 1) hx) (Nat.zero_le _)⟩,
        ?_, ?_⟩
      · rw [hL ⟨x0 + 1, 0⟩ hx hy]
        rfl
      · rw [hL ⟨x0 + 1, 0⟩ hx hy, hL ⟨x0, 0⟩ (show x0 < W by omega) hy]
  | succ y0 ihy =>
    refine ReachableVia.step (ihy (by omega)) ?_
    rw [mem_letterAdj_iff]
    refine ⟨⟨Cardinal.south, checked_add_south (hWm x hx) (hHm (y0 + 1) hy)⟩,
      ?_, ?_⟩
    · rw [hL ⟨x, y0 + 1⟩ hx hy]
      rfl
    · rw [hL ⟨x, y0 + 1⟩ hx hy, hL ⟨x, y0⟩ hx (show y0 < H by omega)]

theorem fenceCond_of_none {L : GridAddress → Option Char} {b : GridAddress}
    {c : Cardinal} (hca : b.checked_add c.toDelta = none) : FenceCond L b c := by
  unfold FenceCond
  rw [hca]
  trivial

theorem fenceCond_iff_of_some {L : GridAddress → Option Char} {b nb : GridAddress}
    {c : Cardinal} (hca : b.checked_add c.toDelta = some nb) :
    FenceCond L b c ↔ L nb ≠ L b := by
  unfold FenceCond
  rw [hca]

/-- On the uniform rectangle the flood's fence condition holds exactly at
the rectangle's sides. -/
theorem uniform_fenceCond (ch : Char) (W H : ℕ) (hWc : W ≤ wordCount)
    (hHc : H ≤ wordCount) (b : GridAddress) (hx : b.x < W) (hy : b.y < H)
    (c : Cardinal) :
    FenceCond (fun p => (uniformGrid ch W H).get_at p) b c ↔
      uBoundary W H b c := by
  have hWm : ∀ k, k < W → k ≤ usizeMax := fun k hk => le_usizeMax_of_lt hWc hk
  have hHm : ∀ k, k < H → k ≤ usizeMax := fun k hk => le_usizeMax_of_lt hHc hk
  have hL : ∀ p : GridAddress, p.x < W → p.y < H →
      (uniformGrid ch W H).get_at p = some ch := by
    intro p hpx hpy
    rw [uniformGrid_get_at, if_pos ⟨hpx, hpy⟩]
  have hb : (⟨b.x, b.y⟩ : GridAddress) = b := GridAddress.ext_xy rfl rfl
  cases c
  case north =>
    by_cases h0 : b.y = 0
    · have hca : b.checked_add Cardinal.north.toDelta = none := by
        rw [← hb, h0]
        exact checked_add_north_zero
      exact iff_of_true (fenceCond_of_none hca) h0
    · have hca : b.checked_add Cardinal.north.toDelta = some ⟨b.x, b.y - 1⟩ := by
        rw [← hb]
        exact checked_add_north (by omega) (hWm b.x hx) (hHm b.y hy)
      have hfc : ¬ FenceCond (fun p => (uniformGrid ch W H).get_at p) b
          Cardinal.north := by
        intro hcon
        apply (fenceCond_iff_of_some hca).mp hcon
        rw [hL ⟨b.x, b.y - 1⟩ hx (show b.y - 1 < H by omega), hL b hx hy]
      exact iff_of_false hfc h0
  case east =>
    by_cases h0 : b.x + 1 = W
    · rcases hca : b.checked_add Cardinal.east.toDelta with _ | nb
      · exact iff_of_true (fenceCond_of_none hca) h0
      · have hnb : (nb.x : ℤ) = (b.x : ℤ) + 1 := by
          have hc2 := hca
          rw [checked_add_eq_some_iff] at hc2
          obtain ⟨h1, -, -, -⟩ := hc2
          dsimp only [Cardinal.toDelta] at h1
          exact h1
        refine iff_of_true ((fenceCond_iff_of_some hca).mpr ?_) h0
        have hnone : (uniformGrid ch W H).get_at nb = none := by
          rw [uniformGrid_get_at, if_neg]
          rintro ⟨hc1, -⟩
          omega
        show (uniformGrid ch W H).get_at nb ≠ (uniformGrid ch W H).get_at b
        rw [hnone, hL b hx hy]
        intro hcon
        cases hcon
    · have hca : b.checked_add Cardinal.east.toDelta = some ⟨b.x + 1, b.y⟩ := by
        rw [← hb]
        exact checked_add_east (hWm (b.x + 1) (by omega)) (hHm b.y hy)
      have hfc : ¬ FenceCond (fun p => (uniformGrid ch W H).get_at p) b
          Cardinal.east := by
        intro hcon
        apply (fenceCond_iff_of_some hca).mp hcon
        rw [hL ⟨b.x + 1, b.y⟩ (show b.x + 1 < W by omega) hy, hL b hx hy]
      exact iff_of_false hfc h0
  case south =>
    by_cases h0 : b.y + 1 = H
    · rcases hca : b.checked_add Cardinal.south.toDelta with _ | nb
      · exact iff_of_true (fenceCond_of_none hca) h0
      · have hnb : (nb.y : ℤ) = (b.y : ℤ) + 1 := by
          have hc2 := hca
          rw [checked_add_eq_some_iff] at hc2
          obtain ⟨-, h2, -, -⟩ := hc2
          dsimp only [Cardinal.toDelta] at h2
          exact h2
        refine iff_of_true ((fenceCond_iff_of_some hca).mpr ?_) h0
        have hnone : (uniformGrid ch W H).get_at nb = none := by
          rw [uniformGrid_get_at, if_neg]
          rintro ⟨-, hc2⟩
          omega
        show (uniformGrid ch W H).get_at nb ≠ (uniformGrid ch W H).get_at b
        rw [hnone, hL b hx hy]
        intro hcon
        cases hcon
    · have hca : b.checked_add Cardinal.south.toDelta = some ⟨b.x, b.y + 1⟩ := by
        rw [← hb]
        exact checked_add_south (hWm b.x hx) (hHm (b.y + 1) (by omega))
      have hfc : ¬ FenceCond (fun p => (uniformGrid ch W H).get_at p) b
          Cardinal.south := by
        intro hcon
        apply (fenceCond_iff_of_some hca).mp hcon
        rw [hL ⟨b.x, b.y + 1⟩ hx (show b.y + 1 < H by omega), hL b hx hy]
      exact iff_of_false hfc h0
  case west =>
    by_cases h0 : b.x = 0
    · have hca : b.checked_add Cardinal.west.toDelta = none := by
        rw [← hb, h0]
        exact checked_add_west_zero
      exact iff_of_true (fenceCond_of_none hca) h0
    · have hca : b.checked_add Cardinal.west.toDelta = some ⟨b.x - 1, b.y⟩ := by
        rw [← hb]
        exact checked_add_west (by omega) (hWm b.x hx) (hHm b.y hy)
      have hfc : ¬ FenceCond (fun p => (uniformGrid ch W H).get_at p) b
          Cardinal.west := by
        intro hcon
        apply (fenceCond_iff_of_some hca).mp hcon
        rw [hL ⟨b.x - 1, b.y⟩ (show b.x - 1 < W by omega) hy, hL b hx hy]
      exact iff_of_false hfc h0

/-- Flooding the uniform rectangle yields a single area (id 0) covering the
whole grid, with fences exactly on the rectangle's sides. -/
theorem uniform_flood_result (ch : Char) (W H : ℕ) (hW : 1 ≤ W) (hH : 1 ≤ H)
    (hWc : W ≤ wordCount) (hHc : H ≤ wordCount) :
    ∃ fs, flood (initTiles (uniformGrid ch W H)) = some fs ∧
      UniformFlood W H fs.grid ∧ fs.areas.length = 1 ∧
      ∃ ar, fs.areas.get? 0 = some ar ∧
        (∀ b, b ∈ ar.addresses ↔ (b.x < W ∧ b.y < H)) ∧
        (∀ b, (fs.grid.get_at b).isSome =
          ((uniformGrid ch W H).get_at b).isSome) := by
  have hrect := uniformGrid_rect ch W H hH
  have hdims := uniformGrid_dims ch W H hH
  obtain ⟨fs, hfs, hinv, htotal, hshape⟩ := flood_full (uniformGrid ch W H) hrect
    (by rw [hdims.1]; exact hWc) (by rw [hdims.2]; exact hHc)
  have hig : ∀ b : GridAddress, (fs.grid.get_at b).isSome = true ↔
      (b.x < W ∧ b.y < H) := by
    intro b
    rw [hshape b, uniformGrid_isSome_iff]
  have h00 : areaIdAt fs.grid ⟨0, 0⟩ ≠ none :=
    htotal ⟨0, 0⟩ ((uniformGrid_isSome_iff ch W H ⟨0, 0⟩).mpr ⟨hW, hH⟩)
  rcases h00v : areaIdAt fs.grid ⟨0, 0⟩ with _ | id00
  · exact absurd h00v h00
  have hall : ∀ b : GridAddress, b.x < W → b.y < H →
      areaIdAt fs.grid b = some id00 := by
    intro b hx hy
    have hreach := uniform_reach ch W H hWc hHc b.x b.y hx hy
    have hbeq : (⟨b.x, b.y⟩ : GridAddress) = b := GridAddress.ext_xy rfl rfl
    rw [hbeq] at hreach
    exact loopInv_reach_id hinv h00v hreach
  have hlt := hinv.range ⟨0, 0⟩ id00 h00v
  have hjeq : ∀ j, j < fs.areas.length → j = id00 := by
    intro j hj
    obtain ⟨rt, hrt, -, -⟩ := hinv.roots j hj
    have hrtig : rt.x < W ∧ rt.y < H := by
      obtain ⟨t, hgt, -⟩ := get_at_of_areaIdAt_some hrt
      exact (hig rt).mp (by rw [hgt]; rfl)
    have hrt0 := hall rt hrtig.1 hrtig.2
    rw [hrt] at hrt0
    cases hrt0
    rfl
  have hlen : fs.areas.length = 1 := by
    by_contra hne
    have e0 := hjeq 0 (by omega)
    have e1 := hjeq 1 (by omega)
    omega
  have hid00 : id00 = 0 := by omega
  subst hid00
  rcases hga : fs.areas.get? 0 with _ | ar
  · rw [List.get?_eq_none] at hga
    omega
  obtain ⟨hnd, hmemiff, hlet⟩ := hinv.areas 0 ar hga
  have huf : UniformFlood W H fs.grid := by
    refine ⟨hig, ?_⟩
    intro b t hbt
    have hbig : b.x < W ∧ b.y < H := (hig b).mp (by rw [hbt]; rfl)
    have hbid : areaIdAt fs.grid b = some 0 := hall b hbig.1 hbig.2
    have htid : t.area_id = some 0 := by
      unfold areaIdAt at hbid
      rw [hbt, Option.some_bind] at hbid
      exact hbid
    refine ⟨htid, ?_⟩
    intro c
    have hfb : fenceB fs.grid b c = t.fences.contains c := by
      unfold fenceB
      rw [hbt]
      rfl
    rw [← hfb, hinv.fences b c]
    constructor
    · rintro ⟨-, hfc⟩
      exact (uniform_fenceCond ch W H hWc hHc b hbig.1 hbig.2 c).mp hfc
    · intro hbd
      refine ⟨?_, (uniform_fenceCond ch W H hWc hHc b hbig.1 hbig.2 c).mpr hbd⟩
      rw [hbid]
      intro hcon
      cases hcon
  refine ⟨fs, hfs, huf, hlen, ar, hga, ?_, hshape⟩
  intro b
  rw [hmemiff b]
  constructor
  · intro hbid
    obtain ⟨t, hgt, -⟩ := get_at_of_areaIdAt_some hbid
    exact (hig b).mp (by rw [hgt]; rfl)
  · rintro ⟨hx, hy⟩
    exact hall b hx hy

/-- Part A of the single-tile claim: on a rectangular grid, a tile whose
four cardinal neighbors are all off-grid or of a different letter ends up
alone in its area, with all 4 fences, and `count_edges` returns 4. -/
theorem isolated_tile_four (g : Grid Char)
    (hrect : ∀ r ∈ g.rows, r.length = g.width)
    (hfitW : g.width ≤ wordCount) (hfitH : g.height ≤ wordCount)
    (a : GridAddress) (la : Char) (hla : g.get_at a = some la)
    (hiso : ∀ (c : Cardinal) (nb : GridAddress),
      a.checked_add c.toDelta = some nb → ¬ g.get_at nb = some la) :
    ∃ fs, flood (initTiles g) = some fs ∧
      ∃ t id, fs.grid.get_at a = some t ∧ t.area_id = some id ∧
        t.fences.len = 4 ∧
        ∃ ar, fs.areas.get? id = some ar ∧ ar.addresses = [a] ∧
          count_edges fs.grid ar = 4 := by
  obtain ⟨fs, hfs, hinv, htotal, hshape⟩ := flood_full g hrect hfitW hfitH
  have hbound := rect_bound g hrect hfitW hfitH
  have hLa : (fun p => g.get_at p) a = some la := hla
  have haspec : areaIdAt fs.grid a ≠ none := htotal a (by rw [hla]; rfl)
  rcases haid : areaIdAt fs.grid a with _ | id
  · exact absurd haid haspec
  obtain ⟨t, hat, htid⟩ := get_at_of_areaIdAt_some haid
  have hreach_eq : ∀ q, ReachableVia (letterAdj (fun p => g.get_at p)) a q →
      q = a := by
    intro q hq
    induction hq with
    | refl => rfl
    | step hb hc ih =>
      rw [ih] at hc
      rw [mem_letterAdj_iff] at hc
      obtain ⟨⟨c, hca⟩, -, heq⟩ := hc
      rw [hla] at heq
      exact absurd heq (hiso c _ hca)
  have hclass : ∀ b, areaIdAt fs.grid b = some id ↔ b = a := by
    intro b
    constructor
    · intro hb
      obtain ⟨rt, hrt, hrtsome, hreach⟩ := hinv.roots id (hinv.range a id haid)
      have h1 := hreach a haid
      have h2 := hreach b hb
      have h3 := reachableVia_letterAdj_symm hbound hrtsome h1
      exact hreach_eq b (ReachableVia.transVia h3 h2)
    · intro hb
      rw [hb]
      exact haid
  have hFC : ∀ c : Cardinal, FenceCond (fun p => g.get_at p) a c := by
    intro c
    rcases hca : a.checked_add c.toDelta with _ | nb
    · exact fenceCond_of_none hca
    · refine (fenceCond_iff_of_some hca).mpr ?_
      intro hcon
      apply hiso c nb hca
      rw [hla] at hcon
      exact hcon
  have hcont : ∀ c, t.fences.contains c = true := by
    intro c
    have hfb : fenceB fs.grid a c = t.fences.contains c := by
      unfold fenceB
      rw [hat]
      rfl
    rw [← hfb, hinv.fences a c]
    exact ⟨haspec, hFC c⟩
  have hstuck : ∀ (cq : Cardinal) (nb : GridAddress),
      a.checked_add cq.toDelta = some nb →
      ∀ neighbor, fs.grid.get_at nb = some neighbor →
        ¬ (neighbor.area_id = t.area_id) := by
    intro cq nb hca neighbor hnb hcon
    rw [htid] at hcon
    have hnbid : areaIdAt fs.grid nb = some id :=
      areaIdAt_ne_none_of_some hnb id hcon
    exact checked_add_cardinal_ne hca ((hclass nb).mp hnbid)
  rcases hga : fs.areas.get? id with _ | ar
  · rw [List.get?_eq_none] at hga
    exact absurd (hinv.range a id haid) (by omega)
  obtain ⟨hnd, hmemiff, -⟩ := hinv.areas id ar hga
  have har : ar.addresses = [a] := by
    refine list_eq_singleton_of_nodup hnd ?_
    intro x
    rw [hmemiff x, hclass x]
  exact ⟨fs, hfs, t, id, hat, htid, CardinalSet.len_four hcont, ar, hga, har,
    count_edges_singleton har hat hstuck hcont⟩

/-- Part B of the claim: flooding the full uniform W x H rectangle gives a
single region and `count_edges` returns 4 on it, whatever W and H. -/
theorem uniform_rect_four (ch : Char) (W H : ℕ) (hW : 1 ≤ W) (hH : 1 ≤ H)
    (hWc : W ≤ wordCount) (hHc : H ≤ wordCount) :
    ∃ fs, flood (initTiles (uniformGrid ch W H)) = some fs ∧
      fs.areas.length = 1 ∧
      ∃ ar, fs.areas.get? 0 = some ar ∧
        (∀ b, b ∈ ar.addresses ↔ (b.x < W ∧ b.y < H)) ∧
        count_edges fs.grid ar = 4 := by
  obtain ⟨fs, hfs, huf, hlen, ar, hga, hmem, hshape⟩ :=
    uniform_flood_result ch W H hW hH hWc hHc
  have hig := huf.1
  have hWwf : W ≤ totalTiles fs.grid + 1 := by
    have hle : W ≤ (gridAddrFinset fs.grid).card := by
      have hcard := Finset.card_le_card_of_injOn
        (fun x => (⟨x, 0⟩ : GridAddress))
        (fun x hx => by
          rw [mem_gridAddrFinset]
          exact (hig ⟨x, 0⟩).mpr ⟨Finset.mem_range.mp hx, hH⟩)
        (fun x1 h1 x2 h2 hxeq => congrArg GridAddress.x hxeq)
      rw [Finset.card_range] at hcard
      exact hcard
    rw [card_gridAddrFinset] at hle
    omega
  have hHwf : H ≤ totalTiles fs.grid + 1 := by
    have hle : H ≤ (gridAddrFinset fs.grid).card := by
      have hcard := Finset.card_le_card_of_injOn
        (fun y => (⟨0, y⟩ : GridAddress))
        (fun y hy => by
          rw [mem_gridAddrFinset]
          exact (hig ⟨0, y⟩).mpr ⟨hW, Finset.mem_range.mp hy⟩)
        (fun y1 h1 y2 h2 hyeq => congrArg GridAddress.y hyeq)
      rw [Finset.card_range] at hcard
      exact hcard
    rw [card_gridAddrFinset] at hle
    omega
  have hbounds : ∀ b ∈ ar.addresses, b.x < W ∧ b.y < H :=
    fun b hb => (hmem b).mp hb
  obtain ⟨T, heq, hsub, hcov⟩ := uniformAddrs_spec huf hW hH hWc hHc hWwf hHwf
    ar.addresses ∅ 0 hbounds
  refine ⟨fs, hfs, hlen, ar, hga, hmem, ?_⟩
  unfold count_edges
  rw [show (∅ : Finset (GridAddress × Cardinal)) =
    (∅ : Finset Cardinal).biUnion (sidePairs W H) from by
      rw [Finset.biUnion_empty]]
  rw [heq]
  show 0 + (T.card - Finset.card ∅) = 4
  rw [Finset.card_empty]
  have h00 : (⟨0, 0⟩ : GridAddress) ∈ ar.addresses :=
    (hmem ⟨0, 0⟩).mpr ⟨hW, hH⟩
  have hWH : (⟨W - 1, H - 1⟩ : GridAddress) ∈ ar.addresses :=
    (hmem ⟨W - 1, H - 1⟩).mpr ⟨show W - 1 < W by omega, show H - 1 < H by omega⟩
  have hTeq : T = ({Cardinal.north, Cardinal.east, Cardinal.south,
      Cardinal.west} : Finset Cardinal) := by
    apply Finset.ext
    intro c
    constructor
    · intro hc
      cases c <;> decide
    · intro hc
      cases c
      case north => exact hcov ⟨0, 0⟩ h00 Cardinal.north rfl
      case east =>
        exact hcov ⟨W - 1, H - 1⟩ hWH Cardinal.east (show W - 1 + 1 = W by omega)
      case south =>
        exact hcov ⟨W - 1, H - 1⟩ hWH Cardinal.south (show H - 1 + 1 = H by omega)
      case west => exact hcov ⟨0, 0⟩ h00 Cardinal.west rfl
  rw [hTeq]
  rw [show ({Cardinal.north, Cardinal.east, Cardinal.south,
    Cardinal.west} : Finset Cardinal).card = 4 from by decide]

/-- C4: after flooding, a region consisting of a single tile whose four
cardinal neighbors are all off-grid or of a different letter has exactly 4
fences and `count_edges` returns exactly 4 for it (part A, for rectangular
grids within usize capacity); and the full uniform axis-aligned W x H
rectangle, W >= 1, H >= 1, floods to a single region on which `count_edges`
returns exactly 4 regardless of W and H (part B). -/
theorem count_edges_four :
    (∀ (g : Grid Char), (∀ r ∈ g.rows, r.length = g.width) →
      g.width ≤ wordCount → g.height ≤ wordCount →
      ∀ (a : GridAddress) (la : Char), g.get_at a = some la →
      (∀ (c : Cardinal) (nb : GridAddress),
        a.checked_add c.toDelta = some nb → ¬ g.get_at nb = some la) →
      ∃ fs, flood (initTiles g) = some fs ∧
        ∃ t id, fs.grid.get_at a = some t ∧ t.area_id = some id ∧
          t.fences.len = 4 ∧
          ∃ ar, fs.areas.get? id = some ar ∧ ar.addresses = [a] ∧
            count_edges fs.grid ar = 4) ∧
    (∀ (ch : Char) (W H : ℕ), 1 ≤ W → 1 ≤ H →
      W ≤ wordCount → H ≤ wordCount →
      ∃ fs, flood (initTiles (uniformGrid ch W H)) = some fs ∧
        fs.areas.length = 1 ∧
        ∃ ar, fs.areas.get? 0 = some ar ∧
          (∀ b, b ∈ ar.addresses ↔ (b.x < W ∧ b.y < H)) ∧
          count_edges fs.grid ar = 4) :=
  ⟨fun g hrect hfW hfH a la hla hiso =>
      isolated_tile_four g hrect hfW hfH a la hla hiso,
    fun ch W H hW hH hWc hHc => uniform_rect_four ch W H hW hH hWc hHc⟩

/-- Witness for C4: the 1 x 1 grid [[A]] with its single isolated tile, and
the uniform 2 x 3 rectangle. -/
theorem count_edges_four_witness :
    (∃ fs, flood (initTiles (⟨[['A']]⟩ : Grid Char)) = some fs ∧
      ∃ t id, fs.grid.get_at ⟨0, 0⟩ = some t ∧ t.area_id = some id ∧
        t.fences.len = 4 ∧
        ∃ ar, fs.areas.get? id = some ar ∧ ar.addresses = [⟨0, 0⟩] ∧
          count_edges fs.grid ar = 4) ∧
    (∃ fs, flood (initTiles (uniformGrid 'A' 2 3)) = some fs ∧
      fs.areas.length = 1 ∧
      ∃ ar, fs.areas.get? 0 = some ar ∧
        (∀ b, b ∈ ar.addresses ↔ (b.x < 2 ∧ b.y < 3)) ∧
        count_edges fs.grid ar = 4) := by
  constructor
  · refine count_edges_four.1 ⟨[['A']]⟩ (by decide) (by decide) (by decide)
      ⟨0, 0⟩ 'A' (by decide) ?_
    intro c nb hca
    cases c
    case north =>
      rw [show (⟨0, 0⟩ : GridAddress).checked_add Cardinal.north.toDelta = none
        from by decide] at hca
      cases hca
    case east =>
      rw [show (⟨0, 0⟩ : GridAddress).checked_add Cardinal.east.toDelta =
        some ⟨1, 0⟩ from checked_add_east
          (le_usizeMax_of_lt (le_refl wordCount) (by decide))
          (Nat.zero_le usizeMax)] at hca
      cases hca
      decide
    case south =>
      rw [show (⟨0, 0⟩ : GridAddress).checked_add Cardinal.south.toDelta =
        some ⟨0, 1⟩ from checked_add_south (Nat.zero_le usizeMax)
          (le_usizeMax_of_lt (le_refl wordCount) (by decide))] at hca
      cases hca
      decide
    case west =>
      rw [show (⟨0, 0⟩ : GridAddress).checked_add Cardinal.west.toDelta = none
        from by decide] at hca
      cases hca
  · exact count_edges_four.2 'A' 2 3 (by decide) (by decide) (by decide)
      (by decide)

/-! ## The modified Dijkstra of `puzzle16.rs` (`explore`) -/

/-- `2^32`: the modulus of `u32` arithmetic (`cost: u32`). -/
def u32Count : ℕ := 2 ^ 32

/-- Models `MazePosition::get_adjacent`: advance forward (+1) when the
address ahead exists, turn left (+1000), turn right (+1000), in that
order. -/
def MazePosition.get_adjacent (p : MazePosition) : List (MazePosition × ℕ) :=
  (match p.address.checked_add p.heading.toDelta with
    | none => ([] : List (MazePosition × ℕ))
    | some ahead => [((⟨ahead, p.heading⟩ : MazePosition), 1)]) ++
  [((⟨p.address, p.heading.turn_left⟩ : MazePosition), 1000),
   ((⟨p.address, p.heading.turn_right⟩ : MazePosition), 1000)]

/-- Whether the maze tile at `a` exists and is `MazeTile::Open` (the
neighbor filter of the exploration loop). -/
def openB (maze : Grid MazeTile) (a : GridAddress) : Bool :=
  match maze.get_at a with
  | some MazeTile.openTile => true
  | _ => false

/-- Queue entry of the modified Dijkstra (`PathCandidate`). -/
structure PathCandidate where
  pos : MazePosition
  cost : ℕ
deriving DecidableEq

/-- Removing the minimum-cost candidate (first of that cost): models
popping the `BinaryHeap` with the `Reverse(cost)` ordering; the heap's
tie-breaking among equal costs is unspecified, the model takes the
earliest-pushed one. -/
def popMin : List PathCandidate → Option (PathCandidate × List PathCandidate)
  | [] => none
  | cd :: rest =>
    match popMin rest with
    | none => some (cd, rest)
    | some (m, rest2) =>
      if cd.cost ≤ m.cost then some (cd, rest) else some (m, cd :: rest2)

/-- Lookup in the `path_data` map (modeled as an association list; the
source `HashMap` is only read through `get`/`entry`). -/
def pdLookup (m : List (MazePosition × PathData)) (p : MazePosition) :
    Option PathData :=
  match m with
  | [] => none
  | (q, d) :: rest => if q = p then some d else pdLookup rest p

/-- Insert-or-replace in the `path_data` map. -/
def pdUpdate (m : List (MazePosition × PathData)) (p : MazePosition)
    (d : PathData) : List (MazePosition × PathData) :=
  match m with
  | [] => [(p, d)]
  | (q, e) :: rest =>
    if q = p then (p, d) :: rest else (q, e) :: pdUpdate rest p d

/-- The mutable state of `explore`: the `path_data` map, the `to_search`
queue and the `visited` set (a duplicate-free list). -/
structure EState where
  path_data : List (MazePosition × PathData)
  to_search : List PathCandidate
  visited : List MazePosition

/-- The relaxation of one neighbor's `PathData` entry: `entry().or_insert`
with the new cost and no parents, then clear the parents on a strictly
lower cost, then append `pos` on an equal-or-lower cost. -/
def relaxDatum (old : Option PathData) (ncost : ℕ) (pos : MazePosition) :
    PathData :=
  let datum :=
    match old with
    | none => (⟨ncost, []⟩ : PathData)
    | some d => d
  let datum2 := if ncost < datum.cost then (⟨ncost, []⟩ : PathData) else datum
  if ncost ≤ datum2.cost then
    (⟨datum2.cost, datum2.parents ++ [pos]⟩ : PathData)
  else datum2

/-- One iteration of the inner `for (neighbor, edge_cost)` loop of
`explore`: skip non-open neighbors, otherwise relax the neighbor's entry
and push it to the queue unless already visited. -/
def processNeighbor (maze : Grid MazeTile) (pos : MazePosition) (cost : ℕ)
    (st : EState) (ne : MazePosition × ℕ) : EState :=
  if openB maze ne.1.address = true then
    ⟨pdUpdate st.path_data ne.1
        (relaxDatum (pdLookup st.path_data ne.1) ((cost + ne.2) % u32Count) pos),
      if st.visited.contains ne.1 then st.to_search
      else st.to_search ++ [⟨ne.1, (cost + ne.2) % u32Count⟩],
      st.visited⟩
  else st

/-- The exploration loop of `explore`, fuel-indexed: pop the cheapest
candidate, skip it if already visited, otherwise mark it visited and relax
all its neighbors. -/
def exploreLoop (maze : Grid MazeTile) :
    ℕ → EState → List (MazePosition × PathData)
  | 0, st => st.path_data
  | fuel + 1, st =>
    match popMin st.to_search with
    | none => st.path_data
    | some (cand, rest) =>
      if st.visited.contains cand.pos then
        exploreLoop maze fuel ⟨st.path_data, rest, st.visited⟩
      else
        exploreLoop maze fuel
          (cand.pos.get_adjacent.foldl
            (processNeighbor maze cand.pos cand.cost)
            ⟨st.path_data, rest, cand.pos :: st.visited⟩)

/-- Models `explore`: seed the queue and the path data with the start
position (facing East, cost 0, no parents) and run the loop. The fuel is
enough for the loop to drain its queue (proven below). -/
def explore (maze : Grid MazeTile) (sa : GridAddress) :
    List (MazePosition × PathData) :=
  exploreLoop maze (3 * (4 * totalTiles maze + 1) + 2)
    ⟨[((⟨sa, Cardinal.east⟩ : MazePosition), (⟨0, []⟩ : PathData))],
      [(⟨⟨sa, Cardinal.east⟩, 0⟩ : PathCandidate)], []⟩

/-- Reachability at a given cost in the maze graph: the true (unbounded)
cost of some walk from `start` to the position, moving only onto open
tiles. -/
inductive CostReach (maze : Grid MazeTile) (start : MazePosition) :
    MazePosition → ℕ → Prop
  | refl : CostReach maze start start 0
  | step {u v : MazePosition} {c w : ℕ} : CostReach maze start u c →
      (v, w) ∈ u.get_adjacent → openB maze v.address = true →
      CostReach maze start v (c + w)

theorem list_contains_iff {α : Type} [DecidableEq α] {l : List α} {a : α} :
    l.contains a = true ↔ a ∈ l := by
  simp

theorem popMin_eq_none {q : List PathCandidate} : popMin q = none ↔ q = [] := by
  cases q with
  | nil => exact ⟨fun _ => rfl, fun _ => rfl⟩
  | cons cd rest =>
    constructor
    · intro h
      unfold popMin at h
      rcases hq : popMin rest with _ | mr
      · rw [hq] at h
        cases h
      · rcases mr with ⟨m, r2⟩
        rw [hq] at h
        dsimp only at h
        by_cases hle : cd.cost ≤ m.cost
        · rw [if_pos hle] at h
          cases h
        · rw [if_neg hle] at h
          cases h
    · intro h
      cases h

theorem popMin_spec {q : List PathCandidate} {cd : PathCandidate}
    {rest : List PathCandidate} (h : popMin q = some (cd, rest)) :
    ∃ l1 l2, q = l1 ++ cd :: l2 ∧ rest = l1 ++ l2 ∧
      ∀ x ∈ q, cd.cost ≤ x.cost := by
  induction q generalizing cd rest with
  | nil => cases h
  | cons a q2 ih =>
    unfold popMin at h
    rcases hq : popMin q2 with _ | mr
    · rw [hq] at h
      cases h
      rw [popMin_eq_none] at hq
      subst hq
      refine ⟨[], [], rfl, rfl, ?_⟩
      intro x hx
      rw [List.mem_singleton] at hx
      subst hx
      exact le_refl _
    · rcases mr with ⟨m, r2⟩
      rw [hq] at h
      dsimp only at h
      obtain ⟨l1, l2, hq1, hq2, hmin⟩ := ih hq
      by_cases hle : a.cost ≤ m.cost
      · rw [if_pos hle] at h
        cases h
        refine ⟨[], q2, rfl, rfl, ?_⟩
        intro x hx
        rcases List.mem_cons.mp hx with hx1 | hx2
        · subst hx1
          exact le_refl _
        · exact le_trans hle (hmin x hx2)
      · rw [if_neg hle] at h
        cases h
        refine ⟨a :: l1, l2, by rw [hq1]; rfl, by rw [hq2]; rfl, ?_⟩
        intro x hx
        rcases List.mem_cons.mp hx with hx1 | hx2
        · subst hx1
          omega
        · exact hmin x hx2

theorem pdLookup_update_self (m : List (MazePosition × PathData))
    (p : MazePosition) (d : PathData) :
    pdLookup (pdUpdate m p d) p = some d := by
  induction m with
  | nil =>
    unfold pdUpdate pdLookup
    rw [if_pos rfl]
  | cons e rest ih =>
    rcases e with ⟨q, dq⟩
    unfold pdUpdate
    by_cases hqp : q = p
    · rw [if_pos hqp]
      unfold pdLookup
      rw [if_pos rfl]
    · rw [if_neg hqp]
      unfold pdLookup
      rw [if_neg hqp]
      exact ih

theorem pdLookup_update_ne (m : List (MazePosition × PathData))
    (p : MazePosition) (d : PathData) {p2 : MazePosition} (h : p2 ≠ p) :
    pdLookup (pdUpdate m p d) p2 = pdLookup m p2 := by
  induction m with
  | nil =>
    unfold pdUpdate pdLookup
    rw [if_neg (fun hc => h hc.symm)]
    rfl
  | cons e rest ih =>
    rcases e with ⟨q, dq⟩
    unfold pdUpdate
    by_cases hqp : q = p
    · rw [if_pos hqp]
      unfold pdLookup
      rw [if_neg (fun hc => h hc.symm)]
      subst hqp
      rw [if_neg (fun hc => h hc.symm)]
    · rw [if_neg hqp]
      unfold pdLookup
      by_cases hq2 : q = p2
      · rw [if_pos hq2, if_pos hq2]
      · rw [if_neg hq2, if_neg hq2]
        exact ih

theorem mem_get_adjacent {p q : MazePosition} {w : ℕ} :
    (q, w) ∈ p.get_adjacent ↔
      ((∃ ahead, p.address.checked_add p.heading.toDelta = some ahead ∧
          q = (⟨ahead, p.heading⟩ : MazePosition) ∧ w = 1) ∨
        (q = (⟨p.address, p.heading.turn_left⟩ : MazePosition) ∧ w = 1000) ∨
        (q = (⟨p.address, p.heading.turn_right⟩ : MazePosition) ∧ w = 1000)) := by
  unfold MazePosition.get_adjacent
  rcases hca : p.address.checked_add p.heading.toDelta with _ | ahead
  · dsimp only
    rw [List.nil_append]
    constructor
    · intro h
      rcases List.mem_cons.mp h with h1 | h2
      · rw [Prod.mk.injEq] at h1
        exact Or.inr (Or.inl ⟨h1.1, h1.2⟩)
      · rw [List.mem_singleton, Prod.mk.injEq] at h2
        exact Or.inr (Or.inr ⟨h2.1, h2.2⟩)
    · rintro (⟨ah2, hca2, -, -⟩ | ⟨hq, hw⟩ | ⟨hq, hw⟩)
      · cases hca2
      · subst hq
        subst hw
        exact List.mem_cons_self _ _
      · subst hq
        subst hw
        exact List.mem_cons_of_mem _ (List.mem_singleton.mpr rfl)
  · dsimp only
    rw [List.singleton_append]
    constructor
    · intro h
      rcases List.mem_cons.mp h with h1 | h2
      · rw [Prod.mk.injEq] at h1
        exact Or.inl ⟨ahead, rfl, h1.1, h1.2⟩
      · rcases List.mem_cons.mp h2 with h3 | h4
        · rw [Prod.mk.injEq] at h3
          exact Or.inr (Or.inl ⟨h3.1, h3.2⟩)
        · rw [List.mem_singleton, Prod.mk.injEq] at h4
          exact Or.inr (Or.inr ⟨h4.1, h4.2⟩)
    · rintro (⟨ah2, hca2, hq, hw⟩ | ⟨hq, hw⟩ | ⟨hq, hw⟩)
      · cases hca2
        subst hq
        subst hw
        exact List.mem_cons_self _ _
      · subst hq
        subst hw
        exact List.mem_cons_of_mem _ (List.mem_cons_self _ _)
      · subst hq
        subst hw
        exact List.mem_cons_of_mem _
          (List.mem_cons_of_mem _ (List.mem_singleton.mpr rfl))

theorem turn_left_ne (c : Cardinal) : c.turn_left ≠ c := by
  cases c <;> decide

theorem turn_right_ne (c : Cardinal) : c.turn_right ≠ c := by
  cases c <;> decide

theorem turn_left_ne_right (c : Cardinal) : c.turn_left ≠ c.turn_right := by
  cases c <;> decide

theorem not_self_adjacent {p : MazePosition} {w : ℕ} :
    ¬ (p, w) ∈ p.get_adjacent := by
  rw [mem_get_adjacent]
  rintro (⟨ahead, hca, hq, -⟩ | ⟨hq, -⟩ | ⟨hq, -⟩)
  · exact checked_add_cardinal_ne hca (congrArg MazePosition.address hq).symm
  · exact turn_left_ne p.heading (congrArg MazePosition.heading hq).symm
  · exact turn_right_ne p.heading (congrArg MazePosition.heading hq).symm

theorem adjacent_weight_unique {p q : MazePosition} {w1 w2 : ℕ}
    (h1 : (q, w1) ∈ p.get_adjacent) (h2 : (q, w2) ∈ p.get_adjacent) :
    w1 = w2 := by
  rw [mem_get_adjacent] at h1 h2
  rcases h1 with ⟨a1, hca1, hq1, hw1⟩ | ⟨hq1, hw1⟩ | ⟨hq1, hw1⟩ <;>
    rcases h2 with ⟨a2, hca2, hq2, hw2⟩ | ⟨hq2, hw2⟩ | ⟨hq2, hw2⟩ <;>
    subst hw1 <;> subst hw2
  · rfl
  · exact absurd (congrArg MazePosition.address (hq1.symm.trans hq2))
      (checked_add_cardinal_ne hca1)
  · exact absurd (congrArg MazePosition.address (hq1.symm.trans hq2))
      (checked_add_cardinal_ne hca1)
  · exact absurd (congrArg MazePosition.address (hq1.symm.trans hq2)).symm
      (checked_add_cardinal_ne hca2)
  · rfl
  · exact absurd (congrArg MazePosition.heading (hq1.symm.trans hq2))
      (turn_left_ne_right p.heading)
  · exact absurd (congrArg MazePosition.address (hq1.symm.trans hq2)).symm
      (checked_add_cardinal_ne hca2)
  · exact absurd (congrArg MazePosition.heading (hq1.symm.trans hq2)).symm
      (turn_left_ne_right p.heading)
  · rfl

theorem adjacent_weight_bounds {p q : MazePosition} {w : ℕ}
    (h : (q, w) ∈ p.get_adjacent) : 1 ≤ w ∧ w ≤ 1000 := by
  rw [mem_get_adjacent] at h
  rcases h with ⟨-, -, -, hw⟩ | ⟨-, hw⟩ | ⟨-, hw⟩ <;> subst hw <;>
    exact ⟨by omega, by omega⟩

theorem adjacent_fst_nodup (p : MazePosition) :
    (p.get_adjacent.map Prod.fst).Nodup := by
  unfold MazePosition.get_adjacent
  rcases hca : p.address.checked_add p.heading.toDelta with _ | ahead
  · dsimp only
    rw [List.nil_append, List.map_cons, List.map_cons, List.map_nil]
    refine List.nodup_cons.mpr ⟨?_, List.nodup_singleton _⟩
    rw [List.mem_singleton]
    intro hcon
    exact turn_left_ne_right p.heading (congrArg MazePosition.heading hcon)
  · dsimp only
    rw [List.singleton_append, List.map_cons, List.map_cons, List.map_cons,
      List.map_nil]
    refine List.nodup_cons.mpr ⟨?_, ?_⟩
    · intro hcon
      rcases List.mem_cons.mp hcon with h1 | h2
      · exact checked_add_cardinal_ne hca (congrArg MazePosition.address h1)
      · rw [List.mem_singleton] at h2
        exact checked_add_cardinal_ne hca (congrArg MazePosition.address h2)
    · refine List.nodup_cons.mpr ⟨?_, List.nodup_singleton _⟩
      rw [List.mem_singleton]
      intro hcon
      exact turn_left_ne_right p.heading (congrArg MazePosition.heading hcon)

theorem length_get_adjacent (p : MazePosition) : p.get_adjacent.length ≤ 3 := by
  unfold MazePosition.get_adjacent
  rcases hca : p.address.checked_add p.heading.toDelta with _ | ahead <;>
    simp

def cardinalFinset : Finset Cardinal :=
  {Cardinal.north, Cardinal.east, Cardinal.south, Cardinal.west}

/-- All positions the exploration can ever reach: every in-grid address
under each heading, plus the seeded start. -/
def validPositions (maze : Grid MazeTile) (start : MazePosition) :
    Finset MazePosition :=
  insert start ((gridAddrFinset maze ×ˢ cardinalFinset).image
    (fun q => (⟨q.1, q.2⟩ : MazePosition)))

theorem cardinal_mem_cardinalFinset (c : Cardinal) : c ∈ cardinalFinset := by
  cases c <;> decide

theorem mem_validPositions_of_open {maze : Grid MazeTile}
    {start p : MazePosition} (h : openB maze p.address = true) :
    p ∈ validPositions maze start := by
  unfold validPositions
  apply Finset.mem_insert_of_mem
  rw [Finset.mem_image]
  refine ⟨(p.address, p.heading), ?_, rfl⟩
  rw [Finset.mem_product]
  constructor
  · rw [mem_gridAddrFinset]
    unfold openB at h
    rcases hg : maze.get_at p.address with _ | t
    · rw [hg] at h
      cases h
    · rfl
  · exact cardinal_mem_cardinalFinset p.heading

theorem start_mem_validPositions (maze : Grid MazeTile)
    (start : MazePosition) : start ∈ validPositions maze start :=
  Finset.mem_insert_self _ _

theorem card_validPositions (maze : Grid MazeTile) (start : MazePosition) :
    (validPositions maze start).card ≤ 4 * totalTiles maze + 1 := by
  unfold validPositions
  have h1 := Finset.card_insert_le start
    ((gridAddrFinset maze ×ˢ cardinalFinset).image
      (fun q => (⟨q.1, q.2⟩ : MazePosition)))
  have h2 : ((gridAddrFinset maze ×ˢ cardinalFinset).image
      (fun q => (⟨q.1, q.2⟩ : MazePosition))).card ≤
      (gridAddrFinset maze ×ˢ cardinalFinset).card :=
    Finset.card_image_le
  have h3 : (gridAddrFinset maze ×ˢ cardinalFinset).card =
      (gridAddrFinset maze).card * 4 := by
    rw [Finset.card_product]
    rw [show cardinalFinset.card = 4 from by decide]
  rw [card_gridAddrFinset] at h3
  omega

/-- The loop invariant of `explore`: recorded costs are realizable, queue
entries cover every fresh recorded node at its recorded cost, visited
nodes carry their final minimal cost and are fully relaxed, and every
parents list matches the visited predecessors achieving the recorded
cost. -/
structure DijkInv (maze : Grid MazeTile) (start : MazePosition)
    (st : EState) : Prop where
  sound : ∀ p d, pdLookup st.path_data p = some d →
    CostReach maze start p d.cost
  qsound : ∀ cd ∈ st.to_search, CostReach maze start cd.pos cd.cost ∧
    ∃ d, pdLookup st.path_data cd.pos = some d ∧ d.cost ≤ cd.cost
  vfinal : ∀ v ∈ st.visited, ∃ d, pdLookup st.path_data v = some d ∧
    ∀ c, CostReach maze start v c → d.cost ≤ c
  vrelaxed : ∀ v ∈ st.visited, ∀ q w, (q, w) ∈ v.get_adjacent →
    openB maze q.address = true →
    ∃ dv dq, pdLookup st.path_data v = some dv ∧
      pdLookup st.path_data q = some dq ∧ dq.cost ≤ dv.cost + w
  fresh_q : ∀ p d, pdLookup st.path_data p = some d → p ∉ st.visited →
    ∃ cd ∈ st.to_search, cd.pos = p ∧ cd.cost = d.cost
  parentsInv : ∀ p d, pdLookup st.path_data p = some d → ∀ u,
    u ∈ d.parents ↔ (u ∈ st.visited ∧ ∃ du w,
      pdLookup st.path_data u = some du ∧ (p, w) ∈ u.get_adjacent ∧
      openB maze p.address = true ∧ du.cost + w = d.cost)
  startRec : ∃ d, pdLookup st.path_data start = some d ∧ d.cost = 0
  vnodup : st.visited.Nodup
  vvalid : ∀ v ∈ st.visited, v ∈ validPositions maze start
  qvalid : ∀ cd ∈ st.to_search, cd.pos ∈ validPositions maze start
  pdBound : ∀ p d, pdLookup st.path_data p = some d →
    d.cost ≤ 1000 * (st.visited.length + 1)
  qBound : ∀ cd ∈ st.to_search, cd.cost ≤ 1000 * (st.visited.length + 1)

theorem dijkInv_init (maze : Grid MazeTile) (start : MazePosition) :
    DijkInv maze start
      ⟨[(start, (⟨0, []⟩ : PathData))], [(⟨start, 0⟩ : PathCandidate)], []⟩ := by
  have hlook : ∀ p d,
      pdLookup [(start, (⟨0, []⟩ : PathData))] p = some d →
      p = start ∧ d = ⟨0, []⟩ := by
    intro p d h
    unfold pdLookup at h
    by_cases hs : start = p
    · rw [if_pos hs] at h
      cases h
      exact ⟨hs.symm, rfl⟩
    · rw [if_neg hs] at h
      cases h
  have hlookself : pdLookup [(start, (⟨0, []⟩ : PathData))] start =
      some ⟨0, []⟩ := by
    unfold pdLookup
    rw [if_pos rfl]
  constructor
  · intro p d h
    obtain ⟨hp, hd⟩ := hlook p d h
    subst hp
    subst hd
    exact CostReach.refl
  · intro cd hcd
    rw [List.mem_singleton] at hcd
    subst hcd
    exact ⟨CostReach.refl, ⟨0, []⟩, hlookself, le_refl 0⟩
  · intro v hv
    exact absurd hv (List.not_mem_nil v)
  · intro v hv
    exact absurd hv (List.not_mem_nil v)
  · intro p d h hnv
    obtain ⟨hp, hd⟩ := hlook p d h
    subst hp
    subst hd
    exact ⟨⟨p, 0⟩, List.mem_singleton.mpr rfl, rfl, rfl⟩
  · intro p d h u
    obtain ⟨hp, hd⟩ := hlook p d h
    subst hd
    constructor
    · intro hu
      exact absurd hu (List.not_mem_nil u)
    · rintro ⟨hu, -⟩
      exact absurd hu (List.not_mem_nil u)
  · exact ⟨⟨0, []⟩, hlookself, rfl⟩
  · exact List.nodup_nil
  · intro v hv
    exact absurd hv (List.not_mem_nil v)
  · intro cd hcd
    rw [List.mem_singleton] at hcd
    subst hcd
    exact start_mem_validPositions maze start
  · intro p d h
    obtain ⟨-, hd⟩ := hlook p d h
    subst hd
    show (0 : ℕ) ≤ 1000 * (0 + 1)
    omega
  · intro cd hcd
    rw [List.mem_singleton] at hcd
    subst hcd
    show (0 : ℕ) ≤ 1000 * (0 + 1)
    omega

/-- Frontier lemma: any cost-`c` walk to an unvisited position passes
through some recorded unvisited position whose recorded cost is at most
`c`. -/
theorem dijk_frontier {maze : Grid MazeTile} {start : MazePosition}
    {st : EState} (hinv : DijkInv maze start st) :
    ∀ p c, CostReach maze start p c → p ∉ st.visited →
      ∃ z dz, pdLookup st.path_data z = some dz ∧ z ∉ st.visited ∧
        dz.cost ≤ c := by
  intro p c h
  induction h with
  | refl =>
    intro hns
    obtain ⟨d0, hd0, hc0⟩ := hinv.startRec
    exact ⟨start, d0, hd0, hns, by omega⟩
  | step hu hadj hopen ih =>
    rename_i u v c0 w
    intro hnv
    by_cases hmem : u ∈ st.visited
    · obtain ⟨dv, dq, hdv, hdq, hle⟩ := hinv.vrelaxed u hmem v w hadj hopen
      obtain ⟨du2, hdu2, hmin⟩ := hinv.vfinal u hmem
      rw [hdv] at hdu2
      cases hdu2
      have hdc := hmin c0 hu
      exact ⟨v, dq, hdq, hnv, by omega⟩
    · obtain ⟨z, dz, hz, hzn, hzl⟩ := ih hmem
      exact ⟨z, dz, hz, hzn, by omega⟩

/-- A freshly popped minimum candidate carries the true minimal cost of
its position. -/
theorem popMin_fresh_min {maze : Grid MazeTile} {start : MazePosition}
    {st : EState} {cand : PathCandidate} {rest : List PathCandidate}
    (hinv : DijkInv maze start st)
    (hpop : popMin st.to_search = some (cand, rest))
    (hfresh : cand.pos ∉ st.visited) :
    (∃ d, pdLookup st.path_data cand.pos = some d ∧ d.cost = cand.cost) ∧
    CostReach maze start cand.pos cand.cost ∧
    (∀ c, CostReach maze start cand.pos c → cand.cost ≤ c) := by
  obtain ⟨l1, l2, hq1, hq2, hmin⟩ := popMin_spec hpop
  have hcdmem : cand ∈ st.to_search := by
    rw [hq1]
    exact List.mem_append_right _ (List.mem_cons_self _ _)
  obtain ⟨hreach, d, hd, hdle⟩ := hinv.qsound cand hcdmem
  obtain ⟨cd2, hcd2mem, hcd2pos, hcd2cost⟩ := hinv.fresh_q cand.pos d hd hfresh
  have h1 : cand.cost ≤ cd2.cost := hmin cd2 hcd2mem
  have hdeq : d.cost = cand.cost := by omega
  refine ⟨⟨d, hd, hdeq⟩, hreach, ?_⟩
  intro c hc
  obtain ⟨z, dz, hz, hzn, hzl⟩ := dijk_frontier hinv cand.pos c hc hfresh
  obtain ⟨cdz, hcdzmem, hcdzpos, hcdzcost⟩ := hinv.fresh_q z dz hz hzn
  have h2 := hmin cdz hcdzmem
  omega

theorem relaxDatum_none (n : ℕ) (pos : MazePosition) :
    relaxDatum none n pos = ⟨n, [pos]⟩ := by
  unfold relaxDatum
  dsimp only
  rw [if_neg (lt_irrefl n), if_pos (le_refl n)]
  rfl

theorem relaxDatum_lt {d : PathData} {n : ℕ} (h : n < d.cost)
    (pos : MazePosition) : relaxDatum (some d) n pos = ⟨n, [pos]⟩ := by
  unfold relaxDatum
  dsimp only
  rw [if_pos h]
  dsimp only
  rw [if_pos (le_refl n)]
  rfl

theorem relaxDatum_eq {d : PathData} {n : ℕ} (h : n = d.cost)
    (pos : MazePosition) :
    relaxDatum (some d) n pos = ⟨d.cost, d.parents ++ [pos]⟩ := by
  unfold relaxDatum
  dsimp only
  have h2 : (if n < d.cost then (⟨n, []⟩ : PathData) else d) = d :=
    if_neg (by omega)
  rw [h2, if_pos (show n ≤ d.cost by omega)]

theorem relaxDatum_gt {d : PathData} {n : ℕ} (h : d.cost < n)
    (pos : MazePosition) : relaxDatum (some d) n pos = d := by
  unfold relaxDatum
  dsimp only
  have h2 : (if n < d.cost then (⟨n, []⟩ : PathData) else d) = d :=
    if_neg (by omega)
  rw [h2, if_neg (show ¬ n ≤ d.cost by omega)]

theorem processNeighbor_open {maze : Grid MazeTile} (pos : MazePosition)
    (cost : ℕ) (st : EState) {nb : MazePosition} (w0 : ℕ)
    (hopen : openB maze nb.address = true) :
    processNeighbor maze pos cost st (nb, w0) =
      ⟨pdUpdate st.path_data nb
          (relaxDatum (pdLookup st.path_data nb) ((cost + w0) % u32Count) pos),
        if st.visited.contains nb then st.to_search
        else st.to_search ++ [⟨nb, (cost + w0) % u32Count⟩],
        st.visited⟩ := by
  unfold processNeighbor
  rw [if_pos hopen]

theorem processNeighbor_closed {maze : Grid MazeTile} (pos : MazePosition)
    (cost : ℕ) (st : EState) {nb : MazePosition} (w0 : ℕ)
    (hopen : ¬ openB maze nb.address = true) :
    processNeighbor maze pos cost st (nb, w0) = st := by
  unfold processNeighbor
  rw [if_neg hopen]

theorem exploreLoop_succ (maze : Grid MazeTile) (f : ℕ) (st : EState) :
    exploreLoop maze (f + 1) st =
      match popMin st.to_search with
      | none => st.path_data
      | some (cand, rest) =>
        if st.visited.contains cand.pos then
          exploreLoop maze f ⟨st.path_data, rest, st.visited⟩
        else
          exploreLoop maze f
            (cand.pos.get_adjacent.foldl
              (processNeighbor maze cand.pos cand.cost)
              ⟨st.path_data, rest, cand.pos :: st.visited⟩) := rfl

theorem nodup_length_le_card {l : List MazePosition} {s : Finset MazePosition}
    (hnd : l.Nodup) (hsub : ∀ x ∈ l, x ∈ s) : l.length ≤ s.card := by
  have h1 : l.toFinset.card = l.length := List.toFinset_card_of_nodup hnd
  have h2 : l.toFinset ⊆ s := by
    intro x hx
    rw [List.mem_toFinset] at hx
    exact hsub x hx
  have h3 := Finset.card_le_card h2
  omega

theorem adj_decomp_not_tail {pos : MazePosition}
    {done rem2 : List (MazePosition × ℕ)} {nb : MazePosition} {w0 : ℕ}
    (hdec : pos.get_adjacent = done ++ (nb, w0) :: rem2) :
    ∀ w2, (nb, w2) ∉ rem2 := by
  intro w2 hmem
  have hnd := adjacent_fst_nodup pos
  rw [hdec, List.map_append, List.map_cons] at hnd
  have h2 := List.Nodup.of_append_right hnd
  rw [List.nodup_cons] at h2
  exact h2.1 (show nb ∈ List.map Prod.fst rem2 from
    List.mem_map_of_mem Prod.fst hmem)

theorem popMin_mem_rest {q rest : List PathCandidate} {cand x : PathCandidate}
    (hpop : popMin q = some (cand, rest)) (hx : x ∈ q) (hne : x ≠ cand) :
    x ∈ rest := by
  obtain ⟨l1, l2, hq1, hq2, -⟩ := popMin_spec hpop
  rw [hq1] at hx
  rw [hq2]
  rcases List.mem_append.mp hx with h1 | h2
  · exact List.mem_append_left _ h1
  · rcases List.mem_cons.mp h2 with h3 | h4
    · exact absurd h3 hne
    · exact List.mem_append_right _ h4

theorem popMin_rest_subset {q rest : List PathCandidate} {cand x : PathCandidate}
    (hpop : popMin q = some (cand, rest)) (hx : x ∈ rest) : x ∈ q := by
  obtain ⟨l1, l2, hq1, hq2, -⟩ := popMin_spec hpop
  rw [hq2] at hx
  rw [hq1]
  rcases List.mem_append.mp hx with h1 | h2
  · exact List.mem_append_left _ h1
  · exact List.mem_append_right _ (List.mem_cons_of_mem _ h2)

theorem popMin_length {q rest : List PathCandidate} {cand : PathCandidate}
    (hpop : popMin q = some (cand, rest)) :
    q.length = rest.length + 1 := by
  obtain ⟨l1, l2, hq1, hq2, -⟩ := popMin_spec hpop
  rw [hq1, hq2, List.length_append, List.length_append, List.length_cons]
  omega

/-- Popping an already-visited candidate just discards it. -/
theorem dijkInv_skip {maze : Grid MazeTile} {start : MazePosition}
    {st : EState} {cand : PathCandidate} {rest : List PathCandidate}
    (hinv : DijkInv maze start st)
    (hpop : popMin st.to_search = some (cand, rest))
    (hvis : cand.pos ∈ st.visited) :
    DijkInv maze start ⟨st.path_data, rest, st.visited⟩ := by
  constructor
  · exact hinv.sound
  · intro cd hcd
    exact hinv.qsound cd (popMin_rest_subset hpop hcd)
  · exact hinv.vfinal
  · exact hinv.vrelaxed
  · intro p d hd hnv
    obtain ⟨cd, hcdmem, hcdpos, hcdcost⟩ := hinv.fresh_q p d hd hnv
    refine ⟨cd, ?_, hcdpos, hcdcost⟩
    refine popMin_mem_rest hpop hcdmem ?_
    intro hcon
    subst hcon
    rw [hcdpos] at hvis
    exact hnv hvis
  · exact hinv.parentsInv
  · exact hinv.startRec
  · exact hinv.vnodup
  · exact hinv.vvalid
  · intro cd hcd
    exact hinv.qvalid cd (popMin_rest_subset hpop hcd)
  · exact hinv.pdBound
  · intro cd hcd
    exact hinv.qBound cd (popMin_rest_subset hpop hcd)

/-- Mid-relaxation invariant: `pos` has just been popped with its final
cost and marked visited, and the neighbors in `rem` are still to be
relaxed. -/
structure StepInv (maze : Grid MazeTile) (start : MazePosition)
    (pos : MazePosition) (cost : ℕ) (rem : List (MazePosition × ℕ))
    (st : EState) : Prop where
  hposmem : pos ∈ st.visited
  hpos : ∃ d, pdLookup st.path_data pos = some d ∧ d.cost = cost
  hposmin : ∀ c, CostReach maze start pos c → cost ≤ c
  hposreach : CostReach maze start pos cost
  hcostB : cost + 1000 ≤ 1000 * (st.visited.length + 1)
  sound : ∀ p d, pdLookup st.path_data p = some d →
    CostReach maze start p d.cost
  qsound : ∀ cd ∈ st.to_search, CostReach maze start cd.pos cd.cost ∧
    ∃ d, pdLookup st.path_data cd.pos = some d ∧ d.cost ≤ cd.cost
  vfinal : ∀ v ∈ st.visited, ∃ d, pdLookup st.path_data v = some d ∧
    ∀ c, CostReach maze start v c → d.cost ≤ c
  vrelaxed : ∀ v ∈ st.visited, v ≠ pos → ∀ q w, (q, w) ∈ v.get_adjacent →
    openB maze q.address = true →
    ∃ dv dq, pdLookup st.path_data v = some dv ∧
      pdLookup st.path_data q = some dq ∧ dq.cost ≤ dv.cost + w
  posrelaxed : ∀ q w, (q, w) ∈ pos.get_adjacent →
    (∀ w2, (q, w2) ∉ rem) → openB maze q.address = true →
    ∃ dq, pdLookup st.path_data q = some dq ∧ dq.cost ≤ cost + w
  fresh_q : ∀ p d, pdLookup st.path_data p = some d → p ∉ st.visited →
    ∃ cd ∈ st.to_search, cd.pos = p ∧ cd.cost = d.cost
  parentsInv : ∀ p d, pdLookup st.path_data p = some d → ∀ u,
    u ∈ d.parents ↔ (u ∈ st.visited ∧ ∃ du w,
      pdLookup st.path_data u = some du ∧ (p, w) ∈ u.get_adjacent ∧
      (u = pos → (p, w) ∉ rem) ∧
      openB maze p.address = true ∧ du.cost + w = d.cost)
  startRec : ∃ d, pdLookup st.path_data start = some d ∧ d.cost = 0
  vnodup : st.visited.Nodup
  vvalid : ∀ v ∈ st.visited, v ∈ validPositions maze start
  qvalid : ∀ cd ∈ st.to_search, cd.pos ∈ validPositions maze start
  pdBound : ∀ p d, pdLookup st.path_data p = some d →
    d.cost ≤ 1000 * (st.visited.length + 1)
  qBound : ∀ cd ∈ st.to_search, cd.cost ≤ 1000 * (st.visited.length + 1)

/-- A fresh pop: marking the popped position visited yields the
mid-relaxation invariant with all its neighbors still to process. -/
theorem dijkInv_pop_fresh {maze : Grid MazeTile} {start : MazePosition}
    {st : EState} {cand : PathCandidate} {rest : List PathCandidate}
    (hinv : DijkInv maze start st)
    (hpop : popMin st.to_search = some (cand, rest))
    (hfresh : cand.pos ∉ st.visited) :
    StepInv maze start cand.pos cand.cost cand.pos.get_adjacent
      ⟨st.path_data, rest, cand.pos :: st.visited⟩ := by
  obtain ⟨⟨d0, hd0, hd0c⟩, hreach0, hmin0⟩ := popMin_fresh_min hinv hpop hfresh
  have hcdmem : cand ∈ st.to_search := by
    obtain ⟨l1, l2, hq1, -, -⟩ := popMin_spec hpop
    rw [hq1]
    exact List.mem_append_right _ (List.mem_cons_self _ _)
  constructor
  · exact List.mem_cons_self _ _
  · exact ⟨d0, hd0, hd0c⟩
  · exact hmin0
  · exact hreach0
  · have h1 := hinv.qBound cand hcdmem
    rw [List.length_cons]
    omega
  · exact hinv.sound
  · intro cd hcd
    exact hinv.qsound cd (popMin_rest_subset hpop hcd)
  · intro v hv
    rcases List.mem_cons.mp hv with h1 | h2
    · subst h1
      refine ⟨d0, hd0, ?_⟩
      intro c hc
      rw [hd0c]
      exact hmin0 c hc
    · exact hinv.vfinal v h2
  · intro v hv hne q w hadj hopen
    rcases List.mem_cons.mp hv with h1 | h2
    · exact absurd h1 hne
    · exact hinv.vrelaxed v h2 q w hadj hopen
  · intro q w hadj hnot hopen
    exact absurd hadj (hnot w)
  · intro p d hd hnv
    have hnv2 : p ∉ st.visited := fun hc => hnv (List.mem_cons_of_mem _ hc)
    have hnp : p ≠ cand.pos := by
      intro hc
      exact hnv (hc ▸ List.mem_cons_self _ _)
    obtain ⟨cd, hcdm, hcdp, hcdc⟩ := hinv.fresh_q p d hd hnv2
    refine ⟨cd, ?_, hcdp, hcdc⟩
    refine popMin_mem_rest hpop hcdm ?_
    intro hcon
    subst hcon
    exact hnp hcdp.symm
  · intro p d hd u
    rw [hinv.parentsInv p d hd u]
    constructor
    · rintro ⟨hu, du, w, hdu, hadj, hopen, heq⟩
      refine ⟨List.mem_cons_of_mem _ hu, du, w, hdu, hadj, ?_, hopen, heq⟩
      intro hup
      subst hup
      exact absurd hu hfresh
    · rintro ⟨hu, du, w, hdu, hadj, hprov, hopen, heq⟩
      rcases List.mem_cons.mp hu with h1 | h2
      · exact absurd hadj (h1 ▸ hprov h1)
      · exact ⟨h2, du, w, hdu, hadj, hopen, heq⟩
  · exact hinv.startRec
  · exact List.nodup_cons.mpr ⟨hfresh, hinv.vnodup⟩
  · intro v hv
    rcases List.mem_cons.mp hv with h1 | h2
    · subst h1
      exact hinv.qvalid cand hcdmem
    · exact hinv.vvalid v h2
  · intro cd hcd
    exact hinv.qvalid cd (popMin_rest_subset hpop hcd)
  · intro p d hd
    have := hinv.pdBound p d hd
    rw [List.length_cons]
    omega
  · intro cd hcd
    have := hinv.qBound cd (popMin_rest_subset hpop hcd)
    rw [List.length_cons]
    omega

/-- Relaxing one neighbor whose recorded cost (if any) is strictly above
the offered cost: the entry is replaced by the offered cost with `pos` as
sole parent. -/
theorem stepInv_improve {maze : Grid MazeTile} {start pos : MazePosition}
    {cost : ℕ} {done rem2 : List (MazePosition × ℕ)} {nb : MazePosition}
    {w0 : ℕ} {st : EState}
    (hdec : pos.get_adjacent = done ++ (nb, w0) :: rem2)
    (hstep : StepInv maze start pos cost ((nb, w0) :: rem2) st)
    (hopen : openB maze nb.address = true)
    (hlow : ∀ d2, pdLookup st.path_data nb = some d2 → cost + w0 < d2.cost)
    (hnbnv : nb ∉ st.visited) :
    StepInv maze start pos cost rem2
      (⟨pdUpdate st.path_data nb ⟨cost + w0, [pos]⟩,
        if st.visited.contains nb then st.to_search
        else st.to_search ++ [⟨nb, cost + w0⟩],
        st.visited⟩ : EState) := by
  have hmem_nb : (nb, w0) ∈ pos.get_adjacent := by
    rw [hdec]
    exact List.mem_append_right _ (List.mem_cons_self _ _)
  have hw0 := adjacent_weight_bounds hmem_nb
  have hntail : ∀ w2, (nb, w2) ∉ rem2 := adj_decomp_not_tail hdec
  obtain ⟨dpos, hdpos, hdposc⟩ := hstep.hpos
  have hnbpos : nb ≠ pos := by
    intro hc
    rw [hc] at hmem_nb
    exact not_self_adjacent hmem_nb
  have hposnb : pos ≠ nb := fun hc => hnbpos hc.symm
  have hreach_nb : CostReach maze start nb (cost + w0) :=
    CostReach.step hstep.hposreach hmem_nb hopen
  have hlknb : pdLookup (pdUpdate st.path_data nb ⟨cost + w0, [pos]⟩) nb =
      some ⟨cost + w0, [pos]⟩ := pdLookup_update_self _ _ _
  have hlko : ∀ p2, p2 ≠ nb →
      pdLookup (pdUpdate st.path_data nb ⟨cost + w0, [pos]⟩) p2 =
        pdLookup st.path_data p2 :=
    fun p2 hp2 => pdLookup_update_ne _ _ _ hp2
  have hqmem : ∀ cd : PathCandidate, cd ∈ (if st.visited.contains nb then
      st.to_search else st.to_search ++ [⟨nb, cost + w0⟩]) →
      cd ∈ st.to_search ∨ (cd = ⟨nb, cost + w0⟩ ∧ nb ∉ st.visited) := by
    intro cd hcd
    by_cases hb : st.visited.contains nb = true
    · rw [if_pos hb] at hcd
      exact Or.inl hcd
    · rw [if_neg hb] at hcd
      rcases List.mem_append.mp hcd with h1 | h2
      · exact Or.inl h1
      · rw [List.mem_singleton] at h2
        refine Or.inr ⟨h2, ?_⟩
        intro hc
        exact hb (list_contains_iff.mpr hc)
  have hqmem2 : ∀ cd ∈ st.to_search, cd ∈ (if st.visited.contains nb then
      st.to_search else st.to_search ++ [⟨nb, cost + w0⟩]) := by
    intro cd hcd
    by_cases hb : st.visited.contains nb = true
    · rw [if_pos hb]
      exact hcd
    · rw [if_neg hb]
      exact List.mem_append_left _ hcd
  have hqpush : nb ∉ st.visited → (⟨nb, cost + w0⟩ : PathCandidate) ∈
      (if st.visited.contains nb then st.to_search
        else st.to_search ++ [⟨nb, cost + w0⟩]) := by
    intro hnv
    rw [if_neg (fun hc => hnv (list_contains_iff.mp hc))]
    exact List.mem_append_right _ (List.mem_singleton.mpr rfl)
  have hprov_iff : ∀ (p : MazePosition) (w : ℕ), p ≠ nb →
      (((p, w) ∉ (nb, w0) :: rem2) ↔ ((p, w) ∉ rem2)) := by
    intro p w hp
    constructor
    · intro hn hmem
      exact hn (List.mem_cons_of_mem _ hmem)
    · intro hn hmem
      rcases List.mem_cons.mp hmem with h1 | h2
      · exact hp (congrArg Prod.fst h1)
      · exact hn h2
  constructor
  · dsimp only
    exact hstep.hposmem
  · dsimp only
    refine ⟨dpos, ?_, hdposc⟩
    rw [hlko pos hposnb]
    exact hdpos
  · exact hstep.hposmin
  · exact hstep.hposreach
  · dsimp only
    exact hstep.hcostB
  · dsimp only
    intro p d hd
    by_cases hp : p = nb
    · subst hp
      rw [hlknb] at hd
      cases hd
      exact hreach_nb
    · rw [hlko p hp] at hd
      exact hstep.sound p d hd
  · dsimp only
    intro cd hcd
    rcases hqmem cd hcd with h1 | ⟨h2, -⟩
    · obtain ⟨hr, d, hdl, hdle⟩ := hstep.qsound cd h1
      by_cases hcp : cd.pos = nb
      · rw [hcp] at hdl
        have hlow2 := hlow d hdl
        refine ⟨hr, ⟨cost + w0, [pos]⟩, ?_, ?_⟩
        · rw [hcp]
          exact hlknb
        · show cost + w0 ≤ cd.cost
          omega
      · refine ⟨hr, d, ?_, hdle⟩
        rw [hlko cd.pos hcp]
        exact hdl
    · subst h2
      refine ⟨hreach_nb, ⟨cost + w0, [pos]⟩, hlknb, le_refl (cost + w0)⟩
  · dsimp only
    intro v hv
    by_cases hvnb : v = nb
    · subst hvnb
      exact absurd hv hnbnv
    · obtain ⟨dv, hdv, hmin⟩ := hstep.vfinal v hv
      refine ⟨dv, ?_, hmin⟩
      rw [hlko v hvnb]
      exact hdv
  · dsimp only
    intro v hv hvne q w hadj hopenq
    obtain ⟨dv, dq, hdv, hdq, hle⟩ := hstep.vrelaxed v hv hvne q w hadj hopenq
    have hvnb : v ≠ nb := fun hc => hnbnv (hc ▸ hv)
    by_cases hqnb : q = nb
    · rw [hqnb] at hdq
      have hlow2 := hlow dq hdq
      refine ⟨dv, ⟨cost + w0, [pos]⟩, ?_, ?_, ?_⟩
      · rw [hlko v hvnb]
        exact hdv
      · rw [hqnb]
        exact hlknb
      · show cost + w0 ≤ dv.cost + w
        omega
    · refine ⟨dv, dq, ?_, ?_, hle⟩
      · rw [hlko v hvnb]
        exact hdv
      · rw [hlko q hqnb]
        exact hdq
  · dsimp only
    intro q w hadj hnot hopenq
    by_cases hq : q = nb
    · subst hq
      have hww : w = w0 := adjacent_weight_unique hadj hmem_nb
      subst hww
      exact ⟨⟨cost + w, [pos]⟩, hlknb, le_refl (cost + w)⟩
    · have hprov2 : ∀ w2, (q, w2) ∉ (nb, w0) :: rem2 := by
        intro w2 hmem
        rcases List.mem_cons.mp hmem with h1 | h2
        · exact hq (congrArg Prod.fst h1)
        · exact hnot w2 h2
      obtain ⟨dq, hdql, hdqle⟩ := hstep.posrelaxed q w hadj hprov2 hopenq
      refine ⟨dq, ?_, hdqle⟩
      rw [hlko q hq]
      exact hdql
  · dsimp only
    intro p d hd hnv
    by_cases hp : p = nb
    · subst hp
      rw [hlknb] at hd
      cases hd
      exact ⟨⟨p, cost + w0⟩, hqpush hnv, rfl, rfl⟩
    · rw [hlko p hp] at hd
      obtain ⟨cd, hcdm, hcdp, hcdc⟩ := hstep.fresh_q p d hd hnv
      exact ⟨cd, hqmem2 cd hcdm, hcdp, hcdc⟩
  · dsimp only
    intro p d hd u
    by_cases hp : p = nb
    · subst hp
      rw [hlknb] at hd
      cases hd
      constructor
      · intro hu
        have hu2 : u ∈ [pos] := hu
        rw [List.mem_singleton] at hu2
        subst hu2
        refine ⟨hstep.hposmem, dpos, w0, ?_, hmem_nb, ?_, hopen, ?_⟩
        · rw [hlko u hposnb]
          exact hdpos
        · intro hc
          exact hntail w0
        · show dpos.cost + w0 = cost + w0
          rw [hdposc]
      · rintro ⟨hu, du, w, hdu, hadj, hprov, hopenp, heqc2⟩
        by_cases hup : u = pos
        · subst hup
          show u ∈ [u]
          exact List.mem_singleton.mpr rfl
        · exfalso
          have hune : u ≠ p := by
            intro hc
            rw [hc] at hadj
            exact not_self_adjacent hadj
          rw [hlko u hune] at hdu
          obtain ⟨dv, dq, hdv, hdq, hle⟩ :=
            hstep.vrelaxed u hu hup p w hadj hopen
          rw [hdv] at hdu
          cases hdu
          have hlow2 := hlow dq hdq
          have heqc3 : du.cost + w = cost + w0 := heqc2
          omega
    · rw [hlko p hp] at hd
      rw [hstep.parentsInv p d hd u]
      constructor
      · rintro ⟨hu, du, w, hdu, hadj, hprov, hopenp, heqc2⟩
        have hune : u ≠ nb := fun hc => hnbnv (hc ▸ hu)
        refine ⟨hu, du, w, ?_, hadj, ?_, hopenp, heqc2⟩
        · rw [hlko u hune]
          exact hdu
        · intro hup
          exact (hprov_iff p w hp).mp (hprov hup)
      · rintro ⟨hu, du, w, hdu, hadj, hprov, hopenp, heqc2⟩
        have hune : u ≠ nb := fun hc => hnbnv (hc ▸ hu)
        rw [hlko u hune] at hdu
        refine ⟨hu, du, w, hdu, hadj, ?_, hopenp, heqc2⟩
        intro hup
        exact (hprov_iff p w hp).mpr (hprov hup)
  · dsimp only
    obtain ⟨d0, hd0, hd0c⟩ := hstep.startRec
    by_cases hs : start = nb
    · exfalso
      rw [hs] at hd0
      have hlow2 := hlow d0 hd0
      omega
    · refine ⟨d0, ?_, hd0c⟩
      rw [hlko start hs]
      exact hd0
  · dsimp only
    exact hstep.vnodup
  · dsimp only
    exact hstep.vvalid
  · dsimp only
    intro cd hcd
    rcases hqmem cd hcd with h1 | ⟨h2, -⟩
    · exact hstep.qvalid cd h1
    · subst h2
      exact mem_validPositions_of_open hopen
  · dsimp only
    intro p d hd
    by_cases hp : p = nb
    · subst hp
      rw [hlknb] at hd
      cases hd
      have h1 := hstep.hcostB
      have h2 := hw0.2
      show cost + w0 ≤ 1000 * (st.visited.length + 1)
      omega
    · rw [hlko p hp] at hd
      exact hstep.pdBound p d hd
  · dsimp only
    intro cd hcd
    rcases hqmem cd hcd with h1 | ⟨h2, -⟩
    · exact hstep.qBound cd h1
    · subst h2
      have h1 := hstep.hcostB
      have h2 := hw0.2
      show cost + w0 ≤ 1000 * (st.visited.length + 1)
      omega

/-- Relaxing one neighbor at exactly its recorded cost: `pos` is appended
to the entry's parents. -/
theorem stepInv_equal {maze : Grid MazeTile} {start pos : MazePosition}
    {cost : ℕ} {done rem2 : List (MazePosition × ℕ)} {nb : MazePosition}
    {w0 : ℕ} {st : EState} {dOld : PathData}
    (hdec : pos.get_adjacent = done ++ (nb, w0) :: rem2)
    (hstep : StepInv maze start pos cost ((nb, w0) :: rem2) st)
    (hopen : openB maze nb.address = true)
    (hold : pdLookup st.path_data nb = some dOld)
    (heqc0 : cost + w0 = dOld.cost) :
    StepInv maze start pos cost rem2
      (⟨pdUpdate st.path_data nb ⟨dOld.cost, dOld.parents ++ [pos]⟩,
        if st.visited.contains nb then st.to_search
        else st.to_search ++ [⟨nb, cost + w0⟩],
        st.visited⟩ : EState) := by
  have hmem_nb : (nb, w0) ∈ pos.get_adjacent := by
    rw [hdec]
    exact List.mem_append_right _ (List.mem_cons_self _ _)
  have hw0 := adjacent_weight_bounds hmem_nb
  have hntail : ∀ w2, (nb, w2) ∉ rem2 := adj_decomp_not_tail hdec
  obtain ⟨dpos, hdpos, hdposc⟩ := hstep.hpos
  have hnbpos : nb ≠ pos := by
    intro hc
    rw [hc] at hmem_nb
    exact not_self_adjacent hmem_nb
  have hposnb : pos ≠ nb := fun hc => hnbpos hc.symm
  have hreach_nb : CostReach maze start nb (cost + w0) :=
    CostReach.step hstep.hposreach hmem_nb hopen
  have hlknb : pdLookup
      (pdUpdate st.path_data nb ⟨dOld.cost, dOld.parents ++ [pos]⟩) nb =
      some ⟨dOld.cost, dOld.parents ++ [pos]⟩ := pdLookup_update_self _ _ _
  have hlko : ∀ p2, p2 ≠ nb →
      pdLookup (pdUpdate st.path_data nb
        ⟨dOld.cost, dOld.parents ++ [pos]⟩) p2 =
        pdLookup st.path_data p2 :=
    fun p2 hp2 => pdLookup_update_ne _ _ _ hp2
  have hqmem : ∀ cd : PathCandidate, cd ∈ (if st.visited.contains nb then
      st.to_search else st.to_search ++ [⟨nb, cost + w0⟩]) →
      cd ∈ st.to_search ∨ (cd = ⟨nb, cost + w0⟩ ∧ nb ∉ st.visited) := by
    intro cd hcd
    by_cases hb : st.visited.contains nb = true
    · rw [if_pos hb] at hcd
      exact Or.inl hcd
    · rw [if_neg hb] at hcd
      rcases List.mem_append.mp hcd with h1 | h2
      · exact Or.inl h1
      · rw [List.mem_singleton] at h2
        refine Or.inr ⟨h2, ?_⟩
        intro hc
        exact hb (list_contains_iff.mpr hc)
  have hqmem2 : ∀ cd ∈ st.to_search, cd ∈ (if st.visited.contains nb then
      st.to_search else st.to_search ++ [⟨nb, cost + w0⟩]) := by
    intro cd hcd
    by_cases hb : st.visited.contains nb = true
    · rw [if_pos hb]
      exact hcd
    · rw [if_neg hb]
      exact List.mem_append_left _ hcd
  have hprov_iff : ∀ (p : MazePosition) (w : ℕ), p ≠ nb →
      (((p, w) ∉ (nb, w0) :: rem2) ↔ ((p, w) ∉ rem2)) := by
    intro p w hp
    constructor
    · intro hn hmem
      exact hn (List.mem_cons_of_mem _ hmem)
    · intro hn hmem
      rcases List.mem_cons.mp hmem with h1 | h2
      · exact hp (congrArg Prod.fst h1)
      · exact hn h2
  constructor
  · dsimp only
    exact hstep.hposmem
  · dsimp only
    refine ⟨dpos, ?_, hdposc⟩
    rw [hlko pos hposnb]
    exact hdpos
  · exact hstep.hposmin
  · exact hstep.hposreach
  · dsimp only
    exact hstep.hcostB
  · dsimp only
    intro p d hd
    by_cases hp : p = nb
    · subst hp
      rw [hlknb] at hd
      cases hd
      exact hstep.sound p dOld hold
    · rw [hlko p hp] at hd
      exact hstep.sound p d hd
  · dsimp only
    intro cd hcd
    rcases hqmem cd hcd with h1 | ⟨h2, -⟩
    · obtain ⟨hr, d, hdl, hdle⟩ := hstep.qsound cd h1
      by_cases hcp : cd.pos = nb
      · rw [hcp, hold] at hdl
        cases hdl
        refine ⟨hr, ⟨dOld.cost, dOld.parents ++ [pos]⟩, ?_, hdle⟩
        rw [hcp]
        exact hlknb
      · refine ⟨hr, d, ?_, hdle⟩
        rw [hlko cd.pos hcp]
        exact hdl
    · subst h2
      refine ⟨hreach_nb, ⟨dOld.cost, dOld.parents ++ [pos]⟩, hlknb, ?_⟩
      show dOld.cost ≤ cost + w0
      omega
  · dsimp only
    intro v hv
    by_cases hvnb : v = nb
    · subst hvnb
      obtain ⟨dv, hdv, hmin⟩ := hstep.vfinal v hv
      rw [hold] at hdv
      cases hdv
      refine ⟨⟨dOld.cost, dOld.parents ++ [pos]⟩, hlknb, ?_⟩
      intro c hc
      show dOld.cost ≤ c
      exact hmin c hc
    · obtain ⟨dv, hdv, hmin⟩ := hstep.vfinal v hv
      refine ⟨dv, ?_, hmin⟩
      rw [hlko v hvnb]
      exact hdv
  · dsimp only
    intro v hv hvne q w hadj hopenq
    obtain ⟨dv, dq, hdv, hdq, hle⟩ := hstep.vrelaxed v hv hvne q w hadj hopenq
    by_cases hvnb : v = nb
    · rw [hvnb, hold] at hdv
      cases hdv
      by_cases hqnb : q = nb
      · rw [hqnb, hold] at hdq
        cases hdq
        refine ⟨⟨dOld.cost, dOld.parents ++ [pos]⟩,
          ⟨dOld.cost, dOld.parents ++ [pos]⟩, ?_, ?_, ?_⟩
        · rw [hvnb]
          exact hlknb
        · rw [hqnb]
          exact hlknb
        · show dOld.cost ≤ dOld.cost + w
          omega
      · refine ⟨⟨dOld.cost, dOld.parents ++ [pos]⟩, dq, ?_, ?_, ?_⟩
        · rw [hvnb]
          exact hlknb
        · rw [hlko q hqnb]
          exact hdq
        · show dq.cost ≤ dOld.cost + w
          exact hle
    · by_cases hqnb : q = nb
      · rw [hqnb, hold] at hdq
        cases hdq
        refine ⟨dv, ⟨dOld.cost, dOld.parents ++ [pos]⟩, ?_, ?_, ?_⟩
        · rw [hlko v hvnb]
          exact hdv
        · rw [hqnb]
          exact hlknb
        · show dOld.cost ≤ dv.cost + w
          exact hle
      · refine ⟨dv, dq, ?_, ?_, hle⟩
        · rw [hlko v hvnb]
          exact hdv
        · rw [hlko q hqnb]
          exact hdq
  · dsimp only
    intro q w hadj hnot hopenq
    by_cases hq : q = nb
    · subst hq
      have hww : w = w0 := adjacent_weight_unique hadj hmem_nb
      subst hww
      refine ⟨⟨dOld.cost, dOld.parents ++ [pos]⟩, hlknb, ?_⟩
      show dOld.cost ≤ cost + w
      omega
    · have hprov2 : ∀ w2, (q, w2) ∉ (nb, w0) :: rem2 := by
        intro w2 hmem
        rcases List.mem_cons.mp hmem with h1 | h2
        · exact hq (congrArg Prod.fst h1)
        · exact hnot w2 h2
      obtain ⟨dq, hdql, hdqle⟩ := hstep.posrelaxed q w hadj hprov2 hopenq
      refine ⟨dq, ?_, hdqle⟩
      rw [hlko q hq]
      exact hdql
  · dsimp only
    intro p d hd hnv
    by_cases hp : p = nb
    · subst hp
      rw [hlknb] at hd
      cases hd
      obtain ⟨cd, hcdm, hcdp, hcdc⟩ := hstep.fresh_q p dOld hold hnv
      refine ⟨cd, hqmem2 cd hcdm, hcdp, ?_⟩
      show cd.cost = dOld.cost
      exact hcdc
    · rw [hlko p hp] at hd
      obtain ⟨cd, hcdm, hcdp, hcdc⟩ := hstep.fresh_q p d hd hnv
      exact ⟨cd, hqmem2 cd hcdm, hcdp, hcdc⟩
  · dsimp only
    intro p d hd u
    by_cases hp : p = nb
    · subst hp
      rw [hlknb] at hd
      cases hd
      constructor
      · intro hu
        have hu2 : u ∈ dOld.parents ++ [pos] := hu
        rcases List.mem_append.mp hu2 with h1 | h2
        · obtain ⟨hu3, du, w, hdu, hadj, hprov, hopenp, heq2⟩ :=
            (hstep.parentsInv p dOld hold u).mp h1
          have hup : u ≠ pos := by
            intro hc
            have hww : w = w0 :=
              adjacent_weight_unique (hc ▸ hadj) hmem_nb
            refine (hprov hc) ?_
            rw [hww]
            exact List.mem_cons_self _ _
          have hune : u ≠ p := by
            intro hc
            rw [hc] at hadj
            exact not_self_adjacent hadj
          refine ⟨hu3, du, w, ?_, hadj, ?_, hopenp, ?_⟩
          · rw [hlko u hune]
            exact hdu
          · intro hc
            exact absurd hc hup
          · show du.cost + w = dOld.cost
            exact heq2
        · rw [List.mem_singleton] at h2
          subst h2
          refine ⟨hstep.hposmem, dpos, w0, ?_, hmem_nb, ?_, hopen, ?_⟩
          · rw [hlko u hposnb]
            exact hdpos
          · intro hc
            exact hntail w0
          · show dpos.cost + w0 = dOld.cost
            rw [hdposc]
            exact heqc0
      · rintro ⟨hu, du, w, hdu, hadj, hprov, hopenp, heq2⟩
        show u ∈ dOld.parents ++ [pos]
        by_cases hup : u = pos
        · subst hup
          exact List.mem_append_right _ (List.mem_singleton.mpr rfl)
        · have hune : u ≠ p := by
            intro hc
            rw [hc] at hadj
            exact not_self_adjacent hadj
          rw [hlko u hune] at hdu
          refine List.mem_append_left _
            ((hstep.parentsInv p dOld hold u).mpr ?_)
          refine ⟨hu, du, w, hdu, hadj, ?_, hopenp, ?_⟩
          · intro hc
            exact absurd hc hup
          · show du.cost + w = dOld.cost
            exact heq2
    · rw [hlko p hp] at hd
      rw [hstep.parentsInv p d hd u]
      constructor
      · rintro ⟨hu, du, w, hdu, hadj, hprov, hopenp, heq2⟩
        by_cases hune : u = nb
        · subst hune
          rw [hold] at hdu
          cases hdu
          refine ⟨hu, ⟨dOld.cost, dOld.parents ++ [pos]⟩, w, hlknb, hadj,
            ?_, hopenp, ?_⟩
          · intro hc
            exact absurd hc hnbpos
          · show dOld.cost + w = d.cost
            exact heq2
        · refine ⟨hu, du, w, ?_, hadj, ?_, hopenp, heq2⟩
          · rw [hlko u hune]
            exact hdu
          · intro hup
            exact (hprov_iff p w hp).mp (hprov hup)
      · rintro ⟨hu, du, w, hdu, hadj, hprov, hopenp, heq2⟩
        by_cases hune : u = nb
        · subst hune
          rw [hlknb] at hdu
          cases hdu
          refine ⟨hu, dOld, w, hold, hadj, ?_, hopenp, ?_⟩
          · intro hc
            exact absurd hc hnbpos
          · show dOld.cost + w = d.cost
            exact heq2
        · rw [hlko u hune] at hdu
          refine ⟨hu, du, w, hdu, hadj, ?_, hopenp, heq2⟩
          intro hup
          exact (hprov_iff p w hp).mpr (hprov hup)
  · dsimp only
    obtain ⟨d0, hd0, hd0c⟩ := hstep.startRec
    by_cases hs : start = nb
    · exfalso
      rw [hs, hold] at hd0
      cases hd0
      have h1 := hw0.1
      omega
    · refine ⟨d0, ?_, hd0c⟩
      rw [hlko start hs]
      exact hd0
  · dsimp only
    exact hstep.vnodup
  · dsimp only
    exact hstep.vvalid
  · dsimp only
    intro cd hcd
    rcases hqmem cd hcd with h1 | ⟨h2, -⟩
    · exact hstep.qvalid cd h1
    · subst h2
      exact mem_validPositions_of_open hopen
  · dsimp only
    intro p d hd
    by_cases hp : p = nb
    · subst hp
      rw [hlknb] at hd
      cases hd
      have h1 := hstep.pdBound p dOld hold
      show dOld.cost ≤ 1000 * (st.visited.length + 1)
      exact h1
    · rw [hlko p hp] at hd
      exact hstep.pdBound p d hd
  · dsimp only
    intro cd hcd
    rcases hqmem cd hcd with h1 | ⟨h2, -⟩
    · exact hstep.qBound cd h1
    · subst h2
      have h1 := hstep.hcostB
      have h2 := hw0.2
      show cost + w0 ≤ 1000 * (st.visited.length + 1)
      omega

/-- Relaxing one neighbor whose recorded cost is strictly below the offer:
the entry is written back unchanged. -/
theorem stepInv_noop {maze : Grid MazeTile} {start pos : MazePosition}
    {cost : ℕ} {done rem2 : List (MazePosition × ℕ)} {nb : MazePosition}
    {w0 : ℕ} {st : EState} {dOld : PathData}
    (hdec : pos.get_adjacent = done ++ (nb, w0) :: rem2)
    (hstep : StepInv maze start pos cost ((nb, w0) :: rem2) st)
    (hopen : openB maze nb.address = true)
    (hold : pdLookup st.path_data nb = some dOld)
    (hgt : dOld.cost < cost + w0) :
    StepInv maze start pos cost rem2
      (⟨pdUpdate st.path_data nb dOld,
        if st.visited.contains nb then st.to_search
        else st.to_search ++ [⟨nb, cost + w0⟩],
        st.visited⟩ : EState) := by
  have hmem_nb : (nb, w0) ∈ pos.get_adjacent := by
    rw [hdec]
    exact List.mem_append_right _ (List.mem_cons_self _ _)
  have hw0 := adjacent_weight_bounds hmem_nb
  have hntail : ∀ w2, (nb, w2) ∉ rem2 := adj_decomp_not_tail hdec
  obtain ⟨dpos, hdpos, hdposc⟩ := hstep.hpos
  have hnbpos : nb ≠ pos := by
    intro hc
    rw [hc] at hmem_nb
    exact not_self_adjacent hmem_nb
  have hposnb : pos ≠ nb := fun hc => hnbpos hc.symm
  have hreach_nb : CostReach maze start nb (cost + w0) :=
    CostReach.step hstep.hposreach hmem_nb hopen
  have hlkall : ∀ p2, pdLookup (pdUpdate st.path_data nb dOld) p2 =
      pdLookup st.path_data p2 := by
    intro p2
    by_cases hp2 : p2 = nb
    · subst hp2
      rw [pdLookup_update_self, hold]
    · exact pdLookup_update_ne _ _ _ hp2
  have hqmem : ∀ cd : PathCandidate, cd ∈ (if st.visited.contains nb then
      st.to_search else st.to_search ++ [⟨nb, cost + w0⟩]) →
      cd ∈ st.to_search ∨ (cd = ⟨nb, cost + w0⟩ ∧ nb ∉ st.visited) := by
    intro cd hcd
    by_cases hb : st.visited.contains nb = true
    · rw [if_pos hb] at hcd
      exact Or.inl hcd
    · rw [if_neg hb] at hcd
      rcases List.mem_append.mp hcd with h1 | h2
      · exact Or.inl h1
      · rw [List.mem_singleton] at h2
        refine Or.inr ⟨h2, ?_⟩
        intro hc
        exact hb (list_contains_iff.mpr hc)
  have hqmem2 : ∀ cd ∈ st.to_search, cd ∈ (if st.visited.contains nb then
      st.to_search else st.to_search ++ [⟨nb, cost + w0⟩]) := by
    intro cd hcd
    by_cases hb : st.visited.contains nb = true
    · rw [if_pos hb]
      exact hcd
    · rw [if_neg hb]
      exact List.mem_append_left _ hcd
  have hprov_iff : ∀ (p : MazePosition) (w : ℕ), p ≠ nb →
      (((p, w) ∉ (nb, w0) :: rem2) ↔ ((p, w) ∉ rem2)) := by
    intro p w hp
    constructor
    · intro hn hmem
      exact hn (List.mem_cons_of_mem _ hmem)
    · intro hn hmem
      rcases List.mem_cons.mp hmem with h1 | h2
      · exact hp (congrArg Prod.fst h1)
      · exact hn h2
  constructor
  · dsimp only
    exact hstep.hposmem
  · dsimp only
    refine ⟨dpos, ?_, hdposc⟩
    rw [hlkall pos]
    exact hdpos
  · exact hstep.hposmin
  · exact hstep.hposreach
  · dsimp only
    exact hstep.hcostB
  · dsimp only
    intro p d hd
    rw [hlkall p] at hd
    exact hstep.sound p d hd
  · dsimp only
    intro cd hcd
    rcases hqmem cd hcd with h1 | ⟨h2, -⟩
    · obtain ⟨hr, d, hdl, hdle⟩ := hstep.qsound cd h1
      refine ⟨hr, d, ?_, hdle⟩
      rw [hlkall cd.pos]
      exact hdl
    · subst h2
      refine ⟨hreach_nb, dOld, ?_, ?_⟩
      · rw [hlkall nb]
        exact hold
      · show dOld.cost ≤ cost + w0
        omega
  · dsimp only
    intro v hv
    obtain ⟨dv, hdv, hmin⟩ := hstep.vfinal v hv
    refine ⟨dv, ?_, hmin⟩
    rw [hlkall v]
    exact hdv
  · dsimp only
    intro v hv hvne q w hadj hopenq
    obtain ⟨dv, dq, hdv, hdq, hle⟩ := hstep.vrelaxed v hv hvne q w hadj hopenq
    refine ⟨dv, dq, ?_, ?_, hle⟩
    · rw [hlkall v]
      exact hdv
    · rw [hlkall q]
      exact hdq
  · dsimp only
    intro q w hadj hnot hopenq
    by_cases hq : q = nb
    · subst hq
      have hww : w = w0 := adjacent_weight_unique hadj hmem_nb
      subst hww
      refine ⟨dOld, ?_, ?_⟩
      · rw [hlkall q]
        exact hold
      · show dOld.cost ≤ cost + w
        omega
    · have hprov2 : ∀ w2, (q, w2) ∉ (nb, w0) :: rem2 := by
        intro w2 hmem
        rcases List.mem_cons.mp hmem with h1 | h2
        · exact hq (congrArg Prod.fst h1)
        · exact hnot w2 h2
      obtain ⟨dq, hdql, hdqle⟩ := hstep.posrelaxed q w hadj hprov2 hopenq
      refine ⟨dq, ?_, hdqle⟩
      rw [hlkall q]
      exact hdql
  · dsimp only
    intro p d hd hnv
    rw [hlkall p] at hd
    obtain ⟨cd, hcdm, hcdp, hcdc⟩ := hstep.fresh_q p d hd hnv
    exact ⟨cd, hqmem2 cd hcdm, hcdp, hcdc⟩
  · dsimp only
    intro p d hd u
    rw [hlkall p] at hd
    rw [hstep.parentsInv p d hd u]
    constructor
    · rintro ⟨hu, du, w, hdu, hadj, hprov, hopenp, heq2⟩
      refine ⟨hu, du, w, ?_, hadj, ?_, hopenp, heq2⟩
      · rw [hlkall u]
        exact hdu
      · intro hup
        by_cases hpnb : p = nb
        · rw [hup] at hadj
          rw [hpnb] at hadj
          have hww : w = w0 := adjacent_weight_unique hadj hmem_nb
          rw [hpnb, hww]
          exact hntail w0
        · exact (hprov_iff p w hpnb).mp (hprov hup)
    · rintro ⟨hu, du, w, hdu, hadj, hprov, hopenp, heq2⟩
      rw [hlkall u] at hdu
      refine ⟨hu, du, w, hdu, hadj, ?_, hopenp, heq2⟩
      intro hup
      by_cases hpnb : p = nb
      · exfalso
        rw [hup] at hdu hadj
        rw [hpnb] at hadj hd
        rw [hdpos] at hdu
        cases hdu
        rw [hold] at hd
        cases hd
        have hww : w = w0 := adjacent_weight_unique hadj hmem_nb
        rw [hww, hdposc] at heq2
        omega
      · exact (hprov_iff p w hpnb).mpr (hprov hup)
  · dsimp only
    obtain ⟨d0, hd0, hd0c⟩ := hstep.startRec
    refine ⟨d0, ?_, hd0c⟩
    rw [hlkall start]
    exact hd0
  · dsimp only
    exact hstep.vnodup
  · dsimp only
    exact hstep.vvalid
  · dsimp only
    intro cd hcd
    rcases hqmem cd hcd with h1 | ⟨h2, -⟩
    · exact hstep.qvalid cd h1
    · subst h2
      exact mem_validPositions_of_open hopen
  · dsimp only
    intro p d hd
    rw [hlkall p] at hd
    exact hstep.pdBound p d hd
  · dsimp only
    intro cd hcd
    rcases hqmem cd hcd with h1 | ⟨h2, -⟩
    · exact hstep.qBound cd h1
    · subst h2
      have h1 := hstep.hcostB
      have h2 := hw0.2
      show cost + w0 ≤ 1000 * (st.visited.length + 1)
      omega

/-- One call of the inner neighbor loop preserves the mid-relaxation
invariant, removing the processed neighbor from the remaining list. -/
theorem processNeighbor_step {maze : Grid MazeTile} {start pos : MazePosition}
    {cost : ℕ} {done rem2 : List (MazePosition × ℕ)} {nb : MazePosition}
    {w0 : ℕ} {st : EState}
    (hsize : 4000 * totalTiles maze + 3000 < u32Count)
    (hdec : pos.get_adjacent = done ++ (nb, w0) :: rem2)
    (hstep : StepInv maze start pos cost ((nb, w0) :: rem2) st) :
    StepInv maze start pos cost rem2
      (processNeighbor maze pos cost st (nb, w0)) ∧
    (processNeighbor maze pos cost st (nb, w0)).visited = st.visited ∧
    (processNeighbor maze pos cost st (nb, w0)).to_search.length ≤
      st.to_search.length + 1 := by
  by_cases hopen : openB maze nb.address = true
  · have hmem_nb : (nb, w0) ∈ pos.get_adjacent := by
      rw [hdec]
      exact List.mem_append_right _ (List.mem_cons_self _ _)
    have hw0 := adjacent_weight_bounds hmem_nb
    have hvislen : st.visited.length ≤ 4 * totalTiles maze + 1 := by
      have h1 := nodup_length_le_card hstep.vnodup hstep.vvalid
      have h2 := card_validPositions maze start
      omega
    have hu32 : u32Count = 4294967296 := by
      unfold u32Count
      norm_num
    have hnowrap : cost + w0 < u32Count := by
      have h1 := hstep.hcostB
      have h2 := hw0.2
      rw [hu32]
      rw [hu32] at hsize
      omega
    have hncost : (cost + w0) % u32Count = cost + w0 := Nat.mod_eq_of_lt hnowrap
    have hres := processNeighbor_open pos cost st w0 hopen
    rw [hncost] at hres
    have hqlen : (if st.visited.contains nb then st.to_search
        else st.to_search ++ [⟨nb, cost + w0⟩]).length ≤
        st.to_search.length + 1 := by
      by_cases hb : st.visited.contains nb = true
      · rw [if_pos hb]
        omega
      · rw [if_neg hb, List.length_append, List.length_singleton]
    rcases hold : pdLookup st.path_data nb with _ | dOld
    · rw [hold, relaxDatum_none] at hres
      rw [hres]
      have hnbnv : nb ∉ st.visited := by
        intro hv
        obtain ⟨dn, hdn, -⟩ := hstep.vfinal nb hv
        rw [hold] at hdn
        cases hdn
      have hlow : ∀ d2, pdLookup st.path_data nb = some d2 →
          cost + w0 < d2.cost := by
        intro d2 h2
        rw [hold] at h2
        cases h2
      exact ⟨stepInv_improve hdec hstep hopen hlow hnbnv, rfl, hqlen⟩
    · rcases lt_trichotomy (cost + w0) dOld.cost with hlt | heqc | hgt
      · rw [hold, relaxDatum_lt hlt] at hres
        rw [hres]
        have hnbnv : nb ∉ st.visited := by
          intro hv
          obtain ⟨dn, hdn, hmin⟩ := hstep.vfinal nb hv
          rw [hold] at hdn
          cases hdn
          have h2 := hmin _
            (CostReach.step hstep.hposreach hmem_nb hopen)
          omega
        have hlow : ∀ d2, pdLookup st.path_data nb = some d2 →
            cost + w0 < d2.cost := by
          intro d2 h2
          rw [hold] at h2
          cases h2
          exact hlt
        exact ⟨stepInv_improve hdec hstep hopen hlow hnbnv, rfl, hqlen⟩
      · rw [hold, relaxDatum_eq heqc] at hres
        rw [hres]
        exact ⟨stepInv_equal hdec hstep hopen hold heqc, rfl, hqlen⟩
      · rw [hold, relaxDatum_gt hgt] at hres
        rw [hres]
        exact ⟨stepInv_noop hdec hstep hopen hold hgt, rfl, hqlen⟩
  · rw [processNeighbor_closed pos cost st w0 hopen]
    refine ⟨?_, rfl, by omega⟩
    constructor
    · exact hstep.hposmem
    · exact hstep.hpos
    · exact hstep.hposmin
    · exact hstep.hposreach
    · exact hstep.hcostB
    · exact hstep.sound
    · exact hstep.qsound
    · exact hstep.vfinal
    · exact hstep.vrelaxed
    · intro q w hadj hnot hopenq
      refine hstep.posrelaxed q w hadj ?_ hopenq
      intro w2 hmem
      rcases List.mem_cons.mp hmem with h1 | h2
      · have hq : q = nb := congrArg Prod.fst h1
        rw [hq] at hopenq
        exact hopen hopenq
      · exact hnot w2 h2
    · exact hstep.fresh_q
    · intro p d hd u
      rw [hstep.parentsInv p d hd u]
      constructor
      · rintro ⟨hu, du, w, hdu, hadj, hprov, hopenp, heq2⟩
        refine ⟨hu, du, w, hdu, hadj, ?_, hopenp, heq2⟩
        intro hup hmem
        exact (hprov hup) (List.mem_cons_of_mem _ hmem)
      · rintro ⟨hu, du, w, hdu, hadj, hprov, hopenp, heq2⟩
        refine ⟨hu, du, w, hdu, hadj, ?_, hopenp, heq2⟩
        intro hup hmem
        rcases List.mem_cons.mp hmem with h1 | h2
        · have hp2 : p = nb := congrArg Prod.fst h1
          rw [hp2] at hopenp
          exact hopen hopenp
        · exact (hprov hup) h2
    · exact hstep.startRec
    · exact hstep.vnodup
    · exact hstep.vvalid
    · exact hstep.qvalid
    · exact hstep.pdBound
    · exact hstep.qBound

/-- Folding the neighbor loop over the whole remaining list yields the
fully relaxed mid-invariant; the queue grows by at most one candidate per
neighbor and the visited set is untouched. -/
theorem foldNeighbors_spec {maze : Grid MazeTile} {start pos : MazePosition}
    {cost : ℕ} (hsize : 4000 * totalTiles maze + 3000 < u32Count) :
    ∀ (rem done : List (MazePosition × ℕ)) (st : EState),
      pos.get_adjacent = done ++ rem →
      StepInv maze start pos cost rem st →
      StepInv maze start pos cost []
        (rem.foldl (processNeighbor maze pos cost) st) ∧
      (rem.foldl (processNeighbor maze pos cost) st).visited = st.visited ∧
      (rem.foldl (processNeighbor maze pos cost) st).to_search.length ≤
        st.to_search.length + rem.length := by
  intro rem
  induction rem with
  | nil =>
    intro done st hdec hstep
    exact ⟨hstep, rfl, by rw [List.foldl_nil]; omega⟩
  | cons ne rem2 ih =>
    intro done st hdec hstep
    rcases ne with ⟨nb, w0⟩
    obtain ⟨h1, h2, h3⟩ := processNeighbor_step hsize hdec hstep
    have hdec2 : pos.get_adjacent = (done ++ [(nb, w0)]) ++ rem2 := by
      rw [hdec, List.append_assoc]
      rfl
    obtain ⟨h4, h5, h6⟩ := ih (done ++ [(nb, w0)])
      (processNeighbor maze pos cost st (nb, w0)) hdec2 h1
    rw [List.foldl_cons]
    refine ⟨h4, ?_, ?_⟩
    · rw [h5, h2]
    · rw [List.length_cons]
      omega

/-- When no neighbor of the popped node is left to relax, the
mid-relaxation invariant collapses back to the loop invariant. -/
theorem stepInv_done {maze : Grid MazeTile} {start pos : MazePosition}
    {cost : ℕ} {st : EState}
    (hstep : StepInv maze start pos cost [] st) : DijkInv maze start st := by
  constructor
  · exact hstep.sound
  · exact hstep.qsound
  · exact hstep.vfinal
  · intro v hv q w hadj hopenq
    by_cases hvp : v = pos
    · subst hvp
      obtain ⟨dq, hdq, hdqle⟩ := hstep.posrelaxed q w hadj
        (fun w2 hmem => absurd hmem (List.not_mem_nil _)) hopenq
      obtain ⟨dv, hdv, hdvc⟩ := hstep.hpos
      refine ⟨dv, dq, hdv, hdq, ?_⟩
      rw [hdvc]
      exact hdqle
    · exact hstep.vrelaxed v hv hvp q w hadj hopenq
  · exact hstep.fresh_q
  · intro p d hd u
    rw [hstep.parentsInv p d hd u]
    constructor
    · rintro ⟨hu, du, w, hdu, hadj, -, hopenp, heq2⟩
      exact ⟨hu, du, w, hdu, hadj, hopenp, heq2⟩
    · rintro ⟨hu, du, w, hdu, hadj, hopenp, heq2⟩
      exact ⟨hu, du, w, hdu, hadj,
        fun hup hmem => absurd hmem (List.not_mem_nil _), hopenp, heq2⟩
  · exact hstep.startRec
  · exact hstep.vnodup
  · exact hstep.vvalid
  · exact hstep.qvalid
  · exact hstep.pdBound
  · exact hstep.qBound

/-- Running the exploration loop with enough fuel drains the queue while
keeping the invariant. -/
theorem exploreLoop_run {maze : Grid MazeTile} {start : MazePosition}
    (hsize : 4000 * totalTiles maze + 3000 < u32Count) :
    ∀ (fuel : ℕ) (st : EState), DijkInv maze start st →
      3 * ((validPositions maze start).card - st.visited.length) +
        st.to_search.length < fuel →
      ∃ stf : EState, exploreLoop maze fuel st = stf.path_data ∧
        DijkInv maze start stf ∧ stf.to_search = [] := by
  intro fuel
  induction fuel with
  | zero =>
    intro st hinv hmu
    omega
  | succ f ih =>
    intro st hinv hmu
    rcases hpop : popMin st.to_search with _ | cr
    · refine ⟨st, ?_, hinv, popMin_eq_none.mp hpop⟩
      rw [exploreLoop_succ, hpop]
    · rcases cr with ⟨cand, rest⟩
      have hql := popMin_length hpop
      by_cases hvis : st.visited.contains cand.pos = true
      · have hinv2 := dijkInv_skip hinv hpop (list_contains_iff.mp hvis)
        have hmu2 : 3 * ((validPositions maze start).card -
            (⟨st.path_data, rest, st.visited⟩ : EState).visited.length) +
            (⟨st.path_data, rest, st.visited⟩ : EState).to_search.length <
            f := by
          dsimp only
          omega
        obtain ⟨stf, h1, h2, h3⟩ := ih _ hinv2 hmu2
        refine ⟨stf, ?_, h2, h3⟩
        rw [exploreLoop_succ, hpop]
        dsimp only
        rw [if_pos hvis]
        exact h1
      · have hfresh : cand.pos ∉ st.visited :=
          fun hc => hvis (list_contains_iff.mpr hc)
        have hstep0 := dijkInv_pop_fresh hinv hpop hfresh
        have hlen3 := length_get_adjacent cand.pos
        obtain ⟨hstepf, hviseq, hqlen⟩ := foldNeighbors_spec hsize
          cand.pos.get_adjacent [] ⟨st.path_data, rest, cand.pos :: st.visited⟩
          (by rw [List.nil_append]) hstep0
        have hinv2 := stepInv_done hstepf
        have hvc : (cand.pos.get_adjacent.foldl
            (processNeighbor maze cand.pos cand.cost)
            ⟨st.path_data, rest, cand.pos :: st.visited⟩).visited.length =
            st.visited.length + 1 := by
          rw [hviseq]
          dsimp only
          rw [List.length_cons]
        have hvbound : (cand.pos.get_adjacent.foldl
            (processNeighbor maze cand.pos cand.cost)
            ⟨st.path_data, rest, cand.pos :: st.visited⟩).visited.length ≤
            (validPositions maze start).card :=
          nodup_length_le_card hinv2.vnodup hinv2.vvalid
        have hq2 : (cand.pos.get_adjacent.foldl
            (processNeighbor maze cand.pos cand.cost)
            ⟨st.path_data, rest, cand.pos :: st.visited⟩).to_search.length ≤
            rest.length + 3 := by
          have h7 := hqlen
          dsimp only at h7
          omega
        have hmu2 : 3 * ((validPositions maze start).card -
            (cand.pos.get_adjacent.foldl
              (processNeighbor maze cand.pos cand.cost)
              ⟨st.path_data, rest, cand.pos :: st.visited⟩).visited.length) +
            (cand.pos.get_adjacent.foldl
              (processNeighbor maze cand.pos cand.cost)
              ⟨st.path_data, rest, cand.pos :: st.visited⟩).to_search.length <
            f := by
          rw [hvc]
          omega
        obtain ⟨stf, h1, h2, h3⟩ := ih _ hinv2 hmu2
        refine ⟨stf, ?_, h2, h3⟩
        rw [exploreLoop_succ, hpop]
        dsimp only
        rw [if_neg hvis]
        exact h1

/-- End-to-end correctness of `explore`: every recorded entry carries the
minimal reachable cost and exactly the optimal predecessors; every
reachable position is recorded. -/
theorem explore_spec (maze : Grid MazeTile) (sa : GridAddress)
    (hsize : 4000 * totalTiles maze + 3000 < u32Count) :
    (∀ p d, pdLookup (explore maze sa) p = some d →
      CostReach maze ⟨sa, Cardinal.east⟩ p d.cost ∧
      (∀ c, CostReach maze ⟨sa, Cardinal.east⟩ p c → d.cost ≤ c) ∧
      (∀ u, u ∈ d.parents ↔ ∃ du w,
        pdLookup (explore maze sa) u = some du ∧
        (p, w) ∈ u.get_adjacent ∧ openB maze p.address = true ∧
        du.cost + w = d.cost)) ∧
    (∀ p c, CostReach maze ⟨sa, Cardinal.east⟩ p c →
      ∃ d, pdLookup (explore maze sa) p = some d) := by
  have hinit := dijkInv_init maze ⟨sa, Cardinal.east⟩
  have hcard := card_validPositions maze (⟨sa, Cardinal.east⟩ : MazePosition)
  have hmu : 3 * ((validPositions maze ⟨sa, Cardinal.east⟩).card -
      (⟨[((⟨sa, Cardinal.east⟩ : MazePosition), (⟨0, []⟩ : PathData))],
        [(⟨⟨sa, Cardinal.east⟩, 0⟩ : PathCandidate)], []⟩ :
        EState).visited.length) +
      (⟨[((⟨sa, Cardinal.east⟩ : MazePosition), (⟨0, []⟩ : PathData))],
        [(⟨⟨sa, Cardinal.east⟩, 0⟩ : PathCandidate)], []⟩ :
        EState).to_search.length <
      3 * (4 * totalTiles maze + 1) + 2 := by
    show 3 * ((validPositions maze ⟨sa, Cardinal.east⟩).card - 0) + 1 <
      3 * (4 * totalTiles maze + 1) + 2
    omega
  obtain ⟨stf, hrun, hinv, hqe⟩ := exploreLoop_run hsize _ _ hinit hmu
  have hexp : explore maze sa = stf.path_data := by
    unfold explore
    exact hrun
  have hallvis : ∀ p d, pdLookup stf.path_data p = some d →
      p ∈ stf.visited := by
    intro p d hd
    by_contra hnv
    obtain ⟨cd, hcdm, -, -⟩ := hinv.fresh_q p d hd hnv
    rw [hqe] at hcdm
    exact absurd hcdm (List.not_mem_nil cd)
  constructor
  · intro p d hd
    rw [hexp] at hd
    have hpv := hallvis p d hd
    obtain ⟨d2, hd2, hmin⟩ := hinv.vfinal p hpv
    rw [hd] at hd2
    cases hd2
    refine ⟨hinv.sound p d hd, hmin, ?_⟩
    intro u
    rw [hinv.parentsInv p d hd u]
    constructor
    · rintro ⟨hu, du, w, hdu, hadj, hopenp, heq2⟩
      refine ⟨du, w, ?_, hadj, hopenp, heq2⟩
      rw [hexp]
      exact hdu
    · rintro ⟨du, w, hdu, hadj, hopenp, heq2⟩
      rw [hexp] at hdu
      exact ⟨hallvis u du hdu, du, w, hdu, hadj, hopenp, heq2⟩
  · intro p c hc
    rw [hexp]
    rcases hlk : pdLookup stf.path_data p with _ | d
    · exfalso
      have hnv : p ∉ stf.visited := by
        intro hv
        obtain ⟨d2, hd2, -⟩ := hinv.vfinal p hv
        rw [hlk] at hd2
        cases hd2
      obtain ⟨z, dz, hz, hzn, -⟩ := dijk_frontier hinv p c hc hnv
      exact hzn (hallvis z dz hz)
    · exact ⟨d, rfl⟩

/-- Claim C1: after `explore()` finishes on a maze, for every position
recorded in its result map the `cost` field is the minimal cost to reach
that position from the start position facing East, and the `parents` list
contains exactly the predecessor positions that reach it at that minimal
cost; moreover the per-neighbor relaxation discovers a strictly lower cost
by clearing the parent list and replacing it with the new relaxing node,
while an equal cost appends the predecessor instead of discarding it.
Stated under the cost-capacity hypothesis that `4000 * tiles + 3000`
(a bound on every cost the search can form) fits in a `u32`, which makes
the source's `u32` arithmetic exact. -/
theorem explore_multiparent_dijkstra (maze : Grid MazeTile) (sa : GridAddress)
    (hsize : 4000 * totalTiles maze + 3000 < u32Count) :
    (∀ p d, pdLookup (explore maze sa) p = some d →
      (CostReach maze ⟨sa, Cardinal.east⟩ p d.cost ∧
        ∀ c, CostReach maze ⟨sa, Cardinal.east⟩ p c → d.cost ≤ c) ∧
      (∀ u, u ∈ d.parents ↔ ∃ du w,
        pdLookup (explore maze sa) u = some du ∧
        (p, w) ∈ u.get_adjacent ∧ openB maze p.address = true ∧
        du.cost + w = d.cost)) ∧
    (∀ p c, CostReach maze ⟨sa, Cardinal.east⟩ p c →
      ∃ d, pdLookup (explore maze sa) p = some d) ∧
    (∀ (d : PathData) (n : ℕ) (pos : MazePosition),
      n < d.cost → relaxDatum (some d) n pos = ⟨n, [pos]⟩) ∧
    (∀ (d : PathData) (pos : MazePosition),
      relaxDatum (some d) d.cost pos = ⟨d.cost, d.parents ++ [pos]⟩) := by
  refine ⟨?_, (explore_spec maze sa hsize).2, ?_, ?_⟩
  · intro p d hd
    obtain ⟨h1, h2, h3⟩ := (explore_spec maze sa hsize).1 p d hd
    exact ⟨⟨h1, h2⟩, h3⟩
  · intro d n pos h
    exact relaxDatum_lt h pos
  · intro d pos
    exact relaxDatum_eq rfl pos

/-- Tiny open 1 by 2 maze used to witness claim C1. -/
def mazeW : Grid MazeTile := ⟨[[MazeTile.openTile, MazeTile.openTile]]⟩

/-- Witness for claim C1: on the open 1 by 2 maze the capacity hypothesis
holds and the start position is recorded with cost 0. -/
theorem explore_multiparent_dijkstra_witness :
    4000 * totalTiles mazeW + 3000 < u32Count ∧
    ∃ d, pdLookup (explore mazeW ⟨0, 0⟩)
        ⟨⟨0, 0⟩, Cardinal.east⟩ = some d ∧ d.cost = 0 := by
  have h := explore_multiparent_dijkstra mazeW ⟨0, 0⟩ (by decide)
  obtain ⟨d, hd⟩ := h.2.1 ⟨⟨0, 0⟩, Cardinal.east⟩ 0 CostReach.refl
  refine ⟨by decide, d, hd, ?_⟩
  exact Nat.le_antisymm ((h.1 _ d hd).1.2 0 CostReach.refl) (Nat.zero_le _)

end AoC


